import Mathlib

/-!
# matchine: `ni::type_hierarchy` and `ni::match`

A shallow embedding of the header-only library (`include/ni/type_hierarchy.h`,
`include/ni/functional/match.h`, `include/ni/functional/overload.h`,
`include/ni/meta/*.h`).

Conventions of the embedding

* Template arguments become ordinary arguments.  A class type is named by a
  natural number (user classes) or by its derivation (`HType`).
* Everything the C++ program can fail with is a `Fault`: a program that the
  compiler must reject (`ill_formed`), a failed `BOOST_ASSERT_MSG`
  (`assertion_failed`), a shift whose count is not smaller than the width of
  the promoted left operand, evaluated at run time (`undefined_shift`), and a
  template recursion that is cut off (`depth_exceeded`).
* Values of an unsigned id type of width `w` are naturals reduced modulo
  `2 ^ w`.  `int` has 32 bits (`int_bits`); `uint8_t` and `uint16_t` operands
  are promoted to `int` before `<<`, `|`, `&`, `<` and `==`.
* A template argument of an integral type is a `meta.Constant`: a sum of
  operands narrower than `int` is formed in `int` and has to be representable
  in the type, a signed sum must not overflow, and an unsigned sum of at least
  the width of `int` wraps.
* Function-local statics and static data members live in a `Registry` that is
  passed explicitly.
* Handlers of a matcher may have side effects; they are state-passing
  functions over an arbitrary state type `σ`.
-/

namespace ni

/-- Ways in which a use of the library does not produce a value. -/
inductive Fault
  | ill_formed
  | assertion_failed
  | undefined_shift
  | depth_exceeded
deriving DecidableEq, Repr

/-! ## `ni/meta` -/

namespace meta

/-- Source `fold_add<Integral, ns...>` (fold_add.h): only declared for the empty pack. -/
def fold_add {Integral : Type} [Add Integral] : List Integral → Option Integral
  | [] => none
  | [n] => some n
  | n :: m :: ns => (fold_add (m :: ns)).map (fun v => n + v)

/-- Source `scan_add_impl<Integral, integer_sequence<Ms...>, N, Ns...>` (scan_add.h). -/
def scan_add_impl {Integral : Type} [Add Integral] :
    List Integral → Integral → List Integral → List Integral
  | Ms, N, [] => Ms ++ [N]
  | Ms, N1, N2 :: Ns => scan_add_impl (Ms ++ [N1]) (N1 + N2) Ns

/-- Source `scan_add<Integral, Ns...>`: no specialisation of `scan_add_impl` matches the empty pack. -/
def scan_add {Integral : Type} [Add Integral] : List Integral → Option (List Integral)
  | [] => none
  | N :: Ns => some (scan_add_impl [] N Ns)

/-- Source `detail::as_true<b>::value` (fold_and.h). -/
def as_true (_b : Bool) : Bool := true

/-- Source `fold_and<bs...>`: `is_same< bools<as_true<bs>::value...>, bools<bs...> >`. -/
def fold_and (bs : List Bool) : Bool := decide (bs.map as_true = bs)

/-- Source `fold_or<bs...>` (fold_or.h): `not fold_and< (not bs)... >::value`. -/
def fold_or (bs : List Bool) : Bool := !(fold_and (bs.map (fun b => !b)))

/-- Addition in a signed integral type of width `w` inside a constant expression: `none`
stands for an expression that is not a constant expression, which an overflowing sum is. -/
def signed_add (w : Nat) (a b : Option Int) : Option Int :=
  match a, b with
  | some x, some y =>
    if -(2 ^ (w - 1) : Int) ≤ x + y ∧ x + y < 2 ^ (w - 1) then some (x + y) else none
  | _, _ => none

/-- Constant expressions of a signed integral type of width `w`. -/
structure Signed (w : Nat) where
  value : Option Int

instance (w : Nat) : Add (Signed w) := ⟨fun a b => ⟨signed_add w a.value b.value⟩⟩

/-- The sequence `init, init + n_1, ..., init + n_1 + ... + n_N` of running sums, in the
words of the documentation of scan_add.h. -/
def running_sums {Integral : Type} [Add Integral] : Integral → List Integral → List Integral
  | init, [] => [init]
  | init, n :: ns => init :: running_sums (init + n) ns

/-- Source `meta::try_t = dispatch<1>` (try_catch.h), named by its level. -/
def try_t : Nat := 1

/-- Source `meta::catch_t = dispatch<0>` (try_catch.h), named by its level. -/
def catch_t : Nat := 0

/-- Overload resolution among function templates that differ in a `dispatch<level>` parameter
(dispatch.h), for a call with a `dispatch<arg>` object.  A candidate is given by the level of
its parameter and by its body, `none` when substitution into its declaration fails.  Since
`dispatch<n>` derives from `dispatch<n - 1>`, a candidate is viable when its level is at most
`arg`, and the conversion to the nearest base is the best; two viable candidates of the best
level are ambiguous. -/
def dispatch {α : Type} (arg : Nat) (candidates : List (Nat × Option α)) : Except Fault α :=
  let viable := candidates.filter (fun c => decide (c.1 ≤ arg) && c.2.isSome)
  let best := (viable.map Prod.fst).foldl max 0
  match viable.filter (fun c => c.1 == best) with
  | [(_, some f)] => .ok f
  | _ => .error .ill_formed

/-- An integral type as a template parameter `Integral`: whether it is signed, and its
width in bits. -/
structure IntegralType where
  is_signed : Bool
  bits : Nat
deriving DecidableEq, Repr

/-- Whether the value is representable in the type. -/
def IntegralType.fits (T : IntegralType) (v : Int) : Bool :=
  if T.is_signed then decide (-(2 ^ (T.bits - 1) : Int) ≤ v ∧ v < 2 ^ (T.bits - 1))
  else decide (0 ≤ v ∧ v < 2 ^ T.bits)

/-- Whether sums in the type are reduced modulo `2 ^ bits`: the type is unsigned and at
least as wide as `int` (32 bits), so that its operands are not promoted to `int`. -/
def IntegralType.wraps (T : IntegralType) : Bool := !T.is_signed && decide (32 ≤ T.bits)

/-- The sum `a + b` of two values of type `Integral`, written as a template argument of type
`Integral`.  Operands narrower than `int` are promoted, the sum is formed in `int` and has
to be converted back, which a converted constant expression allows only when the value is
representable (no narrowing); a signed sum that overflows is not a constant expression; an
unsigned sum of at least the width of `int` wraps.  `none` stands for a template argument
that makes the program ill-formed. -/
def integral_add (T : IntegralType) (a b : Int) : Option Int :=
  if T.bits < 32 then
    if T.fits (a + b) then some (a + b) else none
  else if T.is_signed then
    if T.fits (a + b) then some (a + b) else none
  else some ((a + b) % 2 ^ T.bits)

/-- A template argument of type `Integral`: its value, or `none` when the expression written
for it is not a valid argument. -/
structure Constant (T : IntegralType) where
  value : Option Int
deriving DecidableEq, Repr

instance (T : IntegralType) : Add (Constant T) :=
  ⟨fun a b => ⟨match a.value, b.value with
    | some x, some y => integral_add T x y
    | _, _ => none⟩⟩

/-- The template argument written as the number `n`: it has to be representable. -/
def IntegralType.constant (T : IntegralType) (n : Int) : Constant T :=
  ⟨if T.fits n then some n else none⟩

/-- The values of a sequence of template arguments, when all of them are valid. -/
def Constant.values {T : IntegralType} : List (Constant T) → Option (List Int)
  | [] => some []
  | c :: cs =>
    match c.value, Constant.values cs with
    | some v, some vs => some (v :: vs)
    | _, _ => none

/-- Source `fold_add_v<Integral, ns...>` for an integral type of the given signedness and
width: the value, or `none` when the instantiation is ill-formed. -/
def fold_add_v (T : IntegralType) (ns : List Int) : Option Int :=
  (fold_add (ns.map T.constant)).bind Constant.value

/-- Source `scan_add_t<Integral, Ns...>` for an integral type of the given signedness and
width: the elements of the `integer_sequence`, or `none` when the instantiation is
ill-formed. -/
def scan_add_t (T : IntegralType) (Ns : List Int) : Option (List Int) :=
  (scan_add (Ns.map T.constant)).bind Constant.values

/-- The type `int`. -/
def int32 : IntegralType := { is_signed := true, bits := 32 }

/-- The type `unsigned int`. -/
def uint32 : IntegralType := { is_signed := false, bits := 32 }

/-- The type `unsigned char`. -/
def uint8 : IntegralType := { is_signed := false, bits := 8 }

end meta

/-! ## `ni/type_hierarchy.h` -/

namespace type_hierarchy_detail

/-- Width of `int`. -/
def int_bits : Nat := 32

/-- Shift `a << sh` for a non-negative `int` value `a`: defined when the result is representable
in `int`.  (For `1 << 31` the shift itself yields `INT_MIN`, but every use in the header
subtracts one or compares afterwards, so the value is never usable.) -/
def int_shl (a sh : Nat) : Option Nat :=
  if a * 2 ^ sh < 2 ^ (int_bits - 1) then some (a <<< sh) else none

/-- Shift `a << sh` for an operand of the id type of width `w` (after integral promotion). -/
def id_shl (w a sh : Nat) : Option Nat :=
  if w < int_bits then int_shl a sh
  else if sh < w then some ((a <<< sh) % 2 ^ w) else none

/-- Source `int_for_bits<NumBits>` with the template recursion unrolled at most `fuel` times. -/
def int_for_bits_from : Nat → Nat → Option Nat
  | 0, _ => none
  | fuel + 1, NumBits =>
    if NumBits = 8 then some 8
    else if NumBits = 16 then some 16
    else if NumBits = 32 then some 32
    else if NumBits = 64 then some 64
    else int_for_bits_from fuel (NumBits + 1)

/-- Source `int_for_bits<NumBits>::type`, as the width of the chosen unsigned type.  From any
`NumBits ≤ 64` a specialisation is reached within 32 steps; from `NumBits > 64` the primary
template recurses for ever and the program is rejected. -/
def int_for_bits (NumBits : Nat) : Option Nat := int_for_bits_from 65 NumBits

/-- Source `builder<BaseType, BitsPerLevel...>::config`.  Two configurations are the same type
exactly when the base type and the widths agree. -/
structure Config where
  base_type : Nat
  bits_per_level : List Nat
deriving DecidableEq, Repr

/-- Source `config::level_shifts = scan_add_t<int, 0, BitsPerLevel...>`. -/
def Config.level_shifts (c : Config) : Option (List Nat) :=
  meta.scan_add (0 :: c.bits_per_level)

/-- Source `config::id_t = int_for_bits<fold_add_v<int, BitsPerLevel...>>::type` (its width). -/
def Config.id_t (c : Config) : Option Nat :=
  (meta.fold_add c.bits_per_level).bind int_for_bits

/-- Source `builder<BaseType, BitsPerLevel...>`; `builder<BaseType>` derives from
`builder<BaseType, 8, 8, 8, 8>` and inherits its `config`. -/
def builder (BaseType : Nat) (BitsPerLevel : List Nat) : Config :=
  match BitsPerLevel with
  | [] => { base_type := BaseType, bits_per_level := [8, 8, 8, 8] }
  | b :: bs => { base_type := BaseType, bits_per_level := b :: bs }

/-- The classes `id_holder<Config, ...>` that the hierarchy interleaves.  `root c` is
`id_holder<Config>` (`from_base`); `sub Derived Super` is `sub_type<Derived, Super>`, that is
`id_holder<Config, Derived, void>` when `Super` is the root and
`id_holder<Config, Derived, Super>` otherwise.  A user class deriving from it is identified
with it. -/
inductive HType
  | root (c : Config)
  | sub (Derived : Nat) (Super : HType)
deriving DecidableEq, Repr

/-- Source `type_hierarchy::from_base<BaseType, BitsPerLevel...>`. -/
def from_base (BaseType : Nat) (BitsPerLevel : List Nat) : HType :=
  .root (builder BaseType BitsPerLevel)

/-- Source `get_config_t<T>` for a class of a hierarchy. -/
def HType.config : HType → Config
  | .root c => c
  | .sub _ s => s.config

/-- A class that can be named as target of a conversion: a class outside every hierarchy
(`get_config_t` is `void`), e.g. a user base type, or a class of a hierarchy. -/
inductive TargetType
  | user (cls : Nat)
  | node (t : HType)
deriving DecidableEq, Repr

/-- Source `level_of<T, level_tag<N>>`: walk up from `N` while `T` converts to `level_tag<N>`;
`tags` lists the `N` with `level_tag<N>` among the bases of `T`. -/
def level_of_from (tags : List Int) : Nat → Int → Int
  | 0, N => N - 1
  | fuel + 1, N => if N ∈ tags then level_of_from tags fuel (N + 1) else N - 1

/-- Source `level_of<T>::value` from the level tags of `T` (the walk passes at most every tag). -/
def level_of (tags : List Int) : Int := level_of_from tags (tags.length + 1) 0

/-- The `level_tag<N>` bases of a hierarchy class: `id_holder<Config>` derives from
`level_tag<0>`, `id_holder<Config, Derived, void>` adds `level_tag<1>`, and
`id_holder<Config, Derived, SuperType>` adds `level_tag<level_of_v<SuperType> + 1>`. -/
def HType.level_tags : HType → List Int
  | .root _ => [0]
  | .sub _ (.root _) => [1, 0]
  | .sub _ (.sub d s) =>
    (level_of (HType.level_tags (.sub d s)) + 1) :: HType.level_tags (.sub d s)

/-- The `level_tag<N>` bases of any class. -/
def TargetType.level_tags : TargetType → List Int
  | .user _ => []
  | .node t => t.level_tags

/-- Source `level_of_v<T>`. -/
def level_of_v (T : TargetType) : Int := level_of T.level_tags

/-- Source `get<N>(integer_sequence<int, Ns...>)`: indexing outside the array is not a constant
expression. -/
def get (N : Int) (Ns : List Nat) : Option Nat :=
  if N < 0 then none else Ns[N.toNat]?

/-- Source `lookup_v<Config, N>`. -/
def lookup_v (c : Config) (N : Int) : Option Nat :=
  c.level_shifts.bind (get N)

/-- Source `shift_v<Config, T>`: `lookup_v<Config, level_of_v<T>>` converted to `id_t`. -/
def shift_v (c : Config) (T : TargetType) : Option Nat :=
  match c.id_t, lookup_v c (level_of_v T) with
  | some w, some s => some (s % 2 ^ w)
  | _, _ => none

/-- Source `mask_v<Config, T> = (1 << shift_v<Config, T>) - 1`: the literal `1` is an `int`, the
shift and the subtraction are carried out in `int` and must be a constant expression; the
result is converted to `id_t`. -/
def mask_v (c : Config) (T : TargetType) : Option Nat :=
  match c.id_t, shift_v c T with
  | some w, some sh => (int_shl 1 sh).map (fun v => (v - 1) % 2 ^ w)
  | _, _ => none

/-- The static storage of the library: `counter c Level` is the function-local
`static id_t id` of `next_id<Config, Level>`, `ids t` the function-local `static const id_t id`
of `t::type_hierarchy_init_id__` once it has been initialised. -/
structure Registry where
  counter : Config → Int → Nat
  ids : HType → Option Nat

/-- The storage at program start: counters are value-initialised, no id is initialised. -/
def Registry.start : Registry where
  counter := fun _ _ => 0
  ids := fun _ => none

/-- Store a counter value. -/
def Registry.set_counter (r : Registry) (c : Config) (Level : Int) (v : Nat) : Registry :=
  { r with counter := fun c2 l2 => if c2 = c ∧ l2 = Level then v else r.counter c2 l2 }

/-- Store the id of a class. -/
def Registry.set_id (r : Registry) (t : HType) (v : Nat) : Registry :=
  { r with ids := fun t2 => if t2 = t then some v else r.ids t2 }

/-- Source `next_id<Config, Level>()`: `++id` on the static counter (wrapping in `id_t`), then
`BOOST_ASSERT_MSG(id < (static_cast<id_t>(1) << get<Level>(bits_per_level)))`. -/
def next_id (c : Config) (Level : Int) (r : Registry) : Except Fault (Nat × Registry) :=
  match c.id_t, get Level c.bits_per_level with
  | some w, some b =>
    let id := (r.counter c Level + 1) % 2 ^ w
    match id_shl w 1 b with
    | some bound =>
      if id < bound then .ok (id, r.set_counter c Level id) else .error .assertion_failed
    | none => .error .undefined_shift
  | _, _ => .error .ill_formed

/-- Source `T::type_hierarchy_init_id__()`.  For `id_holder<Config, Derived, void>` the static is
initialised with `next_id<Config, 0>()`; for `id_holder<Config, Derived, SuperType>` with
`SuperType::type_hierarchy_init_id__() | (next_id<Config, level_of_v<SuperType>>() << shift)`
after the class-level `static_assert(level_of_v<SuperType> < bits_per_level.size())`.  The two
operands of `|` touch different statics, so their evaluation order does not change the value;
the super type is taken first.  `id_holder<Config>` has no such member. -/
def type_hierarchy_init_id__ : HType → Registry → Except Fault (Nat × Registry)
  | .root _, _ => .error .ill_formed
  | .sub d (.root c), r =>
    match r.ids (.sub d (.root c)) with
    | some id => .ok (id, r)
    | none =>
      match next_id c 0 r with
      | .ok (id, r1) => .ok (id, r1.set_id (.sub d (.root c)) id)
      | .error e => .error e
  | .sub d (.sub d2 s), r =>
    let Super := HType.sub d2 s
    let c := Super.config
    let L := level_of_v (.node Super)
    if 0 ≤ L ∧ L < c.bits_per_level.length then
      match r.ids (.sub d Super) with
      | some id => .ok (id, r)
      | none =>
        match c.id_t, shift_v c (.node Super) with
        | some w, some shift =>
          match type_hierarchy_init_id__ Super r with
          | .ok (sid, r1) =>
            match next_id c L r1 with
            | .ok (n, r2) =>
              match id_shl w n shift with
              | some v =>
                let id := (sid ||| v) % 2 ^ w
                .ok (id, r2.set_id (.sub d Super) id)
              | none => .error .undefined_shift
            | .error e => .error e
          | .error e => .error e
        | _, _ => .error .ill_formed
    else .error .ill_formed

/-- Dynamic initialisation of `T::s_type_hierarchy__ = type_hierarchy_init_id__()`. -/
def use_type (t : HType) (r : Registry) : Except Fault Registry :=
  match type_hierarchy_init_id__ t r with
  | .ok (_, r1) => .ok r1
  | .error e => .error e

/-- Dynamic initialisation of the static members of several classes, in the given order. -/
def use_types : List HType → Registry → Except Fault Registry
  | [], r => .ok r
  | t :: ts, r =>
    match use_type t r with
    | .ok r1 => use_types ts r1
    | .error e => .error e

/-- The storage once the static members of the given classes have been initialised from
program start (the storage at program start if that faulted). -/
def registry_after (ts : List HType) : Registry :=
  match use_types ts Registry.start with
  | .ok r => r
  | .error _ => Registry.start

/-- Source `T::s_type_hierarchy__` once dynamic initialisation is over (zero before). -/
def s_type_hierarchy__ (r : Registry) (t : HType) : Nat := (r.ids t).getD 0

/-- The `id_holder<Config>` sub-object of an instance: the configuration of its hierarchy
and the member `m_type_hierarchy_id__`. -/
structure Instance where
  config : Config
  m_type_hierarchy_id__ : Nat
deriving DecidableEq, Repr

/-- Source `x.type_hierarchy_id__()`. -/
def Instance.type_hierarchy_id__ (x : Instance) : Nat := x.m_type_hierarchy_id__

/-- Construction of an object of class `t`: the defaulted constructor of `id_holder<Config>`
leaves the member with an indeterminate value `junk`; then every `id_holder` constructor on
the chain, base first, assigns its own `s_type_hierarchy__`. -/
def construct (r : Registry) (junk : Nat) : HType → Instance
  | .root c => { config := c, m_type_hierarchy_id__ := junk }
  | .sub d s =>
    { construct r junk s with m_type_hierarchy_id__ := s_type_hierarchy__ r (.sub d s) }

/-- Source `convertible_to<TargetType>(x)`, dispatching on
`convertible_to_impl<TargetType, get_config_t<TargetType>, config_t>`:
the specialisation for `Config::base_type` answers `true`, the one for equal configurations
compares `mask_v<Config, TargetType> & src.type_hierarchy_id__()` with
`TargetType::s_type_hierarchy__` (a member that `id_holder<Config>` does not have), the
primary template answers `false`. -/
def convertible_to (r : Registry) (TargetType : TargetType) (x : Instance) :
    Except Fault Bool :=
  match TargetType with
  | .user cls => .ok (decide (cls = x.config.base_type))
  | .node t =>
    if t.config = x.config then
      match t, mask_v x.config (.node t) with
      | .sub d s, some mask =>
        .ok (decide (mask &&& x.type_hierarchy_id__ = s_type_hierarchy__ r (.sub d s)))
      | _, _ => .error .ill_formed
    else .ok false


/-- Number of `sub_type` steps that lead from the root to the class. -/
def HType.depth : HType → Nat
  | .root _ => 0
  | .sub _ s => s.depth + 1

/-- Sum of the first `k` configured widths, `b_1 + ... + b_k`. -/
def Config.span (c : Config) (k : Nat) : Nat := (c.bits_per_level.take k).sum

/-- What every id assignment keeps true of the storage: the root has no id; the id of a
class at depth `k + 1` lies below `2 ^ (b_1 + ... + b_(k+1))`, its part below
`2 ^ (b_1 + ... + b_k)` is the id of its super class, and that super class has its id. -/
def Registry.well_formed (r : Registry) : Prop :=
  (∀ c, r.ids (.root c) = none) ∧
  ∀ d s v, r.ids (.sub d s) = some v →
    (∃ w, s.config.id_t = some w ∧ s.config.span (s.depth + 1) ≤ w) ∧
    s.depth + 1 ≤ s.config.bits_per_level.length ∧
    v < 2 ^ s.config.span (s.depth + 1) ∧
    v % 2 ^ s.config.span s.depth = s_type_hierarchy__ r s ∧
    (s.depth ≠ 0 → (r.ids s).isSome = true)

/-- Inheritance test `t.derives_from a`: `a` is `t` itself or one of the hierarchy classes `t` derives from. -/
def HType.derives_from : HType → HType → Bool
  | .root c, a => decide (HType.root c = a)
  | .sub d s, a => decide (HType.sub d s = a) || s.derives_from a

/-- A pointer to an object of a hierarchy: the class it is declared to point to, whether
that class is const-qualified, the address, and the value of `m_type_hierarchy_id__` in the
object found there. -/
structure Pointer where
  pointee : HType
  is_const : Bool
  address : Nat
  m_type_hierarchy_id__ : Nat
deriving DecidableEq, Repr

/-- The object `*p`, seen as the `id_holder<Config>` sub-object. -/
def Pointer.deref (p : Pointer) : Instance :=
  { config := p.pointee.config, m_type_hierarchy_id__ := p.m_type_hierarchy_id__ }

/-- A pointer returned by `dyn_cast`. -/
structure TargetPointer where
  pointee : TargetType
  is_const : Bool
  address : Nat
deriving DecidableEq, Repr

/-- The parameter class of the `dyn_cast` overload that overload resolution selects for a
pointer to `S`: `id_holder<Config>` for a pointer to the root, otherwise the closer base
`id_holder<Config, T1, void>` with `T1` the ancestor of `S` directly beneath the root. -/
def dyn_cast_parameter : HType → HType
  | .root c => .root c
  | .sub d (.root c) => .sub d (.root c)
  | .sub _ (.sub d s) => dyn_cast_parameter (.sub d s)

/-- Whether `static_cast<TargetType*>(p)` in the body of the selected overload compiles:
the target has to be the parameter class, one of its bases (the user base type among them)
or a class derived from it, and the cast must not drop `const`.  Only the overload for
`id_holder<Config> const*` casts to `TargetType*`; the one for
`id_holder<Config, D, void> const*` casts to `TargetType const*`. -/
def dyn_cast_well_formed (TargetType : TargetType) (target_const : Bool) (p : Pointer) :
    Bool :=
  let P := dyn_cast_parameter p.pointee
  (match TargetType with
    | .user cls => decide (cls = P.config.base_type)
    | .node t => t.derives_from P || P.derives_from t)
  && (match p.is_const, P with
    | true, .root _ => target_const
    | _, _ => true)

/-- Source `dyn_cast<TargetType>(p)`:
`convertible_to<TargetType>(*p) ? static_cast<TargetType*>(p) : nullptr`. -/
def dyn_cast (r : Registry) (TargetType : TargetType) (target_const : Bool) (p : Pointer) :
    Except Fault (Option TargetPointer) :=
  if dyn_cast_well_formed TargetType target_const p then
    match convertible_to r TargetType p.deref with
    | .ok true =>
      .ok (some { pointee := TargetType, is_const := p.is_const || target_const,
                  address := p.address })
    | .ok false => .ok none
    | .error e => .error e
  else .error .ill_formed

/-! ### Sample hierarchies (type_hierarchy.test.cpp) -/

/-- The root `from_base<TestHierarchyBase>`, the default configuration. -/
def Root : HType := from_base 0 []

/-- The class `struct Type_1 : sub_type<Type_1, Root>`. -/
def Type_1 : HType := .sub 1 Root

/-- The class `struct Type_1_1 : sub_type<Type_1_1, Type_1>`. -/
def Type_1_1 : HType := .sub 11 Type_1

/-- The class `struct Type_1_1_1 : sub_type<Type_1_1_1, Type_1_1>`. -/
def Type_1_1_1 : HType := .sub 111 Type_1_1

/-- A class on the fourth level, `sub_type<Type_1_1_1_1, Type_1_1_1>`. -/
def Type_1_1_1_1 : HType := .sub 1111 Type_1_1_1

/-- The root `from_base<OtherHierarchyBase>`. -/
def OtherRoot : HType := from_base 1 []

/-- The class `struct OtherType_1 : sub_type<OtherType_1, OtherRoot>`. -/
def OtherType_1 : HType := .sub 1 OtherRoot

/-- The root `from_base<FlatBase, 8>`: one level whose width is the width of the id type. -/
def FlatRoot : HType := from_base 2 [8]

/-- The first `n` classes `Flat_1, ..., Flat_n` derived from `FlatRoot`. -/
def flat_types (n : Nat) : List HType := (List.range n).map (fun k => HType.sub (k + 1) FlatRoot)

/-- The `static_assert(level_of_v<SuperType> < bits_per_level.size())` that the class
`id_holder<Config, Derived, SuperType>` carries; the specialisation
`id_holder<Config, Derived, void>` for a super type that is the root carries none. -/
def sub_type_accepts : HType → Bool
  | .root _ => true
  | .sub d s =>
    decide (0 ≤ level_of_v (.node (.sub d s)) ∧
      level_of_v (.node (.sub d s)) < ((HType.sub d s).config.bits_per_level.length : Int))

/-- Whether every `sub_type` derivation on the chain of the class is accepted. -/
def HType.accepted : HType → Bool
  | .root _ => true
  | .sub _ s => s.accepted && sub_type_accepts s

/-- The class `struct Type_2 : sub_type<Type_2, Root>`. -/
def Type_2 : HType := .sub 2 Root

/-- The class `struct Type_2_1 : sub_type<Type_2_1, Type_2>`. -/
def Type_2_1 : HType := .sub 21 Type_2

/-- The first `n` classes `Child_1, ..., Child_n` derived from the class `p`. -/
def children (p : HType) (n : Nat) : List HType :=
  (List.range n).map (fun k => HType.sub (k + 1) p)

/-- The root `from_base<WideBase, 16, 16, 16, 16>`, with a 64-bit id type. -/
def WideRoot : HType := from_base 3 [16, 16, 16, 16]

/-- The class `struct Wide_1 : sub_type<Wide_1, WideRoot>`. -/
def Wide_1 : HType := .sub 1 WideRoot

/-- The class `struct Wide_1_1 : sub_type<Wide_1_1, Wide_1>`. -/
def Wide_1_1 : HType := .sub 11 Wide_1

/-- The root `from_base<Base, 32>`, the `FlatHierarchy` of the header's documentation. -/
def FlatHierarchy : HType := from_base 4 [32]

/-- The local id inside a packed id `v` of a class whose super class is `s`: the part of `v`
above the fields of the ancestors. -/
def local_id (s : HType) (v : Nat) : Nat := v / 2 ^ s.config.span s.depth

/-- What id assignment keeps true of the counters: a counter stays below the bound of its
level; on a level whose width is smaller than the width of the id type the local ids of
the classes that have an id lie between 1 and the counter of the level, and two different
classes of one hierarchy and one level have different local ids. -/
def Registry.counters_ok (r : Registry) : Prop :=
  (∀ (c : Config) (L w b : Nat), c.id_t = some w →
    get (L : Int) c.bits_per_level = some b → r.counter c (L : Int) < 2 ^ b) ∧
  (∀ d s v w b, r.ids (.sub d s) = some v → s.config.id_t = some w →
    get (s.depth : Int) s.config.bits_per_level = some b → b < w →
    1 ≤ local_id s v ∧ local_id s v ≤ r.counter s.config (s.depth : Int)) ∧
  (∀ d1 s1 v1 d2 s2 v2 w b, r.ids (.sub d1 s1) = some v1 → r.ids (.sub d2 s2) = some v2 →
    HType.sub d1 s1 ≠ HType.sub d2 s2 → s1.config = s2.config → s1.depth = s2.depth →
    s1.config.id_t = some w → get (s1.depth : Int) s1.config.bits_per_level = some b →
    b < w → local_id s1 v1 ≠ local_id s2 v2)

/-- The class `struct OtherType_1_1 : sub_type<OtherType_1_1, OtherType_1>`. -/
def OtherType_1_1 : HType := .sub 11 OtherType_1

/-- The class on the chain of `t` at depth `k`: `t` itself when `t` is not deeper than `k`. -/
def HType.ancestor_at : HType → Nat → HType
  | .root c, _ => .root c
  | .sub d s, k => if s.depth + 1 ≤ k then .sub d s else s.ancestor_at k

/-- The class `struct Type_1_1_2 : sub_type<Type_1_1_2, Type_1_1>`. -/
def Type_1_1_2 : HType := .sub 112 Type_1_1

/-- The class `struct Type_1_2 : sub_type<Type_1_2, Type_1>`. -/
def Type_1_2 : HType := .sub 12 Type_1

/-- The class `struct Type_2_2 : sub_type<Type_2_2, Type_2>`. -/
def Type_2_2 : HType := .sub 22 Type_2

/-- A pointer of static type `S*` to an object of class `T` constructed in the storage `r`. -/
def Pointer.to_object (r : Registry) (junk : Nat) (S T : HType) (is_const : Bool)
    (address : Nat) : Pointer :=
  { pointee := S, is_const := is_const, address := address,
    m_type_hierarchy_id__ := (construct r junk T).type_hierarchy_id__ }

/-- An argument of `level_of`: `void`, or a class. -/
inductive LevelArg
  | void
  | cls (T : TargetType)
deriving DecidableEq, Repr

/-- The `level_tag<N>` types an argument of `level_of` converts to: `void` converts to
none. -/
def LevelArg.level_tags : LevelArg → List Int
  | .void => []
  | .cls T => T.level_tags

/-- Source `level_of<T>::value` for every argument: the explicit specialisation
`level_of<void, level_tag<0>>` is `std::integral_constant<int, 0>`, every other argument
goes through the walk over the level tags. -/
def LevelArg.level_of_v : LevelArg → Int
  | .void => 0
  | .cls T => type_hierarchy_detail.level_of_v T

/-- The classes on the chain of a class beneath the root, the one nearest to the root
first. -/
def HType.chain : HType → List HType
  | .root _ => []
  | .sub d s => s.chain ++ [.sub d s]

/-- The classes in the order in which their ids are assigned when the classes of `ts` are
first used in the given order, after the classes of `S`: a first use assigns an id to those
classes of the chain that have none yet, the super class before the class. -/
def first_use_order : List HType → List HType → List HType
  | [], S => S
  | t :: ts, S => first_use_order ts (S ++ t.chain.filter (fun a => decide (a ∉ S)))

/-- The classes of the list that belong to hierarchy `c` and sit on level `L` (the level
directly beneath the root being level 0), in the order of the list. -/
def level_members (c : Config) (L : Nat) (S : List HType) : List HType :=
  S.filter (fun t => decide (t.config = c ∧ t.depth = L + 1))

/-- Whether the classes of the list fit the levels of hierarchy `c`: on every level of
width `b` there are at most `2 ^ b - 1` of them. -/
def within_capacity (c : Config) (S : List HType) : Bool :=
  (List.range c.bits_per_level.length).all
    (fun L => decide ((level_members c L S).length + 1 ≤ 2 ^ c.bits_per_level.getD L 0))

/-- What id assignment keeps true of the storage with respect to the order `S` of first
use: exactly the classes of `S` have an id, the counter of a level is the number of its
classes so far, and the local id of a class is its position among the classes of its level,
both taken in the id type. -/
def Registry.in_order (r : Registry) (S : List HType) : Prop :=
  S.Nodup ∧
  (∀ t, (r.ids t).isSome = true ↔ t ∈ S) ∧
  (∀ (c : Config) (L w : Nat), c.id_t = some w →
    r.counter c (L : Int) = (level_members c L S).length % 2 ^ w) ∧
  (∀ d s v w, r.ids (.sub d s) = some v → s.config.id_t = some w →
    local_id s v = ((level_members s.config s.depth S).indexOf (.sub d s) + 1) % 2 ^ w)

/-- The local ids of hierarchy `c` are in use as intended: every class that has an id has
a local id of at least 1, and two different classes of one level have different local
ids. -/
def Registry.local_ids_ok (r : Registry) (c : Config) : Prop :=
  (∀ d s v, r.ids (.sub d s) = some v → s.config = c → 1 ≤ local_id s v) ∧
  (∀ d1 s1 v1 d2 s2 v2, r.ids (.sub d1 s1) = some v1 → r.ids (.sub d2 s2) = some v2 →
    HType.sub d1 s1 ≠ HType.sub d2 s2 → s1.config = c → s2.config = c →
    s1.depth = s2.depth → local_id s1 v1 ≠ local_id s2 v2)

/-- The root `from_base<LongBase, 64>`: one level as wide as its 64-bit id type. -/
def LongHierarchy : HType := from_base 6 [64]

/-! ### First use from several threads -/

/-- The guard of the function-local `static const id_t id` of
`Derived::type_hierarchy_init_id__`: not yet initialised, being initialised by a thread, or
initialised with a value. -/
inductive Guard
  | fresh
  | running
  | complete (id : Nat)
deriving DecidableEq, Repr

/-- Where a thread stands in `Derived::type_hierarchy_init_id__()` for a class `Derived`
directly beneath the root: before the declaration of the static; initialising it, about to
call `next_id<Config, 0>`; after the read of the counter in `++id`; after the write of the
counter; after the read of the counter in the assertion; after the read of the counter in
`return id`; past the declaration, holding what the function returns; or stopped in the
failed assertion. -/
inductive Phase
  | start
  | entered
  | fetched (old : Nat)
  | stored
  | asserted
  | returning (id : Nat)
  | done (id : Nat)
  | aborted
deriving DecidableEq, Repr

/-- A thread that first uses the class `sub_type<Derived, Root>`. -/
structure Thread where
  Derived : Nat
  phase : Phase
deriving DecidableEq, Repr

/-- The threads of a program and the storage they share: the counter of
`next_id<Config, 0>` and the guards of the statics of the classes. -/
structure Machine where
  counter : Nat
  guard : Nat → Guard
  threads : List Thread

/-- Replace the phase of thread `k`. -/
def Machine.advance (m : Machine) (k : Nat) (t : Thread) (p : Phase) : Machine :=
  { m with threads := m.threads.set k { t with phase := p } }

/-- One step of thread `k`: the next access to the shared storage, accesses of different
threads being interleaved.  A thread that finds the static of its class initialised takes
its value; one that finds it being initialised waits; otherwise it initialises the static
with `next_id<Config, 0>()`, whose `++id`, assertion and `return id` read, write, read and
read the counter one after the other, with nothing that keeps other threads away in
between. -/
def step (c : Config) (m : Machine) (k : Nat) : Machine :=
  match m.threads[k]? with
  | none => m
  | some t =>
    match t.phase with
    | .start =>
      match m.guard t.Derived with
      | .fresh =>
        { (m.advance k t .entered) with
          guard := fun d => if d = t.Derived then .running else m.guard d }
      | .running => m
      | .complete id => m.advance k t (.done id)
    | .entered => m.advance k t (.fetched m.counter)
    | .fetched old =>
      match c.id_t with
      | some w => { (m.advance k t .stored) with counter := (old + 1) % 2 ^ w }
      | none => m.advance k t .aborted
    | .stored =>
      match c.id_t, get 0 c.bits_per_level with
      | some w, some b =>
        match id_shl w 1 b with
        | some bound =>
          if m.counter < bound then m.advance k t .asserted else m.advance k t .aborted
        | none => m.advance k t .aborted
      | _, _ => m.advance k t .aborted
    | .asserted => m.advance k t (.returning m.counter)
    | .returning id =>
      { (m.advance k t (.done id)) with
        guard := fun d => if d = t.Derived then .complete id else m.guard d }
    | .done _ => m
    | .aborted => m

/-- The threads take steps in the order of the schedule. -/
def run (c : Config) (m : Machine) (schedule : List Nat) : Machine :=
  schedule.foldl (step c) m

/-- The program before any first use: every thread is about to use its class. -/
def Machine.initial (classes : List Nat) : Machine :=
  { counter := 0, guard := fun _ => .fresh,
    threads := classes.map (fun d => { Derived := d, phase := .start }) }

/-- The schedule in which the threads `0, ..., n - 1` run one after the other, each through
the six steps of a first use. -/
def serial (n : Nat) : List Nat := (List.range n).flatMap (fun k => List.replicate 6 k)

end type_hierarchy_detail

/-! ## `ni/functional/match.h` -/

namespace detail

/-- A callable handed to `matcher`, seen through `ni::signature`: its number of parameters
and, for the arities the dispatcher can call, its body.  `Src` is the type of the matched
value, `R` the declared result type of the handlers (a one-element type when it is `void`),
`σ` the state the bodies may read and write.  A one-argument handler comes with the cast
`matcher_dyn_cast(try_t, target_type<target_t>, x)` for its parameter type `Tgt`, which
yields the converted value or nothing (a null pointer). -/
inductive Handler (Src σ R : Type) : Type 1
  | zero (f : σ → R × σ)
  | one (Tgt : Type) (dyn_cast : Src → Option Tgt) (f : Tgt → σ → R × σ)
  | many (extra : Nat)

/-- Source `signature<Lambda>::number_of_arguments`. -/
def Handler.number_of_arguments {Src σ R : Type} : Handler Src σ R → Nat
  | .zero _ => 0
  | .one _ _ _ => 1
  | .many extra => extra + 2

/-- Whether the handler is a case whose cast of `x` succeeds. -/
def Handler.casts {Src σ R : Type} (x : Src) : Handler Src σ R → Bool
  | .one _ dyn_cast _ => (dyn_cast x).isSome
  | _ => false

/-- The three shapes of `result_type_info::result_t`. -/
inductive ResultKind
  | boolean
  | optional
  | wrapped
deriving DecidableEq, Repr

/-- A value of `result_t`. -/
inductive Result (R : Type)
  | boolean (b : Bool)
  | optional (o : Option R)
  | wrapped (v : R)
deriving DecidableEq, Repr

/-- Source `result_type_info<Functions...>`: `sum_of_arguments`, `sizeof...(Functions)` and whether
`wrapped_result_t` is `void`. -/
structure result_type_info where
  sum_of_arguments : Nat
  size : Nat
  wrapped_is_void : Bool
deriving DecidableEq, Repr

/-- Source `result_type_info::result_t`. -/
def result_type_info.result_t (i : result_type_info) : ResultKind :=
  if i.wrapped_is_void then .boolean
  else if i.sum_of_arguments = i.size then .optional
  else .wrapped

/-- Instantiate `result_type_info<Functions...>`; `fold_add_v` of an empty pack does not
exist. -/
def result_type_info.make {Src σ R : Type} (wrapped_is_void : Bool)
    (Functions : List (Handler Src σ R)) : Option result_type_info :=
  (meta.fold_add (Functions.map Handler.number_of_arguments)).map
    (fun n => { sum_of_arguments := n, size := Functions.length,
                wrapped_is_void := wrapped_is_void })

/-- The statement `return {};` in the overload of `matcher_impl` without handlers: a value-initialised
`result_t` (`init` is the value-initialised `wrapped_result_t`). -/
def value_init {R : Type} (i : result_type_info) (init : R) : Result R :=
  match i.result_t with
  | .boolean => .boolean false
  | .optional => .optional none
  | .wrapped => .wrapped init

/-- The statement `return invoker<wrapped_result_t>::apply(...)` seen after the handler has run with
outcome `out`: `invoker<void>` yields `true`, the generic `invoker` the value of the handler,
which is converted to `result_t`. -/
def invoker {σ R : Type} (i : result_type_info) (out : R × σ) : Result R × σ :=
  match i.result_t with
  | .boolean => (.boolean true, out.2)
  | .optional => (.optional (some out.1), out.2)
  | .wrapped => (.wrapped out.1, out.2)

/-- Source `matcher_impl<ResultTypeInfo>(x, ls...)`; every instantiation uses one unit of `depth`.
In source order: the overload without handlers, the rotation of a leading zero-argument
handler behind at least one other handler, the call of a lone zero-argument handler, and the
one-argument overload that casts and either calls or recurses.  No overload takes a handler
with more parameters. -/
def matcher_impl {Src σ R : Type} (i : result_type_info) (init : R) (x : Src) :
    Nat → List (Handler Src σ R) → σ → Except Fault (Result R × σ)
  | 0, _, _ => .error .depth_exceeded
  | _ + 1, [], s => .ok (value_init i init, s)
  | depth + 1, .zero l1 :: l2 :: ls, s => matcher_impl i init x depth (l2 :: ls ++ [.zero l1]) s
  | _ + 1, [.zero l], s => .ok (invoker i (l s))
  | depth + 1, .one _ dyn_cast l :: ls, s =>
    match dyn_cast x with
    | some p => .ok (invoker i (l p s))
    | none => matcher_impl i init x depth ls s
  | _ + 1, .many _ :: _, _ => .error .ill_formed

/-- The two `static_assert`s of `matcher`: every handler has zero or one parameter, and
`num_args == sizeof...(Lambdas) or num_args == sizeof...(Lambdas) - 1`.  (The handlers of a
list all return `R`; the assertion inside `result` on their declared result types is the
subject of `result` and `matcher_compiles`.) -/
def matcher_accepts {Src σ R : Type} (lambdas : List (Handler Src σ R)) : Bool :=
  meta.fold_and (lambdas.map (fun l =>
      l.number_of_arguments == 0 || l.number_of_arguments == 1))
  && match meta.fold_add (lambdas.map Handler.number_of_arguments) with
     | some num_args => num_args == lambdas.length || num_args == lambdas.length - 1
     | none => false

/-- Source `matcher(lambdas...)(x)`, with the template recursion limited to `depth`. -/
def matcher {Src σ R : Type} (depth : Nat) (wrapped_is_void : Bool) (init : R)
    (lambdas : List (Handler Src σ R)) (x : Src) (s : σ) : Except Fault (Result R × σ) :=
  if matcher_accepts lambdas then
    match result_type_info.make wrapped_is_void lambdas with
    | some i => matcher_impl i init x depth lambdas s
    | none => .error .ill_formed
  else .error .ill_formed

/-- Source `otherwise(value)`: a zero-argument handler returning `value`. -/
def otherwise {Src σ R : Type} (value : R) : Handler Src σ R :=
  .zero (fun s => (value, s))

variable {Src σ R : Type}

/-- Every handler of the list is a case: it declares exactly one parameter. -/
def cases_only (l : List (Handler Src σ R)) : Prop := ∀ h ∈ l, h.number_of_arguments = 1

/-- No case of the list accepts `x`. -/
def all_fail (x : Src) (l : List (Handler Src σ R)) : Prop := ∀ h ∈ l, h.casts x = false

/-- The body, already applied to the cast value, of the first case that accepts `x`. -/
def first_hit (x : Src) : List (Handler Src σ R) → Option (σ → R × σ)
  | [] => none
  | .one _ c f :: t =>
    match c x with
    | some p => some (f p)
    | none => first_hit x t
  | .zero _ :: t => first_hit x t
  | .many _ :: t => first_hit x t

/-- Sample value for the matcher: an object of one of three classes derived from a
polymorphic base (match.test.cpp). -/
inductive sample_object
  | derived1
  | derived2
  | derived3
deriving DecidableEq, Repr

/-- Case on the base class: every object converts. -/
def base_case : Handler sample_object (List String) Int :=
  .one sample_object (fun o => some o) (fun _ s => (0, s ++ ["base"]))

/-- Case on `derived1`, returning `value1 + 1`. -/
def derived1_case : Handler sample_object (List String) Int :=
  .one Unit (fun o => if o = .derived1 then some () else none) (fun _ s => (1338, s ++ ["derived1"]))

/-- Case on `derived2`, returning `value2 + 2`. -/
def derived2_case : Handler sample_object (List String) Int :=
  .one Unit (fun o => if o = .derived2 then some () else none) (fun _ s => (7359, s ++ ["derived2"]))

/-- A `void` case on `derived1`. -/
def derived1_void_case : Handler sample_object (List String) Unit :=
  .one Unit (fun o => if o = .derived1 then some () else none) (fun _ s => ((), s ++ ["derived1"]))

/-- The default `[]{ return -1; }`. -/
def minus_one : σ → Int × σ := fun s => (-1, s)

/-- The shape of a value of `result_t`. -/
def Result.kind {R : Type} : Result R → ResultKind
  | .boolean _ => .boolean
  | .optional _ => .optional
  | .wrapped _ => .wrapped

/-- What a run of the dispatcher does with the handler at a position of the list handed to
`matcher`: the cast for the parameter type of the handler is attempted, or the handler is
called. -/
inductive Event
  | cast (position : Nat)
  | call (position : Nat)
deriving DecidableEq, Repr

/-- Whether the event is the call of a handler. -/
def Event.is_call : Event → Bool
  | .cast _ => false
  | .call _ => true

/-- Source `matcher_impl` once more, on handlers that carry their position in the list handed
to `matcher`; next to the result it reports, in order, every cast that was attempted and
every handler that was called. -/
def matcher_impl_traced (i : result_type_info) (init : R) (x : Src) :
    Nat → List (Nat × Handler Src σ R) → σ → Except Fault ((Result R × σ) × List Event)
  | 0, _, _ => .error .depth_exceeded
  | _ + 1, [], s => .ok ((value_init i init, s), [])
  | depth + 1, (k, .zero l1) :: l2 :: ls, s =>
    matcher_impl_traced i init x depth (l2 :: ls ++ [(k, .zero l1)]) s
  | _ + 1, [(k, .zero l)], s => .ok (invoker i (l s), [.call k])
  | depth + 1, (k, .one _ dyn_cast l) :: ls, s =>
    match dyn_cast x with
    | some p => .ok (invoker i (l p s), [.cast k, .call k])
    | none =>
      match matcher_impl_traced i init x depth ls s with
      | .ok (out, events) => .ok (out, .cast k :: events)
      | .error e => .error e
  | _ + 1, (_, .many _) :: _, _ => .error .ill_formed

/-- Source `matcher(lambdas...)(x)` with the report of `matcher_impl_traced`. -/
def matcher_traced (depth : Nat) (wrapped_is_void : Bool) (init : R)
    (lambdas : List (Handler Src σ R)) (x : Src) (s : σ) :
    Except Fault ((Result R × σ) × List Event) :=
  if matcher_accepts lambdas then
    match result_type_info.make wrapped_is_void lambdas with
    | some i => matcher_impl_traced i init x depth lambdas.enum s
    | none => .error .ill_formed
  else .error .ill_formed

/-- The events that the description of the dispatcher allows: the casts of the one-argument
handlers in the order of the list, up to and including the first cast that succeeds, then the
call of that handler; when no cast succeeds, the call of the zero-argument handler (`default`
holds its position once it has been passed) if there is one. -/
def expected_events (x : Src) : List (Nat × Handler Src σ R) → Option Nat → List Event
  | [], none => []
  | [], some d => [.call d]
  | (k, .zero _) :: t, _ => expected_events x t (some k)
  | (k, .one _ dyn_cast _) :: t, default =>
    match dyn_cast x with
    | some _ => [.cast k, .call k]
    | none => .cast k :: expected_events x t default
  | (_, .many _) :: t, default => expected_events x t default

/-- Whether a declared type is a reference. -/
inductive RefKind
  | none
  | lvalue
  | rvalue
deriving DecidableEq, Repr

/-- A type that a function can declare as its result, as `signature<F>::result_type` reports
it: the unqualified class or fundamental type (named by a number, `void` by 0), the
qualifiers `const` and `volatile` on it, and whether the result is a reference to it.
Arrays and functions, to which a result can only refer, are left out. -/
structure CppType where
  name : Nat
  is_const : Bool
  is_volatile : Bool
  ref : RefKind
deriving DecidableEq, Repr

/-- Source `std::decay_t<T>` on such a type: the reference and the qualifiers are removed. -/
def decay_t (T : CppType) : CppType :=
  { name := T.name, is_const := false, is_volatile := false, ref := .none }

/-- Source `detail::result<Function, Functions...>`, on the declared result types of the
handlers: `type` is the result type of the first handler; the `static_assert` compares
`all_results`, the list of the result types of the other handlers, with `expected_results`,
where `as_type<F>` is `std::decay_t<type>` for every `F`. -/
def result (Function : CppType) (Functions : List CppType) : Option CppType :=
  if Functions = Functions.map (fun _ => decay_t Function) then some Function else none

/-- What `ni::signature` reports of a handler. -/
structure Signature where
  number_of_arguments : Nat
  result_type : CppType
deriving DecidableEq, Repr

/-- Source `result_type_info<Functions...>::wrapped_result_t`, which is
`result<Functions...>::type`; `result` needs at least one argument. -/
def wrapped_result_t : List Signature → Option CppType
  | [] => none
  | f :: fs => result f.result_type (fs.map Signature.result_type)

/-- The two `static_assert`s in the body of `matcher`, on the arities of the handlers. -/
def arity_asserts (ns : List Nat) : Bool :=
  meta.fold_and (ns.map (fun n => n == 0 || n == 1))
  && match meta.fold_add ns with
     | some num_args => num_args == ns.length || num_args == ns.length - 1
     | none => false

/-- Whether `matcher(lambdas...)` compiles: the two assertions on the arities hold and
`result_type_info<Lambdas...>` can be instantiated, which includes the assertion of
`result`. -/
def matcher_compiles (Lambdas : List Signature) : Bool :=
  arity_asserts (Lambdas.map Signature.number_of_arguments)
  && (wrapped_result_t Lambdas).isSome

/-- The type `int`. -/
def int_t : CppType := { name := 1, is_const := false, is_volatile := false, ref := .none }

/-- The type `int&`. -/
def int_ref : CppType := { name := 1, is_const := false, is_volatile := false, ref := .lvalue }

/-- The type `const int`. -/
def const_int : CppType := { name := 1, is_const := true, is_volatile := false, ref := .none }

/-- The type `std::string const&`. -/
def string_cref : CppType := { name := 2, is_const := true, is_volatile := false, ref := .lvalue }

/-- The type `std::string`. -/
def string_t : CppType := { name := 2, is_const := false, is_volatile := false, ref := .none }

/-- Source `detail::matcher_dyn_cast(meta::try_t{}, target_type<TargetType>{}, p)`: the overload
with a `try_t` parameter exists when `dyn_cast<TargetType>(p)` is well-formed, which is when
argument-dependent lookup finds a customization (`custom`); the overload with a `catch_t`
parameter exists when `dynamic_cast<TargetType*>(p)` is well-formed (`builtin`). -/
def matcher_dyn_cast {Tgt : Type} (custom builtin : Option (Src → Option Tgt)) :
    Except Fault (Src → Option Tgt) :=
  meta.dispatch meta.try_t [(meta.try_t, custom), (meta.catch_t, builtin)]

/-- A one-argument handler of `matcher` with the cast that `matcher_dyn_cast` selects. -/
def case_of {Tgt : Type} (custom builtin : Option (Src → Option Tgt))
    (f : Tgt → σ → R × σ) : Except Fault (Handler Src σ R) :=
  match matcher_dyn_cast custom builtin with
  | .ok cast => .ok (.one Tgt cast f)
  | .error e => .error e

/-- An object of the classes of `ni_match_test_detail` (match.test.cpp): `base` is not
polymorphic and carries `dyn_tag`. -/
structure tagged_object where
  dyn_tag : Nat
  value : Int
deriving DecidableEq, Repr

/-- Source `dyn_cast<TargetType>(base* b)` of `ni_match_test_detail`:
`b->cast_to<TargetType>()`, which compares `dyn_tag` with `TargetType::tag`. -/
def tagged_dyn_cast (tag : Nat) (b : tagged_object) : Option tagged_object :=
  if b.dyn_tag = tag then some b else none

/-- The two cases of the test `match_custom_polymorhic_types`, which record the value of the
object they are called with. -/
def tagged_cases : Except Fault (List (Handler tagged_object (List Int) Unit)) :=
  match case_of (some (tagged_dyn_cast 1)) none (fun o s => ((), s ++ [o.value])),
        case_of (some (tagged_dyn_cast 2)) none (fun o s => ((), s ++ [o.value])) with
  | .ok c1, .ok c2 => .ok [c1, c2]
  | _, _ => .error .ill_formed

/-- The customization `dyn_cast<T>(p)` of type_hierarchy.h as the matcher uses it, for pointers
for which it compiles: the target pointer, or nothing for a null pointer. -/
def hierarchy_cast (r : type_hierarchy_detail.Registry) (T : type_hierarchy_detail.HType)
    (p : type_hierarchy_detail.Pointer) : Option type_hierarchy_detail.TargetPointer :=
  match type_hierarchy_detail.dyn_cast r (.node T) false p with
  | .ok o => o
  | .error _ => none

/-- A case `[&](T&) {...}` on a class `T` of a hierarchy, for a matched value whose static type
is `S` (const-qualified or not): `matcher_dyn_cast` finds the customization `dyn_cast<T>`,
beside which the built-in `dynamic_cast` plays no role, and the case compiles when the
instantiation of that function for a pointer to `S` does; whether it does is the same for
every pointer of that type. -/
def hierarchy_case (r : type_hierarchy_detail.Registry) (S : type_hierarchy_detail.HType)
    (is_const : Bool) (T : type_hierarchy_detail.HType)
    (f : type_hierarchy_detail.TargetPointer → σ → R × σ) :
    Except Fault (Handler type_hierarchy_detail.Pointer σ R) :=
  match type_hierarchy_detail.dyn_cast r (.node T) false
      { pointee := S, is_const := is_const, address := 0, m_type_hierarchy_id__ := 0 } with
  | .ok _ => case_of (some (hierarchy_cast r T)) none f
  | .error e => .error e

/-- The cases of a match on a value of static type `S`, in the order given. -/
def hierarchy_handlers (r : type_hierarchy_detail.Registry) (S : type_hierarchy_detail.HType)
    (is_const : Bool) :
    List (type_hierarchy_detail.HType × (type_hierarchy_detail.TargetPointer → σ → R × σ)) →
    Except Fault (List (Handler type_hierarchy_detail.Pointer σ R))
  | [] => .ok []
  | (T, f) :: cs =>
    match hierarchy_case r S is_const T f, hierarchy_handlers r S is_const cs with
    | .ok h, .ok hs => .ok (h :: hs)
    | .error e, _ => .error e
    | _, .error e => .error e

/-- Source `ni::match(*p)(cases..., default)` for cases on classes of a hierarchy followed by a
zero-argument handler. -/
def hierarchy_match (r : type_hierarchy_detail.Registry) (depth : Nat)
    (wrapped_is_void : Bool) (init : R)
    (cases : List (type_hierarchy_detail.HType ×
      (type_hierarchy_detail.TargetPointer → σ → R × σ)))
    (default : σ → R × σ) (p : type_hierarchy_detail.Pointer) (s : σ) :
    Except Fault (Result R × σ) :=
  match hierarchy_handlers r p.pointee p.is_const cases with
  | .ok hs => matcher depth wrapped_is_void init (hs ++ [.zero default]) p s
  | .error e => .error e

/-- The case the description of a match on a hierarchy selects for an object of class `T`:
the first case in the list whose class `T` is or derives from. -/
def selected_case {F : Type} (T : type_hierarchy_detail.HType)
    (cases : List (type_hierarchy_detail.HType × F)) :
    Option (type_hierarchy_detail.HType × F) :=
  cases.find? (fun c => T.derives_from c.1)

/-- The order "most derived first": no case is listed after a case on a class it properly
derives from. -/
def most_derived_first {F : Type} (cases : List (type_hierarchy_detail.HType × F)) : Prop :=
  cases.Pairwise (fun a b => b.1.derives_from a.1 = true → a.1 = b.1)

/-- A handler `[&](T) { rec(name); }`, with `rec` the recording lambda, of the test `match_flat`. -/
def rec_case (name : String) :
    type_hierarchy_detail.TargetPointer → List String → Unit × List String :=
  fun _ found => ((), found ++ [name])

/-- The cases of the test `match_flat`, in its order. -/
def match_flat_cases :
    List (type_hierarchy_detail.HType ×
      (type_hierarchy_detail.TargetPointer → List String → Unit × List String)) :=
  [(type_hierarchy_detail.Type_1_1_2, rec_case "1_1_2"),
   (type_hierarchy_detail.Type_1_1_1, rec_case "1_1_1"),
   (type_hierarchy_detail.Type_1_1, rec_case "1_1"),
   (type_hierarchy_detail.Type_1_2, rec_case "1_2"),
   (type_hierarchy_detail.Type_1, rec_case "1"),
   (type_hierarchy_detail.Type_2_1, rec_case "2_1"),
   (type_hierarchy_detail.Type_2_2, rec_case "2_2"),
   (type_hierarchy_detail.Type_2, rec_case "2")]

/-- The classes of the fixture `TypeHierarchyTest`. -/
def fixture_types : List type_hierarchy_detail.HType :=
  [type_hierarchy_detail.Type_1, type_hierarchy_detail.Type_1_1, type_hierarchy_detail.Type_1_2,
   type_hierarchy_detail.Type_1_1_1, type_hierarchy_detail.Type_1_1_2,
   type_hierarchy_detail.Type_2, type_hierarchy_detail.Type_2_1, type_hierarchy_detail.Type_2_2]

/-- The `void` default `[&]{ rec("fail"); }` of the test `match_flat`. -/
def fail_default : Handler sample_object (List String) Unit :=
  .zero (fun s => ((), s ++ ["fail"]))

/-- Source `matcher_impl` once more, reduced to its control flow: for every instantiation
that is entered, in order, the number of handlers it receives and whether it is the overload
that rotates a leading zero-argument handler to the end. -/
def matcher_impl_steps (x : Src) : Nat → List (Handler Src σ R) → Except Fault (List (Nat × Bool))
  | 0, _ => .error .depth_exceeded
  | _ + 1, [] => .ok [(0, false)]
  | depth + 1, .zero l1 :: l2 :: ls =>
    (matcher_impl_steps x depth (l2 :: ls ++ [.zero l1])).map
      (fun t => ((l2 :: ls).length + 1, true) :: t)
  | _ + 1, [.zero _] => .ok [(1, false)]
  | depth + 1, .one _ dyn_cast _ :: ls =>
    match dyn_cast x with
    | some _ => .ok [(ls.length + 1, false)]
    | none => (matcher_impl_steps x depth ls).map (fun t => (ls.length + 1, false) :: t)
  | _ + 1, .many _ :: _ => .error .ill_formed

/-- Consecutive instantiations: after a rotation the next one receives as many handlers,
after any other step one handler less. -/
def steps_shrink (t : List (Nat × Bool)) : Prop :=
  t.Chain' (fun a b => if a.2 then b.1 = a.1 else b.1 + 1 = a.1)

/-- The number of zero-argument handlers of a list. -/
def defaults (l : List (Handler Src σ R)) : Nat :=
  (l.filter (fun h => h.number_of_arguments == 0)).length

end detail

/-! ## `ni/functional/overload.h` -/

/-- An argument expression of a call: its type, which is never a reference (the
unqualified type by its number and the qualifiers), and whether the expression is an
lvalue. -/
structure Argument where
  name : Nat
  is_const : Bool
  is_volatile : Bool
  is_lvalue : Bool
deriving DecidableEq, Repr

/-- A call operator with one parameter: the declared parameter type, the declared result
type and the body.  `V` is the type of what is passed and returned (a value, or the
designation of an object where the type is a reference), `σ` the state the body may read
and write. -/
structure Callable (V σ : Type) where
  parameter : detail.CppType
  result_type : detail.CppType
  body : V → σ → V × σ

/-- What is handed to `overload`: an object of class type with a call operator (a lambda, a
function object), or a plain function pointer `R (*)(Arg)`. -/
inductive Lambda (V σ : Type)
  | object (f : Callable V σ)
  | function_pointer (f : Callable V σ)

/-- Source `detail::free_function_wrapper<Function>::apply`.  The primary template returns
its argument as it is.  The specialisation for `R (*)(Args...)` returns the lambda
`[f](Args... args) { return f(std::forward<Args>(args)...); }`: its parameters are those of
`f`; it declares no result type, so the result type is deduced from the `return` statement
as for `auto`, which removes a reference and the qualifiers and makes the lambda return a
copy, read by `read` from the object that `f` designates. -/
def detail.free_function_wrapper {V σ : Type} (read : σ → V → V) : Lambda V σ → Callable V σ
  | .object f => f
  | .function_pointer f =>
    { parameter := f.parameter
      result_type := detail.decay_t f.result_type
      body := fun v s =>
        let out := f.body v s
        (if f.result_type.ref = .none then out.1 else read out.2 out.1, out.2) }

/-- Source `detail::wrap_free_function(f)`:
`free_function_wrapper<std::decay_t<Function>>::apply(std::forward<Function>(f))`. -/
def detail.wrap_free_function {V σ : Type} (read : σ → V → V) (f : Lambda V σ) :
    Callable V σ :=
  detail.free_function_wrapper read f

/-- Source `overloaded<Lambdas...>`, as the set of call operators that are visible in it:
`overloaded<>` has none, `overloaded<Lambda1>` that of `Lambda1`, and
`overloaded<Lambda1, Lambdas...>` that of `Lambda1` and, by the second using-declaration,
those of `overloaded<Lambdas...>`. -/
def overloaded {V σ : Type} : List (Callable V σ) → List (Callable V σ)
  | [] => []
  | [Lambda1] => [Lambda1]
  | Lambda1 :: Lambdas => Lambda1 :: overloaded Lambdas

/-- Source `detail::overload(lambdas...)`: an `overloaded<std::decay_t<Lambdas>...>`
initialised from `wrap_free_function(lambdas)...`. -/
def detail.overload {V σ : Type} (read : σ → V → V) (lambdas : List (Lambda V σ)) :
    List (Callable V σ) :=
  overloaded (lambdas.map (detail.wrap_free_function read))

/-- Source `ni::overload(lambdas...)`:
`detail::overload(detail::wrap_free_function(lambdas)...)`; what the first wrapping returns
is of class type. -/
def overload {V σ : Type} (read : σ → V → V) (lambdas : List (Lambda V σ)) :
    List (Callable V σ) :=
  detail.overload read ((lambdas.map (detail.wrap_free_function read)).map Lambda.object)

/-- Whether the qualifiers `c1 v1` are among the qualifiers `c2 v2`. -/
def cv_le (c1 v1 c2 v2 : Bool) : Bool := (!c1 || c2) && (!v1 || v2)

/-- Whether a parameter of type `P` is initialised from the argument by the identity
conversion: the unqualified types agree and, for a reference, the reference binds directly
(an lvalue reference to an lvalue that is not more qualified, or, when it refers to a
`const` non-`volatile` type, to an rvalue; an rvalue reference to an rvalue). -/
def binds (P : detail.CppType) (a : Argument) : Bool :=
  P.name == a.name &&
  match P.ref with
  | .none => true
  | .lvalue =>
    cv_le a.is_const a.is_volatile P.is_const P.is_volatile &&
      (a.is_lvalue || (P.is_const && !P.is_volatile))
  | .rvalue => cv_le a.is_const a.is_volatile P.is_const P.is_volatile && !a.is_lvalue

/-- Whether, of two parameters that both take the argument by the identity conversion, the
first gives the better conversion sequence: an rvalue reference bound to an rvalue is better
than an lvalue reference; failing that, of two references the one that refers to the less
qualified type is better.  Passing by value and binding a reference are not
distinguished. -/
def better (P1 P2 : detail.CppType) (a : Argument) : Bool :=
  if P1.ref = .rvalue ∧ P2.ref = .lvalue ∧ a.is_lvalue = false then true
  else if P2.ref = .rvalue ∧ P1.ref = .lvalue ∧ a.is_lvalue = false then false
  else
    decide (P1.ref ≠ .none) && decide (P2.ref ≠ .none) &&
      cv_le P1.is_const P1.is_volatile P2.is_const P2.is_volatile &&
      !(cv_le P2.is_const P2.is_volatile P1.is_const P1.is_volatile)

/-- The outcome of overload resolution for a call with one argument. -/
inductive Resolution
  | selected (index : Nat)
  | ambiguous
  | no_candidate
  | by_conversion
deriving DecidableEq, Repr

/-- Overload resolution among call operators with the given parameter types.  A candidate
that takes the argument by the identity conversion is better than every candidate that
needs a conversion, so among the candidates for which `binds` holds the one that is better
than each of the others is selected, and the call is ambiguous when there is none.  When
no candidate takes the argument by the identity conversion the outcome depends on the
conversions between different types, which are left out here. -/
def resolve (Ps : List detail.CppType) (a : Argument) : Resolution :=
  let exact := (List.range Ps.length).filter
    (fun i => match Ps[i]? with
      | some P => binds P a
      | none => false)
  match exact.filter (fun i =>
      exact.all (fun j => j == i ||
        match Ps[i]?, Ps[j]? with
        | some P1, some P2 => better P1 P2 a
        | _, _ => false)) with
  | [i] => .selected i
  | _ => if Ps = [] then .no_candidate else if exact = [] then .by_conversion else .ambiguous

/-- The outcome of a call: the position of the call operator that ran, what it returned,
the type of the call expression and the state it left; or the call is ill-formed; or it is
resolved by conversions between different types. -/
inductive CallResult (V σ : Type)
  | returned (index : Nat) (value : V) (type : detail.CppType) (state : σ)
  | ill_formed
  | by_conversion

/-- The call `f(arg)` of an overloaded object `f`, with `v` passed for the argument. -/
def call {V σ : Type} (f : List (Callable V σ)) (a : Argument) (v : V) (s : σ) :
    CallResult V σ :=
  match resolve (f.map Callable.parameter) a with
  | .selected i =>
    match f[i]? with
    | some g => .returned i (g.body v s).1 g.result_type (g.body v s).2
    | none => .ill_formed
  | .ambiguous => .ill_formed
  | .no_candidate => .ill_formed
  | .by_conversion => .by_conversion

/-- The type `bool`. -/
def bool_t : detail.CppType :=
  { name := 4, is_const := false, is_volatile := false, ref := .none }

/-- An rvalue of type `int`, such as the literal `0`. -/
def int_rvalue : Argument :=
  { name := 1, is_const := false, is_volatile := false, is_lvalue := false }

/-- An lvalue of type `int`, such as a variable `int i`. -/
def int_lvalue : Argument :=
  { name := 1, is_const := false, is_volatile := false, is_lvalue := true }

/-- A function `int& same(int& x) { return x; }`: it returns the object it is given. -/
def same : Callable Nat (Nat → Nat) :=
  { parameter := detail.int_ref, result_type := detail.int_ref, body := fun x s => (x, s) }

/-- The function pointer `fi` of overload.test.cpp, an `int (*)(int)` that returns 1. -/
def fi : Callable Nat (Nat → Nat) :=
  { parameter := detail.int_t, result_type := detail.int_t, body := fun _ s => (1, s) }

/-- The function pointer `fb` of overload.test.cpp, an `int (*)(bool)` that returns 2. -/
def fb : Callable Nat (Nat → Nat) :=
  { parameter := bool_t, result_type := detail.int_t, body := fun _ s => (2, s) }

/-- A state with the `int` object 7 at every place. -/
def sevens : Nat → Nat := fun _ => 7

/-- An rvalue of type `bool`, such as `bool{}`. -/
def bool_rvalue : Argument :=
  { name := 4, is_const := false, is_volatile := false, is_lvalue := false }

/-- Reading the `int` object at a place of the state. -/
def read_int : (Nat → Nat) → Nat → Nat := fun s x => s x

end ni

/-! ## Lemmas and theorems -/

namespace ni

namespace meta

theorem fold_and_iff (bs : List Bool) : fold_and bs = true ↔ ∀ b ∈ bs, b = true := by
  unfold fold_and
  induction bs with
  | nil => simp
  | cons b bs ih =>
    simp only [decide_eq_true_eq] at ih
    simp only [List.map_cons, decide_eq_true_eq, List.cons.injEq, as_true, List.mem_cons,
      forall_eq_or_imp]
    rw [ih]
    constructor
    · rintro ⟨h1, h2⟩; exact ⟨h1.symm, h2⟩
    · rintro ⟨h1, h2⟩; exact ⟨h1.symm, h2⟩

theorem fold_add_nat (n : Nat) (ns : List Nat) : fold_add (n :: ns) = some (n :: ns).sum := by
  induction ns generalizing n with
  | nil => simp [fold_add]
  | cons m ns ih => simp [fold_add, ih m]

theorem scan_add_impl_append (Ms : List Nat) (N : Nat) (Ns : List Nat) :
    scan_add_impl Ms N Ns = Ms ++ scan_add_impl [] N Ns := by
  induction Ns generalizing Ms N with
  | nil => simp [scan_add_impl]
  | cons N2 Ns ih =>
    rw [scan_add_impl, ih, scan_add_impl, ih ([] ++ [N])]
    simp

theorem scan_add_impl_get (N : Nat) (Ns : List Nat) (k : Nat) (hk : k ≤ Ns.length) :
    (scan_add_impl [] N Ns)[k]? = some (N + (Ns.take k).sum) := by
  induction Ns generalizing N k with
  | nil =>
    have : k = 0 := by simpa using hk
    subst this
    simp [scan_add_impl]
  | cons N2 Ns ih =>
    rw [scan_add_impl, scan_add_impl_append]
    cases k with
    | zero => simp
    | succ k =>
      have hk2 : k ≤ Ns.length := by simpa using hk
      simp only [List.nil_append, List.singleton_append, List.getElem?_cons_succ,
        List.take_succ_cons, List.sum_cons]
      rw [ih (N + N2) k hk2]
      simp; omega

theorem fold_or_iff (bs : List Bool) : fold_or bs = true ↔ ∃ b ∈ bs, b = true := by
  unfold fold_or
  rw [Bool.not_eq_true', ← Bool.not_eq_true, fold_and_iff]
  simp

/-- C27: `fold_and<bs...>` is true exactly when every element of `bs` is true; for the empty
pack it is true.  The values of the test `fold_and_scenario` are as expected. -/
theorem fold_and_all (bs : List Bool) :
    (fold_and bs = true ↔ ∀ b ∈ bs, b = true) ∧
    (fold_and bs = false ↔ ∃ b ∈ bs, b = false) ∧
    fold_and [] = true ∧ fold_and [true] = true ∧ fold_and [false] = false ∧
    fold_and [true, false] = false ∧ fold_and [true, true, true, false, true] = false := by
  refine ⟨fold_and_iff bs, ?_, by decide, by decide, by decide, by decide, by decide⟩
  rw [← Bool.not_eq_true, fold_and_iff]
  simp

/-- C28: `fold_or<bs...>` is true exactly when at least one element of `bs` is true; for the
empty pack it is false.  The values of the test `fold_or_scenario` are as expected. -/
theorem fold_or_any (bs : List Bool) :
    (fold_or bs = true ↔ ∃ b ∈ bs, b = true) ∧
    (fold_or bs = false ↔ ∀ b ∈ bs, b = false) ∧
    fold_or [] = false ∧ fold_or [true] = true ∧ fold_or [false] = false ∧
    fold_or [true, false] = true ∧ fold_or [true, true] = true ∧
    fold_or [false, false] = false := by
  refine ⟨fold_or_iff bs, ?_, by decide, by decide, by decide, by decide, by decide, by decide⟩
  rw [← Bool.not_eq_true, fold_or_iff]
  simp

theorem fold_add_cons {Integral : Type} [AddMonoid Integral] (n : Integral)
    (ns : List Integral) : fold_add (n :: ns) = some (n :: ns).sum := by
  induction ns generalizing n with
  | nil => simp [fold_add]
  | cons m ns ih => simp [fold_add, ih m]

theorem signed_plus (w : Nat) (a b : Signed w) : a + b = ⟨signed_add w a.value b.value⟩ := rfl

/-- For a signed `Integral` of width `w` the value of `fold_add` is the sum as long as every
sum `n_k + ... + n_N` the recursion forms is representable. -/
theorem fold_add_signed (w : Nat) (ns : List Int) (hne : ns ≠ [])
    (hfit : ∀ k, k < ns.length →
      -(2 ^ (w - 1) : Int) ≤ (ns.drop k).sum ∧ (ns.drop k).sum < 2 ^ (w - 1)) :
    fold_add (ns.map (fun n => (⟨some n⟩ : Signed w))) = some ⟨some ns.sum⟩ := by
  induction ns with
  | nil => exact absurd rfl hne
  | cons n t ih =>
    cases t with
    | nil => simp [fold_add]
    | cons m t =>
      have h0 := hfit 0 (by simp)
      have ht : ∀ k, k < (m :: t).length →
          -(2 ^ (w - 1) : Int) ≤ ((m :: t).drop k).sum ∧ ((m :: t).drop k).sum < 2 ^ (w - 1) := by
        intro k hk
        have := hfit (k + 1) (by simp at hk ⊢; omega)
        simpa using this
      have ih2 := ih (by simp) ht
      simp only [List.map_cons] at ih2 ⊢
      rw [fold_add, ih2]
      simp only [Option.map_some', signed_plus, signed_add]
      simp only [List.drop_zero, List.sum_cons] at h0
      rw [if_pos (by simpa using h0)]
      simp

/-- A sum that overflows on the way makes the instantiation ill-formed even when the total is
representable: `fold_add<int, -1, INT_MAX, 1>`. -/
theorem fold_add_signed_overflow :
    fold_add ([-1, 2147483647, 1].map (fun n => (⟨some n⟩ : Signed 32))) = some ⟨none⟩ ∧
    ([-1, 2147483647, 1] : List Int).sum = 2147483647 := by
  constructor
  · simp [fold_add, signed_plus, signed_add]
  · decide

theorem scan_add_impl_acc {Integral : Type} [Add Integral] (Ms : List Integral) (N : Integral)
    (Ns : List Integral) : scan_add_impl Ms N Ns = Ms ++ running_sums N Ns := by
  induction Ns generalizing Ms N with
  | nil => simp [scan_add_impl, running_sums]
  | cons N2 Ns ih =>
    rw [scan_add_impl, ih, running_sums]
    simp

theorem running_sums_length {Integral : Type} [Add Integral] (init : Integral)
    (ns : List Integral) : (running_sums init ns).length = ns.length + 1 := by
  induction ns generalizing init with
  | nil => simp [running_sums]
  | cons n ns ih => simp [running_sums, ih]

theorem running_sums_get {Integral : Type} [AddMonoid Integral] (init : Integral)
    (ns : List Integral) (k : Nat) (hk : k ≤ ns.length) :
    (running_sums init ns)[k]? = some (init + (ns.take k).sum) := by
  induction ns generalizing init k with
  | nil =>
    have : k = 0 := by simpa using hk
    subst this
    simp [running_sums]
  | cons n ns ih =>
    cases k with
    | zero => simp [running_sums]
    | succ k =>
      have hk2 : k ≤ ns.length := by simpa using hk
      simp only [running_sums, List.getElem?_cons_succ, List.take_succ_cons, List.sum_cons]
      rw [ih (init + n) k hk2, add_assoc]

theorem running_sums_getLast {Integral : Type} [AddMonoid Integral] (init : Integral)
    (ns : List Integral) : (running_sums init ns).getLast? = some (init + ns.sum) := by
  rw [List.getLast?_eq_getElem?, running_sums_length, Nat.add_sub_cancel,
    running_sums_get init ns ns.length (le_refl _), List.take_length]

theorem constant_plus (T : IntegralType) (a b : Constant T) :
    a + b = ⟨match a.value, b.value with
      | some x, some y => integral_add T x y
      | _, _ => none⟩ := rfl

theorem constant_of_fits (T : IntegralType) (n : Int) (h : T.fits n = true) :
    T.constant n = ⟨some n⟩ := by
  simp [IntegralType.constant, h]

theorem integral_add_exact (T : IntegralType) (hw : T.wraps = false) (a b : Int) :
    integral_add T a b = if T.fits (a + b) then some (a + b) else none := by
  unfold integral_add
  by_cases h32 : T.bits < 32
  · rw [if_pos h32]
  · rw [if_neg h32]
    cases hs : T.is_signed with
    | true => simp
    | false =>
      unfold IntegralType.wraps at hw
      simp [hs] at hw
      omega

theorem integral_add_wraps (T : IntegralType) (hw : T.wraps = true) (a b : Int) :
    integral_add T a b = some ((a + b) % 2 ^ T.bits) := by
  unfold IntegralType.wraps at hw
  simp only [Bool.and_eq_true, Bool.not_eq_true', decide_eq_true_eq] at hw
  unfold integral_add
  rw [if_neg (by omega)]
  simp [hw.1]

theorem fits_wraps_mod (T : IntegralType) (hw : T.wraps = true) (n : Int)
    (h : T.fits n = true) : n % 2 ^ T.bits = n := by
  unfold IntegralType.wraps at hw
  simp only [Bool.and_eq_true, Bool.not_eq_true', decide_eq_true_eq] at hw
  unfold IntegralType.fits at h
  simp only [hw.1, Bool.false_eq_true, if_false, decide_eq_true_eq] at h
  exact Int.emod_eq_of_lt h.1 h.2

/-- The suffix sums `n_k + ... + n_N` that the recursion of `fold_add` forms. -/
theorem fold_add_constants_exact (T : IntegralType) (hw : T.wraps = false) (n : Int)
    (t : List Int) (hval : ∀ m ∈ n :: t, T.fits m = true) :
    fold_add ((n :: t).map T.constant)
      = some ⟨if ∀ k, k < (n :: t).length → T.fits (((n :: t).drop k).sum) = true
          then some (n :: t).sum else none⟩ := by
  induction t generalizing n with
  | nil =>
    have hn := hval n (List.mem_cons_self _ _)
    have : ∀ k, k < [n].length → T.fits (([n].drop k).sum) = true := by
      intro k hk
      have : k = 0 := by simpa using hk
      subst this
      simpa using hn
    rw [if_pos this]
    simp [fold_add, constant_of_fits T n hn]
  | cons m t ih =>
    have hn := hval n (List.mem_cons_self _ _)
    have ht : ∀ x ∈ m :: t, T.fits x = true := fun x hx => hval x (List.mem_cons_of_mem _ hx)
    have ih2 := ih m ht
    simp only [List.map_cons] at ih2 ⊢
    rw [fold_add, ih2, constant_of_fits T n hn]
    simp only [Option.map_some', constant_plus, Option.some.injEq]
    congr 1
    by_cases hall : ∀ k, k < (m :: t).length → T.fits (((m :: t).drop k).sum) = true
    · rw [if_pos hall]
      simp only [integral_add_exact T hw]
      by_cases h0 : T.fits (n + (m :: t).sum) = true
      · rw [if_pos h0, if_pos]
        · simp
        · intro k hk
          cases k with
          | zero => simpa using h0
          | succ k =>
            have := hall k (by simp at hk ⊢; omega)
            simpa using this
      · rw [if_neg h0, if_neg]
        intro hc
        apply h0
        have := hc 0 (by simp)
        simpa using this
    · rw [if_neg hall, if_neg]
      intro hc
      apply hall
      intro k hk
      have := hc (k + 1) (by simp at hk ⊢; omega)
      simpa using this

theorem fold_add_constants_wrap (T : IntegralType) (hw : T.wraps = true) (n : Int)
    (t : List Int) (hval : ∀ m ∈ n :: t, T.fits m = true) :
    fold_add ((n :: t).map T.constant) = some ⟨some ((n :: t).sum % 2 ^ T.bits)⟩ := by
  induction t generalizing n with
  | nil =>
    have hn := hval n (List.mem_cons_self _ _)
    simp [fold_add, constant_of_fits T n hn, fits_wraps_mod T hw n hn]
  | cons m t ih =>
    have hn := hval n (List.mem_cons_self _ _)
    have ht : ∀ x ∈ m :: t, T.fits x = true := fun x hx => hval x (List.mem_cons_of_mem _ hx)
    have ih2 := ih m ht
    simp only [List.map_cons] at ih2 ⊢
    rw [fold_add, ih2, constant_of_fits T n hn]
    simp only [Option.map_some', constant_plus, integral_add_wraps T hw, Option.some.injEq]
    congr 2
    simp [Int.add_emod, Int.emod_emod_of_dvd]

/-- Counterexample for C29: every element of `-1, INT_MAX, 1` is an `int` and so is their
sum `INT_MAX`, yet `fold_add<int, -1, INT_MAX, 1>` has no value: the recursion first forms
`INT_MAX + 1`, which overflows.  In another order, `fold_add<int, INT_MAX, -1, 1>`, the
value is the sum. -/
theorem fold_add_int_overflow :
    (∀ n ∈ ([-1, 2147483647, 1] : List Int), int32.fits n = true) ∧
    ([-1, 2147483647, 1] : List Int).sum = 2147483647 ∧ int32.fits 2147483647 = true ∧
    fold_add_v int32 [-1, 2147483647, 1] = none ∧
    fold_add_v int32 [2147483647, -1, 1] = some 2147483647 ∧
    fold_add_v uint8 [200, 100] = none := by
  refine ⟨by decide, by decide, by decide, by decide, by decide, by decide⟩

/-- C29, amended: for a non-empty pack `n_1, ..., n_N` of values of `Integral`, the value
of `fold_add<Integral, n_1, ..., n_N>` is the sum `n_1 + ... + n_N` when every sum
`n_k + ... + n_N` that the recursion forms is representable in `Integral`, and the
instantiation is ill-formed when one of them is not; for an unsigned `Integral` at least as
wide as `int` the value is the sum modulo `2 ^ w` without any condition. -/
theorem fold_add_eq_sum (T : IntegralType) (ns : List Int) (hne : ns ≠ [])
    (hval : ∀ n ∈ ns, T.fits n = true) :
    (T.wraps = false → (∀ k, k < ns.length → T.fits ((ns.drop k).sum) = true) →
      fold_add_v T ns = some ns.sum) ∧
    (T.wraps = false → (∃ k, k < ns.length ∧ T.fits ((ns.drop k).sum) = false) →
      fold_add_v T ns = none) ∧
    (T.wraps = true → fold_add_v T ns = some (ns.sum % 2 ^ T.bits)) := by
  cases ns with
  | nil => exact absurd rfl hne
  | cons n t =>
    refine ⟨fun hw hall => ?_, fun hw hex => ?_, fun hw => ?_⟩
    · unfold fold_add_v
      rw [fold_add_constants_exact T hw n t hval, if_pos hall]
      rfl
    · unfold fold_add_v
      rw [fold_add_constants_exact T hw n t hval, if_neg]
      · rfl
      · intro hall
        obtain ⟨k, hk, hf⟩ := hex
        rw [hall k hk] at hf
        cases hf
    · unfold fold_add_v
      rw [fold_add_constants_wrap T hw n t hval]
      rfl

/-- Witness for C29: the values of the test `fold_add_scenario` for `int`, negative
elements included. -/
theorem fold_add_eq_sum_witness :
    fold_add_v int32 [-1, 1, -2, 2] = some 0 ∧ fold_add_v int32 [1, 2, 3] = some 6 ∧
    fold_add_v int32 [1337] = some 1337 :=
  ⟨(fold_add_eq_sum int32 [-1, 1, -2, 2] (by simp) (by decide)).1 rfl (by decide),
   (fold_add_eq_sum int32 [1, 2, 3] (by simp) (by decide)).1 rfl (by decide),
   (fold_add_eq_sum int32 [1337] (by simp) (by decide)).1 rfl (by decide)⟩

theorem running_sums_head (init : Int) (ns : List Int) :
    ∃ rest, running_sums init ns = init :: rest := by
  cases ns with
  | nil => exact ⟨[], rfl⟩
  | cons n ns => exact ⟨_, rfl⟩

theorem values_of_invalid (T : IntegralType) (cs : List (Constant T)) :
    Constant.values (running_sums (⟨none⟩ : Constant T) cs) = none := by
  cases cs with
  | nil => rfl
  | cons c cs => simp [running_sums, Constant.values]

/-- The running sums `init + n_1 + ... + n_k` that the recursion of `scan_add_impl`
forms. -/
theorem scan_constants_exact (T : IntegralType) (hw : T.wraps = false) (ns : List Int) :
    ∀ init : Int, T.fits init = true → (∀ n ∈ ns, T.fits n = true) →
      Constant.values (running_sums (⟨some init⟩ : Constant T) (ns.map T.constant))
        = if (running_sums init ns).all T.fits then some (running_sums init ns) else none := by
  induction ns with
  | nil =>
    intro init hinit _
    simp [running_sums, Constant.values, hinit]
  | cons n ns ih =>
    intro init hinit hval
    have hn := hval n (List.mem_cons_self _ _)
    have ht : ∀ x ∈ ns, T.fits x = true := fun x hx => hval x (List.mem_cons_of_mem _ hx)
    simp only [List.map_cons, running_sums, constant_of_fits T n hn, constant_plus,
      integral_add_exact T hw, List.all_cons, hinit, Bool.true_and]
    by_cases h0 : T.fits (init + n) = true
    · simp only [h0, if_true]
      rw [Constant.values, ih (init + n) h0 ht]
      by_cases hall : (running_sums (init + n) ns).all T.fits = true
      · simp [hall]
      · simp [hall]
    · obtain ⟨rest, hrest⟩ := running_sums_head (init + n) ns
      have hfalse : (running_sums (init + n) ns).all T.fits = false := by
        rw [hrest]
        simp only [Bool.not_eq_true] at h0
        simp [h0]
      simp only [h0, Bool.false_eq_true, if_false, hfalse]
      rw [Constant.values, values_of_invalid]

theorem scan_constants_wrap (T : IntegralType) (hw : T.wraps = true) (ns : List Int) :
    ∀ init : Int, (∀ n ∈ ns, T.fits n = true) →
      Constant.values (running_sums (⟨some (init % 2 ^ T.bits)⟩ : Constant T)
          (ns.map T.constant))
        = some ((running_sums init ns).map (fun v => v % 2 ^ T.bits)) := by
  induction ns with
  | nil =>
    intro init _
    simp [running_sums, Constant.values]
  | cons n ns ih =>
    intro init hval
    have hn := hval n (List.mem_cons_self _ _)
    have ht : ∀ x ∈ ns, T.fits x = true := fun x hx => hval x (List.mem_cons_of_mem _ hx)
    simp only [List.map_cons, running_sums, constant_of_fits T n hn, constant_plus,
      integral_add_wraps T hw]
    have hmod : (init % 2 ^ T.bits + n) % 2 ^ T.bits = (init + n) % 2 ^ T.bits := by
      simp [Int.add_emod, Int.emod_emod_of_dvd]
    rw [hmod, Constant.values, ih (init + n) ht]

theorem scan_add_t_exact (T : IntegralType) (hw : T.wraps = false) (init : Int)
    (ns : List Int) (hinit : T.fits init = true) (hval : ∀ n ∈ ns, T.fits n = true) :
    scan_add_t T (init :: ns)
      = if (running_sums init ns).all T.fits then some (running_sums init ns) else none := by
  unfold scan_add_t
  simp only [List.map_cons, scan_add, scan_add_impl_acc, List.nil_append, Option.some_bind]
  rw [constant_of_fits T init hinit]
  exact scan_constants_exact T hw ns init hinit hval

theorem scan_add_t_wrap (T : IntegralType) (hw : T.wraps = true) (init : Int)
    (ns : List Int) (hinit : T.fits init = true) (hval : ∀ n ∈ ns, T.fits n = true) :
    scan_add_t T (init :: ns)
      = some ((running_sums init ns).map (fun v => v % 2 ^ T.bits)) := by
  unfold scan_add_t
  simp only [List.map_cons, scan_add, scan_add_impl_acc, List.nil_append, Option.some_bind]
  rw [constant_of_fits T init hinit]
  have := scan_constants_wrap T hw ns init hval
  rw [fits_wraps_mod T hw init hinit] at this
  exact this

/-- C30 (counterexample): for `N = 0` and `init = 0` the sequence `scan_add<int, 0>` is `<0>`
with last element 0, but `fold_add<int>` of the empty pack has no value.  For
`N = 3`, `scan_add<int, 0, -1, INT_MAX, 1>` is `<0, -1, INT_MAX - 1, INT_MAX>` while
`fold_add<int, -1, INT_MAX, 1>` has no value.  And `scan_add<int, INT_MAX, 1>` is no sequence
at all: the running sum `INT_MAX + 1` overflows. -/
theorem scan_add_last_without_fold_add :
    scan_add_t int32 [0] = some [0] ∧ fold_add_v int32 [] = none ∧
    scan_add_t int32 [0, -1, 2147483647, 1] = some [0, -1, 2147483646, 2147483647] ∧
    fold_add_v int32 [-1, 2147483647, 1] = none ∧
    (∀ n ∈ ([2147483647, 1] : List Int), int32.fits n = true) ∧
    scan_add_t int32 [2147483647, 1] = none := by
  refine ⟨by decide, by decide, by decide, by decide, by decide, by decide⟩

/-- C30, amended: for values `init, n_1, ..., n_N` of `Integral`, `N ≥ 0`,
`scan_add<Integral, init, n_1, ..., n_N>` is the sequence of the `N + 1` running sums
`init + n_1 + ... + n_k`, `k = 0..N`, when every running sum is representable in `Integral`,
and ill-formed when one is not; for an unsigned `Integral` at least as wide as `int` it is
the sequence of the running sums modulo `2 ^ w`.  With `init = 0` and `N ≥ 1` the last
element is the value of `fold_add<Integral, n_1, ..., n_N>` whenever both exist.  The pack
without `init` has no `scan_add`. -/
theorem scan_add_running_sums (T : IntegralType) (init : Int) (ns : List Int)
    (hinit : T.fits init = true) (hval : ∀ n ∈ ns, T.fits n = true) :
    (T.wraps = false → (∀ v ∈ running_sums init ns, T.fits v = true) →
      scan_add_t T (init :: ns) = some (running_sums init ns)) ∧
    (T.wraps = false → (∃ v ∈ running_sums init ns, T.fits v = false) →
      scan_add_t T (init :: ns) = none) ∧
    (T.wraps = true →
      scan_add_t T (init :: ns) = some ((running_sums init ns).map (fun v => v % 2 ^ T.bits))) ∧
    (running_sums init ns).length = ns.length + 1 ∧
    (∀ k, k ≤ ns.length → (running_sums init ns)[k]? = some (init + (ns.take k).sum)) ∧
    (ns ≠ [] → T.fits 0 = true → ∀ l v, scan_add_t T (0 :: ns) = some l →
      fold_add_v T ns = some v → l.getLast? = some v) ∧
    scan_add_t T [] = none := by
  refine ⟨fun hw hall => ?_, fun hw hex => ?_, fun hw => scan_add_t_wrap T hw init ns hinit hval,
    running_sums_length init ns, running_sums_get init ns, ?_, rfl⟩
  · rw [scan_add_t_exact T hw init ns hinit hval, if_pos]
    rw [List.all_eq_true]
    exact hall
  · rw [scan_add_t_exact T hw init ns hinit hval, if_neg]
    rw [List.all_eq_true]
    intro hall
    obtain ⟨v, hv, hf⟩ := hex
    rw [hall v hv] at hf
    cases hf
  · intro hne h0 l v hl hv
    cases ns with
    | nil => exact absurd rfl hne
    | cons n t =>
      cases hw : T.wraps with
      | false =>
        rw [scan_add_t_exact T hw 0 (n :: t) h0 hval] at hl
        unfold fold_add_v at hv
        rw [fold_add_constants_exact T hw n t hval] at hv
        split at hl
        · cases hl
          split at hv
          · simp only [Option.some_bind, Option.some.injEq] at hv
            rw [running_sums_getLast, zero_add, hv]
          · simp at hv
        · cases hl
      | true =>
        rw [scan_add_t_wrap T hw 0 (n :: t) h0 hval] at hl
        unfold fold_add_v at hv
        rw [fold_add_constants_wrap T hw n t hval] at hv
        simp only [Option.some_bind, Option.some.injEq] at hv
        cases hl
        rw [List.getLast?_map, running_sums_getLast, zero_add, ← hv]
        rfl

/-- Witness for C30: the values of the test `scan_add_scenario`; the last element of
`scan_add<int, 0, 1, 1, 1>` is `fold_add<int, 1, 1, 1>`. -/
theorem scan_add_running_sums_witness :
    scan_add_t int32 [1, 2, 3, 4] = some [1, 3, 6, 10] ∧
    scan_add_t int32 [0, 1, 1, 1] = some [0, 1, 2, 3] ∧
    scan_add_t int32 [1] = some [1] ∧
    ([0, 1, 2, 3] : List Int).getLast? = some 3 ∧ fold_add_v int32 [1, 1, 1] = some 3 :=
  ⟨(scan_add_running_sums int32 1 [2, 3, 4] (by decide) (by decide)).1 rfl (by decide),
   (scan_add_running_sums int32 0 [1, 1, 1] (by decide) (by decide)).1 rfl (by decide),
   (scan_add_running_sums int32 1 [] (by decide) (by simp)).1 rfl (by decide),
   (scan_add_running_sums int32 0 [1, 1, 1] (by decide) (by decide)).2.2.2.2.2.1
      (by simp) (by decide) [0, 1, 2, 3] 3 (by decide) (by decide),
   by decide⟩

end meta

namespace type_hierarchy_detail

theorem level_shifts_get (c : Config) (k : Nat) (hk : k ≤ c.bits_per_level.length) :
    lookup_v c (k : Int) = some (c.span k) := by
  unfold lookup_v Config.level_shifts meta.scan_add
  simp only [Option.some_bind, get]
  have : ¬ ((k : Int) < 0) := by omega
  rw [if_neg this, Int.toNat_ofNat, meta.scan_add_impl_get 0 _ k hk]
  simp [Config.span]

theorem int_for_bits_from_none (fuel n : Nat) (h : 64 < n) : int_for_bits_from fuel n = none := by
  induction fuel generalizing n with
  | zero => rfl
  | succ fuel ih =>
    rw [int_for_bits_from]
    have h1 : n ≠ 8 := by omega
    have h2 : n ≠ 16 := by omega
    have h3 : n ≠ 32 := by omega
    have h4 : n ≠ 64 := by omega
    simp only [h1, h2, h3, h4, if_false]
    exact ih (n + 1) (by omega)

theorem int_for_bits_bound (n w : Nat) (h : int_for_bits n = some w) :
    n ≤ w ∧ (w = 8 ∨ w = 16 ∨ w = 32 ∨ w = 64) := by
  by_cases hn : 64 < n
  · rw [int_for_bits, int_for_bits_from_none 65 n hn] at h
    cases h
  · have hn2 : n ≤ 64 := by omega
    interval_cases n <;> (simp [int_for_bits, int_for_bits_from] at h; omega)

theorem id_t_bound (c : Config) (w : Nat) (h : c.id_t = some w) :
    c.bits_per_level.sum ≤ w ∧ (w = 8 ∨ w = 16 ∨ w = 32 ∨ w = 64) := by
  unfold Config.id_t at h
  cases hb : c.bits_per_level with
  | nil => rw [hb] at h; simp [meta.fold_add] at h
  | cons b bs =>
    rw [hb, meta.fold_add_nat] at h
    exact int_for_bits_bound _ w h

theorem span_le_sum (c : Config) (k : Nat) : c.span k ≤ c.bits_per_level.sum := by
  unfold Config.span
  exact List.Sublist.sum_le_sum (List.take_sublist k _) (fun _ _ => Nat.zero_le _)


theorem level_of_from_eq (tags : List Int) (d : Nat)
    (hmem : ∀ N : Int, N ∈ tags ↔ 0 ≤ N ∧ N ≤ d) (fuel k : Nat)
    (hk : k ≤ d + 1) (hf : d + 2 ≤ fuel + k) :
    level_of_from tags fuel (k : Int) = (d : Int) := by
  induction fuel generalizing k with
  | zero => omega
  | succ fuel ih =>
    rw [level_of_from]
    by_cases hkd : k ≤ d
    · have : (k : Int) ∈ tags := (hmem k).2 ⟨by omega, by omega⟩
      rw [if_pos this]
      have := ih (k + 1) (by omega) (by omega)
      simpa using this
    · have : ¬ (k : Int) ∈ tags := fun h => hkd (by have := (hmem k).1 h; omega)
      rw [if_neg this]
      omega

theorem level_of_eq (tags : List Int) (d : Nat)
    (hmem : ∀ N : Int, N ∈ tags ↔ 0 ≤ N ∧ N ≤ d) (hlen : tags.length = d + 1) :
    level_of tags = (d : Int) := by
  unfold level_of
  have := level_of_from_eq tags d hmem (tags.length + 1) 0 (by omega) (by omega)
  simpa using this

theorem level_tags_spec (t : HType) :
    (∀ N : Int, N ∈ t.level_tags ↔ 0 ≤ N ∧ N ≤ t.depth) ∧
      t.level_tags.length = t.depth + 1 := by
  induction t with
  | root c =>
    refine ⟨fun N => ?_, rfl⟩
    simp [HType.level_tags, HType.depth]
    omega
  | sub d s ih =>
    cases s with
    | root c =>
      refine ⟨fun N => ?_, rfl⟩
      simp [HType.level_tags, HType.depth]
      omega
    | sub d2 s2 =>
      obtain ⟨ih1, ih2⟩ := ih
      have hl := level_of_eq _ _ ih1 ih2
      rw [HType.level_tags, hl]
      refine ⟨fun N => ?_, ?_⟩
      · rw [List.mem_cons, ih1]
        simp only [HType.depth]
        push_cast
        omega
      · simp [ih2, HType.depth]

/-- The value `level_of_v` of a hierarchy class is its depth. -/
theorem level_of_v_node (t : HType) : level_of_v (.node t) = (t.depth : Int) := by
  obtain ⟨h1, h2⟩ := level_tags_spec t
  exact level_of_eq _ _ h1 h2

theorem shift_v_node (t : HType) (c : Config) (w : Nat) (hw : c.id_t = some w)
    (hd : t.depth ≤ c.bits_per_level.length) :
    shift_v c (.node t) = some (c.span t.depth) := by
  unfold shift_v
  rw [hw, level_of_v_node, level_shifts_get c _ hd]
  have hb := id_t_bound c w hw
  have hs := span_le_sum c t.depth
  have : c.span t.depth < 2 ^ w := lt_of_le_of_lt (by omega) (Nat.lt_two_pow w)
  simp [Nat.mod_eq_of_lt this]

theorem get_bits (c : Config) (k b : Nat) (h : get (k : Int) c.bits_per_level = some b) :
    k < c.bits_per_level.length ∧ c.span (k + 1) = c.span k + b := by
  unfold get at h
  have : ¬ ((k : Int) < 0) := by omega
  rw [if_neg this, Int.toNat_ofNat] at h
  obtain ⟨hk, hb⟩ := List.getElem?_eq_some.1 h
  refine ⟨hk, ?_⟩
  unfold Config.span
  rw [List.take_succ, h]
  simp


theorem id_shl_one (w b bound : Nat) (h : id_shl w 1 b = some bound) : bound = 2 ^ b := by
  unfold id_shl int_shl at h
  split at h
  · split at h
    · simp [Nat.shiftLeft_eq] at h; omega
    · cases h
  · split at h
    · rename_i hb
      have : 2 ^ b < 2 ^ w := Nat.pow_lt_pow_right (by omega) hb
      simp [Nat.shiftLeft_eq, Nat.mod_eq_of_lt this] at h
      omega
    · cases h

theorem id_shl_val (w n sh v : Nat) (h : id_shl w n sh = some v) (hlt : n * 2 ^ sh < 2 ^ w) :
    v = n * 2 ^ sh := by
  unfold id_shl int_shl at h
  split at h
  · split at h
    · simp [Nat.shiftLeft_eq] at h; omega
    · cases h
  · split at h
    · simp [Nat.shiftLeft_eq, Nat.mod_eq_of_lt hlt] at h
      omega
    · cases h

theorem next_id_spec (c : Config) (k : Nat) (r r1 : Registry) (n : Nat)
    (h : next_id c (k : Int) r = .ok (n, r1)) :
    ∃ w b, c.id_t = some w ∧ get (k : Int) c.bits_per_level = some b ∧ n < 2 ^ b ∧
      r1.ids = r.ids := by
  unfold next_id at h
  split at h
  · rename_i w b hw hb
    simp only at h
    split at h
    · rename_i bound hbound
      split at h
      · rename_i hlt
        cases h
        refine ⟨w, b, hw, hb, ?_, rfl⟩
        rw [← id_shl_one w b bound hbound]
        exact hlt
      · cases h
    · cases h
  · cases h

theorem set_id_ids (r : Registry) (t : HType) (v : Nat) (t2 : HType) :
    (r.set_id t v).ids t2 = if t2 = t then some v else r.ids t2 := rfl

theorem derives_from_self (t : HType) : t.derives_from t = true := by
  cases t <;> simp [HType.derives_from]

theorem derives_from_depth (a t : HType) (h : t.derives_from a = true) : a.depth ≤ t.depth := by
  induction t with
  | root c =>
    simp [HType.derives_from] at h
    subst h
    exact Nat.le_refl _
  | sub d s ih =>
    simp only [HType.derives_from, Bool.or_eq_true, decide_eq_true_eq] at h
    rcases h with h | h
    · subst h; exact Nat.le_refl _
    · have := ih h
      simp only [HType.depth]
      omega

theorem well_formed_congr (r r1 : Registry) (h : r1.ids = r.ids) (hw : r.well_formed) :
    r1.well_formed := by
  unfold Registry.well_formed s_type_hierarchy__ at *
  rw [h]
  exact hw

/-- Recording the id of a class that had none keeps the storage well formed. -/
theorem well_formed_set_id (r : Registry) (d : Nat) (s : HType) (v : Nat)
    (hw : r.well_formed) (hnone : r.ids (.sub d s) = none)
    (h1 : ∃ w, s.config.id_t = some w ∧ s.config.span (s.depth + 1) ≤ w)
    (h2 : s.depth + 1 ≤ s.config.bits_per_level.length)
    (h3 : v < 2 ^ s.config.span (s.depth + 1))
    (h4 : v % 2 ^ s.config.span s.depth = s_type_hierarchy__ r s)
    (h5 : s.depth ≠ 0 → (r.ids s).isSome = true) :
    (r.set_id (.sub d s) v).well_formed := by
  obtain ⟨hroot, hsub⟩ := hw
  have hpar : ∀ s2 : HType, (s2.depth ≠ 0 → (r.ids s2).isSome = true) →
      s_type_hierarchy__ (r.set_id (.sub d s) v) s2 = s_type_hierarchy__ r s2 ∧
      (s2.depth ≠ 0 → ((r.set_id (.sub d s) v).ids s2).isSome = true) := by
    intro s2 hs2
    by_cases he : s2 = .sub d s
    · subst he
      have := hs2 (by simp [HType.depth])
      rw [hnone] at this
      cases this
    · unfold s_type_hierarchy__
      rw [set_id_ids, if_neg he]
      exact ⟨rfl, hs2⟩
  refine ⟨fun c => ?_, fun d2 s2 v2 hv2 => ?_⟩
  · rw [set_id_ids, if_neg (by simp)]
    exact hroot c
  · rw [set_id_ids] at hv2
    by_cases he : HType.sub d2 s2 = .sub d s
    · rw [if_pos he] at hv2
      cases hv2
      cases he
      obtain ⟨e1, e2⟩ := hpar s h5
      exact ⟨h1, h2, h3, by rw [e1]; exact h4, e2⟩
    · rw [if_neg he] at hv2
      obtain ⟨g1, g2, g3, g4, g5⟩ := hsub d2 s2 v2 hv2
      obtain ⟨e1, e2⟩ := hpar s2 g5
      exact ⟨g1, g2, g3, by rw [e1]; exact g4, e2⟩


theorem span_zero (c : Config) : c.span 0 = 0 := by simp [Config.span]

/-- What one run of `type_hierarchy_init_id__` does to the storage: it stays well formed, the
class has the returned id afterwards, and ids change only for classes on the chain of the
class that had none before. -/
theorem init_id_spec (t : HType) : ∀ (r : Registry) (v : Nat) (r2 : Registry),
    type_hierarchy_init_id__ t r = .ok (v, r2) → r.well_formed →
    r2.well_formed ∧ r2.ids t = some v ∧
    (∀ t2, r2.ids t2 ≠ r.ids t2 → t.derives_from t2 = true ∧ r.ids t2 = none) := by
  induction t with
  | root c =>
    intro r v r2 h
    rw [type_hierarchy_init_id__] at h
    cases h
  | sub d s ih =>
    cases s with
    | root c =>
      intro r v r2 h hw
      rw [type_hierarchy_init_id__] at h
      split at h
      · rename_i id hid
        cases h
        exact ⟨hw, hid, fun t2 hne => absurd rfl hne⟩
      · rename_i hnone
        split at h
        · rename_i n r1 hnext
          cases h
          obtain ⟨w, b, hwid, hb, hn, hids⟩ := next_id_spec c 0 r r1 _ hnext
          have hw1 : r1.well_formed := well_formed_congr r r1 hids hw
          obtain ⟨hlen, hspan⟩ := get_bits c 0 b hb
          have hbound := id_t_bound c w hwid
          have hsp := span_le_sum c (0 + 1)
          refine ⟨?_, ?_, ?_⟩
          · apply well_formed_set_id r1 d (.root c) _ hw1
            · rw [hids]; exact hnone
            · exact ⟨w, hwid, by simp only [HType.depth, HType.config]; omega⟩
            · simp only [HType.depth, HType.config]; omega
            · simp only [HType.depth, HType.config]
              rw [hspan, span_zero]
              simpa using hn
            · simp only [HType.depth, HType.config, span_zero, pow_zero, Nat.mod_one]
              unfold s_type_hierarchy__
              rw [hw1.1 c]
              rfl
            · intro h0; exact absurd rfl h0
          · rw [set_id_ids, if_pos rfl]
          · intro t2 hne
            rw [set_id_ids, hids] at hne
            by_cases he : t2 = .sub d (.root c)
            · subst he
              exact ⟨derives_from_self _, hnone⟩
            · rw [if_neg he] at hne
              exact absurd rfl hne
        · cases h
    | sub d2 s2 =>
      intro r v r2 h hw
      rw [type_hierarchy_init_id__] at h
      simp only [level_of_v_node] at h
      split at h
      swap
      · cases h
      rename_i hlev
      split at h
      · rename_i id hid
        cases h
        exact ⟨hw, hid, fun t2 hne => absurd rfl hne⟩
      rename_i hnone
      split at h
      swap
      · cases h
      rename_i w shift hwid hshift
      split at h
      swap
      · cases h
      rename_i sid r1 hsuper
      split at h
      swap
      · cases h
      rename_i n r3 hnext
      split at h
      swap
      · cases h
      rename_i sv hsv
      cases h
      obtain ⟨hw1, hsid, hchg⟩ := ih r sid r1 hsuper hw
      obtain ⟨w2, b, hwid2, hb, hn, hids⟩ :=
        next_id_spec (HType.sub d2 s2).config (HType.sub d2 s2).depth r1 r3 n hnext
      have hw3 : r3.well_formed := well_formed_congr r1 r3 hids hw1
      have hww : w2 = w := by rw [hwid] at hwid2; cases hwid2; rfl
      subst hww
      obtain ⟨hlen, hspan⟩ := get_bits _ _ b hb
      have hbound := id_t_bound _ w2 hwid
      have hsp := span_le_sum (HType.sub d2 s2).config ((HType.sub d2 s2).depth + 1)
      rw [shift_v_node (.sub d2 s2) _ w2 hwid (by omega)] at hshift
      cases hshift
      obtain ⟨_, _, hsidlt, _, _⟩ := hw1.2 d2 s2 sid hsid
      have hsidlt2 : sid < 2 ^ (HType.sub d2 s2).config.span (HType.sub d2 s2).depth := hsidlt
      generalize hS : (HType.sub d2 s2).config.span (HType.sub d2 s2).depth = S at *
      have hpow : 2 ^ (S + b) ≤ 2 ^ w2 := Nat.pow_le_pow_right (by omega) (by omega)
      have hnS : n * 2 ^ S < 2 ^ (S + b) := by
        rw [Nat.pow_add, Nat.mul_comm]
        exact Nat.mul_lt_mul_of_pos_left hn (Nat.two_pow_pos S)
      have hsv2 := id_shl_val w2 n S sv hsv (lt_of_lt_of_le hnS hpow)
      subst hsv2
      have hor : sid ||| n * 2 ^ S = 2 ^ S * n + sid := by
        rw [Nat.or_comm, Nat.mul_comm, ← Nat.mul_add_lt_is_or hsidlt2]
      have hlt : 2 ^ S * n + sid < 2 ^ (S + b) := by
        rw [Nat.pow_add]
        calc 2 ^ S * n + sid < 2 ^ S * n + 2 ^ S := by omega
          _ = 2 ^ S * (n + 1) := by ring
          _ ≤ 2 ^ S * 2 ^ b := Nat.mul_le_mul_left _ hn
      have hid : (sid ||| n * 2 ^ S) % 2 ^ w2 = 2 ^ S * n + sid := by
        rw [hor]
        exact Nat.mod_eq_of_lt (lt_of_lt_of_le hlt hpow)
      rw [hid]
      have hnone3 : r3.ids (.sub d (.sub d2 s2)) = none := by
        rw [hids]
        by_contra hc
        have : r1.ids (.sub d (.sub d2 s2)) ≠ r.ids (.sub d (.sub d2 s2)) := by
          rw [hnone]; exact hc
        have hd := derives_from_depth _ _ (hchg _ this).1
        simp only [HType.depth] at hd
        omega
      refine ⟨?_, ?_, ?_⟩
      · apply well_formed_set_id r3 d (.sub d2 s2) _ hw3 hnone3
        · exact ⟨w2, hwid, by rw [hspan]; omega⟩
        · omega
        · rw [hspan]; exact hlt
        · rw [hS, Nat.mul_add_mod, Nat.mod_eq_of_lt hsidlt2]
          unfold s_type_hierarchy__
          rw [hids, hsid]
          rfl
        · intro _
          rw [hids, hsid]
          rfl
      · rw [set_id_ids, if_pos rfl]
      · intro t2 hne
        rw [set_id_ids, hids] at hne
        by_cases he : t2 = .sub d (.sub d2 s2)
        · subst he
          exact ⟨derives_from_self _, hnone⟩
        · rw [if_neg he] at hne
          obtain ⟨g1, g2⟩ := hchg t2 hne
          refine ⟨?_, g2⟩
          rw [HType.derives_from, g1]
          simp


theorem well_formed_start : Registry.start.well_formed := by
  refine ⟨fun _ => rfl, fun d s v h => ?_⟩
  cases h

theorem init_id_mono (t : HType) (r r2 : Registry) (v : Nat)
    (h : type_hierarchy_init_id__ t r = .ok (v, r2)) (hw : r.well_formed)
    (t2 : HType) (v2 : Nat) (h2 : r.ids t2 = some v2) : r2.ids t2 = some v2 := by
  by_contra hc
  have hne : r2.ids t2 ≠ r.ids t2 := by rw [h2]; exact hc
  have := ((init_id_spec t r v r2 h hw).2.2 t2 hne).2
  rw [h2] at this
  cases this

/-- Initialising the static members of a list of classes keeps the storage well formed,
keeps the ids already assigned and gives every listed class its id. -/
theorem use_types_spec (ts : List HType) : ∀ (r r2 : Registry),
    use_types ts r = .ok r2 → r.well_formed →
    r2.well_formed ∧ (∀ t v, r.ids t = some v → r2.ids t = some v) ∧
    (∀ t ∈ ts, (r2.ids t).isSome = true) := by
  induction ts with
  | nil =>
    intro r r2 h hw
    rw [use_types] at h
    cases h
    exact ⟨hw, fun _ _ h => h, fun t ht => by simp at ht⟩
  | cons t ts ih =>
    intro r r2 h hw
    rw [use_types] at h
    unfold use_type at h
    split at h
    swap
    · cases h
    rename_i r1 hr1
    split at hr1
    swap
    · cases hr1
    rename_i v r1b hinit
    cases hr1
    obtain ⟨hw1, hv, _⟩ := init_id_spec t r v r1 hinit hw
    obtain ⟨hw2, hmono, hall⟩ := ih r1 r2 h hw1
    refine ⟨hw2, fun t2 v2 h2 => hmono t2 v2 (init_id_mono t r r1 v hinit hw t2 v2 h2), ?_⟩
    intro t2 ht2
    rcases List.mem_cons.1 ht2 with rfl | ht2
    · rw [hmono _ v hv]; rfl
    · exact hall t2 ht2

theorem derives_from_config (a t : HType) (h : t.derives_from a = true) :
    a.config = t.config := by
  induction t with
  | root c =>
    simp [HType.derives_from] at h
    subst h; rfl
  | sub d s ih =>
    simp only [HType.derives_from, Bool.or_eq_true, decide_eq_true_eq] at h
    rcases h with h | h
    · subst h; rfl
    · exact ih h

theorem span_mono (c : Config) (j k : Nat) (h : j ≤ k) : c.span j ≤ c.span k := by
  unfold Config.span
  apply List.Sublist.sum_le_sum _ (fun _ _ => Nat.zero_le _)
  exact List.take_sublist_take_left _ h

/-- In a well-formed storage the id of a class, cut to the span of one of its ancestors, is
the id of that ancestor. -/
theorem id_of_ancestor (r : Registry) (hw : r.well_formed) (A D : HType) (vD : Nat)
    (hD : r.ids D = some vD) (hder : D.derives_from A = true) (hA : A.depth ≠ 0) :
    r.ids A = some (vD % 2 ^ A.config.span A.depth) := by
  induction D generalizing vD with
  | root c => rw [hw.1 c] at hD; cases hD
  | sub d s ih =>
    obtain ⟨_, _, g3, g4, g5⟩ := hw.2 d s vD hD
    simp only [HType.derives_from, Bool.or_eq_true, decide_eq_true_eq] at hder
    rcases hder with h | h
    · subst h
      simp only [HType.depth, HType.config]
      rw [Nat.mod_eq_of_lt g3]
      exact hD
    · have hdep := derives_from_depth A s h
      have hcfg := derives_from_config A s h
      have hs0 : s.depth ≠ 0 := by omega
      have hsome := g5 hs0
      obtain ⟨vs, hvs⟩ := Option.isSome_iff_exists.1 hsome
      have hvs2 : vs = vD % 2 ^ s.config.span s.depth := by
        unfold s_type_hierarchy__ at g4
        rw [hvs] at g4
        exact g4.symm
      rw [ih vs hvs h, hvs2, hcfg]
      congr 1
      exact Nat.mod_mod_of_dvd _ (Nat.pow_dvd_pow 2 (span_mono _ _ _ hdep))

theorem mask_v_narrow (A : HType) (c : Config) (w : Nat) (hw : c.id_t = some w)
    (hd : A.depth ≤ c.bits_per_level.length) (h30 : c.span A.depth ≤ 30) :
    mask_v c (.node A) = some (2 ^ c.span A.depth - 1) := by
  unfold mask_v
  rw [hw, shift_v_node A c w hw hd]
  have hb := id_t_bound c w hw
  have hs := span_le_sum c A.depth
  have h1 : 2 ^ c.span A.depth < 2 ^ (int_bits - 1) :=
    Nat.pow_lt_pow_right (by omega) (by simp [int_bits]; omega)
  have h2 : 2 ^ c.span A.depth ≤ 2 ^ w := Nat.pow_le_pow_right (by omega) (by omega)
  have h3 : 0 < 2 ^ c.span A.depth := Nat.two_pow_pos _
  simp only [int_shl, Nat.one_mul, if_pos h1, Option.map_some', Nat.shiftLeft_eq]
  rw [Nat.mod_eq_of_lt (by omega)]

theorem mask_v_wide (A : HType) (c : Config) (w : Nat) (hw : c.id_t = some w)
    (hd : A.depth ≤ c.bits_per_level.length) (h31 : 31 ≤ c.span A.depth) :
    mask_v c (.node A) = none := by
  unfold mask_v
  rw [hw, shift_v_node A c w hw hd]
  have h1 : ¬ 2 ^ c.span A.depth < 2 ^ (int_bits - 1) := by
    have : 2 ^ (int_bits - 1) ≤ 2 ^ c.span A.depth :=
      Nat.pow_le_pow_right (by omega) (by simp [int_bits]; omega)
    omega
  simp only [int_shl, Nat.one_mul, if_neg h1, Option.map_none']

theorem construct_config (r : Registry) (junk : Nat) (t : HType) :
    (construct r junk t).config = t.config := by
  induction t with
  | root c => rfl
  | sub d s ih => simpa [construct, HType.config] using ih

/-- An ancestor test that compiles succeeds: after any sequence of id assignments without
fault, `convertible_to<A>` on an instance of `D` is `true` for every non-root class `A` on
the chain of `D`, provided the fields up to the level of `A` span at most 30 bits. -/
theorem convertible_to_ancestor_narrow (ts : List HType) (r : Registry) (junk : Nat)
    (A D : HType) (hr : use_types ts Registry.start = .ok r) (hD : D ∈ ts)
    (hder : D.derives_from A = true) (hA : A.depth ≠ 0)
    (h30 : A.config.span A.depth ≤ 30) :
    convertible_to r (.node A) (construct r junk D) = .ok true := by
  obtain ⟨hw, _, hall⟩ := use_types_spec ts _ r hr well_formed_start
  obtain ⟨vD, hvD⟩ := Option.isSome_iff_exists.1 (hall D hD)
  have hAid := id_of_ancestor r hw A D vD hvD hder hA
  have hcfg := derives_from_config A D hder
  cases A with
  | root c => exact absurd rfl hA
  | sub d s =>
    obtain ⟨⟨w, hwid, _⟩, g2, _, _, _⟩ := hw.2 d s _ hAid
    cases D with
    | root c => rw [hw.1 c] at hvD; cases hvD
    | sub d2 s2 =>
      unfold convertible_to
      simp only [construct_config, hcfg, if_true]
      rw [← hcfg, mask_v_narrow (.sub d s) (HType.sub d s).config w hwid g2 h30]
      simp only [Instance.type_hierarchy_id__, construct, s_type_hierarchy__, hvD, hAid,
        Option.getD_some, Nat.and_comm (2 ^ _ - 1) vD, Nat.and_pow_two_sub_one_eq_mod,
        decide_True]

/-- An ancestor test whose mask needs 31 bits or more does not compile. -/
theorem convertible_to_wide (r : Registry) (d : Nat) (s : HType) (x : Instance) (w : Nat)
    (hcfg : s.config = x.config) (hw : s.config.id_t = some w)
    (hd : s.depth + 1 ≤ s.config.bits_per_level.length)
    (h31 : 31 ≤ s.config.span (s.depth + 1)) :
    convertible_to r (.node (.sub d s)) x = .error .ill_formed := by
  unfold convertible_to
  have : (HType.sub d s).config = x.config := hcfg
  simp only [this, if_true]
  rw [← hcfg]
  have hm := mask_v_wide (.sub d s) (HType.sub d s).config w hw hd h31
  simp only [HType.config] at hm
  rw [hm]

/-- C1 (failing input): in the default configuration (8, 8, 8, 8) the ids of a chain of four
classes are assigned without any fault and the instance stores the packed id of its class,
yet `convertible_to<Type_1_1_1_1>` on a `Type_1_1_1_1` instance has no value: the mask
`(1 << 32) - 1` is not a constant expression.  One level higher the answer is `true`. -/
theorem convertible_to_fourth_level_ill_formed :
    ∃ r, use_types [Type_1_1_1_1] Registry.start = .ok r ∧
      (construct r 0 Type_1_1_1_1).type_hierarchy_id__ = s_type_hierarchy__ r Type_1_1_1_1 ∧
      s_type_hierarchy__ r Type_1_1_1_1 = 16843009 ∧
      shift_v Root.config (.node Type_1_1_1_1) = some 32 ∧
      mask_v Root.config (.node Type_1_1_1_1) = none ∧
      convertible_to r (.node Type_1_1_1) (construct r 0 Type_1_1_1_1) = .ok true ∧
      convertible_to r (.node Type_1_1_1_1) (construct r 0 Type_1_1_1_1)
        = .error .ill_formed :=
  ⟨_, rfl, rfl, rfl, rfl, rfl, rfl, rfl⟩

set_option maxRecDepth 100000 in
/-- C2 (failing input): in `from_base<FlatBase, 8>` the ids of 257 classes beneath the root
are assigned without any fault; the 256th receives 0 and the 257th receives 1, the id of the
first, so two sibling classes are reported convertible to each other. -/
theorem convertible_to_sibling_after_wrap :
    ∃ r, use_types (flat_types 257) Registry.start = .ok r ∧
      s_type_hierarchy__ r (.sub 1 FlatRoot) = 1 ∧
      s_type_hierarchy__ r (.sub 256 FlatRoot) = 0 ∧
      s_type_hierarchy__ r (.sub 257 FlatRoot) = 1 ∧
      convertible_to r (.node (.sub 1 FlatRoot)) (construct r 0 (.sub 257 FlatRoot))
        = .ok true ∧
      convertible_to r (.node (.sub 257 FlatRoot)) (construct r 0 (.sub 1 FlatRoot))
        = .ok true :=
  ⟨_, rfl, rfl, rfl, rfl, rfl, rfl⟩

/-- C4: a target class whose hierarchy has another configuration than the instance's is
never convertible to, whatever the ids are. -/
theorem convertible_to_other_configuration (r : Registry) (t : HType) (x : Instance)
    (h : t.config ≠ x.config) : convertible_to r (.node t) x = .ok false := by
  simp [convertible_to, h]

/-- Witness for C4: `OtherType_1` and `Type_1` both carry the packed id 1, and an instance
of `Type_1` is not convertible to `OtherType_1`. -/
theorem convertible_to_other_configuration_witness :
    ∃ r, use_types [Type_1, OtherType_1] Registry.start = .ok r ∧
      s_type_hierarchy__ r OtherType_1 = (construct r 0 Type_1).type_hierarchy_id__ ∧
      convertible_to r (.node OtherType_1) (construct r 0 Type_1) = .ok false :=
  ⟨registry_after [Type_1, OtherType_1], rfl, rfl,
    convertible_to_other_configuration _ OtherType_1 _ (by decide)⟩

/-- C9: with the user base type of the instance's hierarchy as target, `convertible_to`
answers `true` for every instance, whatever id it stores. -/
theorem convertible_to_base_type (r : Registry) (x : Instance) :
    convertible_to r (.user x.config.base_type) x = .ok true := by
  simp [convertible_to]

theorem int_for_bits_eq (n : Nat) :
    int_for_bits n =
      if n ≤ 8 then some 8 else if n ≤ 16 then some 16 else if n ≤ 32 then some 32
      else if n ≤ 64 then some 64 else none := by
  by_cases hn : 64 < n
  · rw [int_for_bits, int_for_bits_from_none 65 n hn]
    have h1 : ¬ n ≤ 8 := by omega
    have h2 : ¬ n ≤ 16 := by omega
    have h3 : ¬ n ≤ 32 := by omega
    have h4 : ¬ n ≤ 64 := by omega
    simp only [h1, h2, h3, h4, if_false]
  · have hn2 : n ≤ 64 := by omega
    interval_cases n <;> rfl

theorem builder_bits_ne_nil (BaseType : Nat) (BitsPerLevel : List Nat) :
    (builder BaseType BitsPerLevel).bits_per_level ≠ [] := by
  cases BitsPerLevel <;> simp [builder]

theorem id_t_eq (c : Config) (hne : c.bits_per_level ≠ []) :
    c.id_t = int_for_bits c.bits_per_level.sum := by
  unfold Config.id_t
  cases hb : c.bits_per_level with
  | nil => exact absurd hb hne
  | cons b bs => rw [meta.fold_add_nat]; rfl

/-- C17: the id type of `from_base<BaseType, BitsPerLevel...>` exists exactly when the widths
sum to at most 64, and its width is then the least of 8, 16, 32, 64 that is not below the
sum; no widths at all give the configuration 8, 8, 8, 8. -/
theorem id_t_least_width (BaseType : Nat) (BitsPerLevel : List Nat) :
    ((∃ w, (builder BaseType BitsPerLevel).id_t = some w) ↔
      (builder BaseType BitsPerLevel).bits_per_level.sum ≤ 64) ∧
    (∀ w, (builder BaseType BitsPerLevel).id_t = some w ↔
      ((w = 8 ∨ w = 16 ∨ w = 32 ∨ w = 64) ∧
        (builder BaseType BitsPerLevel).bits_per_level.sum ≤ w ∧
        ∀ w2, (w2 = 8 ∨ w2 = 16 ∨ w2 = 32 ∨ w2 = 64) →
          (builder BaseType BitsPerLevel).bits_per_level.sum ≤ w2 → w ≤ w2)) ∧
    builder BaseType [] = builder BaseType [8, 8, 8, 8] ∧
    (builder BaseType [4, 4]).id_t = some 8 ∧
    (builder BaseType [4, 4, 4, 4]).id_t = some 16 ∧
    (builder BaseType [8, 8, 8, 8]).id_t = some 32 ∧
    (builder BaseType [16, 16, 16, 16]).id_t = some 64 ∧
    (builder BaseType [16, 16, 16, 16, 1]).id_t = none := by
  refine ⟨?_, ?_, rfl, rfl, rfl, rfl, rfl, ?_⟩
  rotate_left 2
  · rw [id_t_eq _ (builder_bits_ne_nil _ _), int_for_bits_eq]
    rfl
  · rw [id_t_eq _ (builder_bits_ne_nil _ _), int_for_bits_eq]
    generalize (builder BaseType BitsPerLevel).bits_per_level.sum = N
    constructor
    · rintro ⟨w, hw⟩
      split_ifs at hw <;> omega
    · intro hN
      split_ifs
      · exact ⟨8, rfl⟩
      · exact ⟨16, rfl⟩
      · exact ⟨32, rfl⟩
      · exact ⟨64, rfl⟩
  · intro w
    rw [id_t_eq _ (builder_bits_ne_nil _ _), int_for_bits_eq]
    generalize (builder BaseType BitsPerLevel).bits_per_level.sum = N
    constructor
    · intro hw
      split_ifs at hw <;> (cases hw; refine ⟨by omega, by omega, fun w2 h2 hN => by omega⟩)
    · rintro ⟨hw, hN, hleast⟩
      have h8 := hleast 8 (by omega)
      have h16 := hleast 16 (by omega)
      have h32 := hleast 32 (by omega)
      have h64 := hleast 64 (by omega)
      split_ifs <;> (congr 1; omega)

theorem sub_type_accepts_depth (s : HType) (hne : s.config.bits_per_level ≠ []) :
    sub_type_accepts s = true ↔ s.depth < s.config.bits_per_level.length := by
  cases s with
  | root c =>
    simp only [sub_type_accepts, HType.depth, HType.config, true_iff]
    exact List.length_pos.2 hne
  | sub d s =>
    simp only [sub_type_accepts, level_of_v_node, decide_eq_true_eq]
    omega

/-- C18: a derivation `sub_type<Derived, T>` is accepted exactly when the level of `T` is
below the number of configured widths; hence a class all of whose derivations were accepted
has a level of at most that number, and a derivation from a class on the last level is
rejected by the compiler. -/
theorem sub_type_accepts_iff (T : HType) (hne : T.config.bits_per_level ≠ []) :
    (sub_type_accepts T = true ↔
      level_of_v (.node T) < (T.config.bits_per_level.length : Int)) ∧
    (T.accepted = true → level_of_v (.node T) ≤ (T.config.bits_per_level.length : Int)) ∧
    (sub_type_accepts T = false →
      ∀ d r, type_hierarchy_init_id__ (.sub d T) r = .error .ill_formed) := by
  refine ⟨?_, ?_, ?_⟩
  · rw [sub_type_accepts_depth T hne, level_of_v_node]
    omega
  · rw [level_of_v_node]
    intro hacc
    cases T with
    | root c => simp [HType.depth]
    | sub d s =>
      simp only [HType.accepted, Bool.and_eq_true] at hacc
      have := (sub_type_accepts_depth s hne).1 hacc.2
      simp only [HType.depth, HType.config]
      omega
  · intro hrej d r
    cases T with
    | root c => simp [sub_type_accepts] at hrej
    | sub d2 s =>
      simp only [sub_type_accepts, decide_eq_false_iff_not] at hrej
      rw [type_hierarchy_init_id__]
      simp only [HType.config] at hrej ⊢
      rw [if_neg hrej]

/-- Witness for C18: in the default configuration a class on level 3 may be derived from,
the class `Type_1_1_1_1` on level 4 is accepted, and deriving from it is rejected. -/
theorem sub_type_accepts_iff_witness :
    sub_type_accepts Type_1_1_1 = true ∧ Type_1_1_1_1.accepted = true ∧
    level_of_v (.node Type_1_1_1_1) = 4 ∧ sub_type_accepts Type_1_1_1_1 = false ∧
    type_hierarchy_init_id__ (.sub 11111 Type_1_1_1_1) Registry.start = .error .ill_formed :=
  ⟨rfl, rfl, rfl, rfl,
    (sub_type_accepts_iff Type_1_1_1_1 (by decide)).2.2 rfl 11111 Registry.start⟩

theorem next_id_inv (c : Config) (Level : Int) (r r1 : Registry) (n : Nat)
    (h : next_id c Level r = .ok (n, r1)) :
    ∃ w b, c.id_t = some w ∧ get Level c.bits_per_level = some b ∧
      n = (r.counter c Level + 1) % 2 ^ w ∧ n < 2 ^ b ∧ r1 = r.set_counter c Level n := by
  unfold next_id at h
  split at h
  · rename_i w b hw hb
    simp only at h
    split at h
    · rename_i bound hbound
      split at h
      · rename_i hlt
        simp only [Except.ok.injEq, Prod.mk.injEq] at h
        obtain ⟨h1, h2⟩ := h
        refine ⟨w, b, hw, hb, h1.symm, ?_, ?_⟩
        · rw [← h1, ← id_shl_one w b bound hbound]
          exact hlt
        · rw [← h2, h1]
      · cases h
    · cases h
  · cases h

/-- First use of a class directly beneath the root: its id is what `next_id<Config, 0>`
returns. -/
theorem init_id_first_level (d : Nat) (c : Config) (r r2 : Registry) (v : Nat)
    (h : type_hierarchy_init_id__ (.sub d (.root c)) r = .ok (v, r2))
    (hnone : r.ids (.sub d (.root c)) = none) :
    ∃ r1, next_id c 0 r = .ok (v, r1) ∧ r2 = r1.set_id (.sub d (.root c)) v := by
  rw [type_hierarchy_init_id__, hnone] at h
  simp only at h
  split at h
  · rename_i n r1 hnext
    simp only [Except.ok.injEq, Prod.mk.injEq] at h
    obtain ⟨h1, h2⟩ := h
    subst h1
    exact ⟨r1, hnext, h2.symm⟩
  · cases h

/-- First use of a class beneath a non-root class: the id is the id of the super class with
the value of `next_id<Config, level_of_v<SuperType>>` placed above it. -/
theorem init_id_deeper (d d2 : Nat) (s : HType) (r r2 : Registry) (v : Nat)
    (h : type_hierarchy_init_id__ (.sub d (.sub d2 s)) r = .ok (v, r2))
    (hnone : r.ids (.sub d (.sub d2 s)) = none) (hw : r.well_formed) :
    ∃ sid r1 n r3 w b,
      type_hierarchy_init_id__ (.sub d2 s) r = .ok (sid, r1) ∧
      next_id (HType.sub d2 s).config ((HType.sub d2 s).depth : Int) r1 = .ok (n, r3) ∧
      (HType.sub d2 s).config.id_t = some w ∧
      get ((HType.sub d2 s).depth : Int) (HType.sub d2 s).config.bits_per_level = some b ∧
      r2 = r3.set_id (.sub d (.sub d2 s)) v ∧
      r1.ids (.sub d2 s) = some sid ∧
      sid < 2 ^ (HType.sub d2 s).config.span (HType.sub d2 s).depth ∧
      n < 2 ^ b ∧
      v = sid ||| n * 2 ^ (HType.sub d2 s).config.span (HType.sub d2 s).depth ∧
      v = 2 ^ (HType.sub d2 s).config.span (HType.sub d2 s).depth * n + sid := by
  rw [type_hierarchy_init_id__] at h
  simp only [level_of_v_node] at h
  split at h
  swap
  · cases h
  rename_i hlev
  rw [hnone] at h
  simp only at h
  split at h
  swap
  · cases h
  rename_i w shift hwid hshift
  split at h
  swap
  · cases h
  rename_i sid r1 hsuper
  split at h
  swap
  · cases h
  rename_i n r3 hnext
  split at h
  swap
  · cases h
  rename_i sv hsv
  simp only [Except.ok.injEq, Prod.mk.injEq] at h
  obtain ⟨hv, hr2⟩ := h
  obtain ⟨hw1, hsid, _⟩ := init_id_spec (.sub d2 s) r sid r1 hsuper hw
  obtain ⟨w2, b, hwid2, hb, _, hn, _⟩ := next_id_inv _ _ r1 r3 n hnext
  have hww : w2 = w := by rw [hwid] at hwid2; cases hwid2; rfl
  subst hww
  obtain ⟨hlen, hspan⟩ := get_bits _ _ b hb
  have hbound := id_t_bound _ w2 hwid
  have hsp := span_le_sum (HType.sub d2 s).config ((HType.sub d2 s).depth + 1)
  rw [shift_v_node (.sub d2 s) _ w2 hwid (by omega)] at hshift
  cases hshift
  obtain ⟨_, _, hsidlt, _, _⟩ := hw1.2 d2 s sid hsid
  have hsidlt2 : sid < 2 ^ (HType.sub d2 s).config.span (HType.sub d2 s).depth := hsidlt
  refine ⟨sid, r1, n, r3, w2, b, hsuper, hnext, hwid, hb, ?_, hsid, hsidlt2, hn, ?_, ?_⟩
  · rw [← hr2, hv]
  all_goals
    generalize hS : (HType.sub d2 s).config.span (HType.sub d2 s).depth = S at *
    have hpow : 2 ^ (S + b) ≤ 2 ^ w2 := Nat.pow_le_pow_right (by omega) (by omega)
    have hnS : n * 2 ^ S < 2 ^ (S + b) := by
      rw [Nat.pow_add, Nat.mul_comm]
      exact Nat.mul_lt_mul_of_pos_left hn (Nat.two_pow_pos S)
    have hsv2 := id_shl_val w2 n S sv hsv (lt_of_lt_of_le hnS hpow)
    subst hsv2
    have hor : sid ||| n * 2 ^ S = 2 ^ S * n + sid := by
      rw [Nat.or_comm, Nat.mul_comm, ← Nat.mul_add_lt_is_or hsidlt2]
    have hlt : 2 ^ S * n + sid < 2 ^ (S + b) := by
      rw [Nat.pow_add]
      calc 2 ^ S * n + sid < 2 ^ S * n + 2 ^ S := by omega
        _ = 2 ^ S * (n + 1) := by ring
        _ ≤ 2 ^ S * 2 ^ b := Nat.mul_le_mul_left _ hn
    have hid : (sid ||| n * 2 ^ S) % 2 ^ w2 = 2 ^ S * n + sid := by
      rw [hor]
      exact Nat.mod_eq_of_lt (lt_of_lt_of_le hlt hpow)
  · rw [← hv, hid, hor]
  · rw [← hv, hid]

/-- Asking again for the id of a class that has one returns it and changes nothing. -/
theorem init_id_registered (t : HType) (r : Registry) (id : Nat) (hw : r.well_formed)
    (h : r.ids t = some id) : type_hierarchy_init_id__ t r = .ok (id, r) := by
  cases t with
  | root c => rw [hw.1 c] at h; cases h
  | sub d s =>
    obtain ⟨_, g2, _, _, _⟩ := hw.2 d s id h
    cases s with
    | root c => rw [type_hierarchy_init_id__, h]
    | sub d2 s2 =>
      rw [type_hierarchy_init_id__]
      simp only [level_of_v_node]
      have : (0 : Int) ≤ ((HType.sub d2 s2).depth : Int) ∧
          ((HType.sub d2 s2).depth : Int) <
            ((HType.sub d2 s2).config.bits_per_level.length : Int) := by
        constructor <;> omega
      rw [if_pos this, h]

theorem set_counter_ids (r : Registry) (c : Config) (Level : Int) (v : Nat) :
    (r.set_counter c Level v).ids = r.ids := rfl

theorem sub_ne_self (d : Nat) (s : HType) : s ≠ HType.sub d s := by
  intro h
  have := congrArg HType.depth h
  simp [HType.depth] at this

/-- C12: at its first use a class directly beneath the root gets as packed id the value of
`next_id` (its local id); a class at a deeper position gets the packed id of its super class
OR-ed with its local id shifted by the sum of the widths up to the level of the super class,
so that the local id fills the field directly above the fields of the ancestors. -/
theorem packed_id_layout (ts : List HType) (r r2 : Registry) (d : Nat) (Super : HType)
    (v : Nat) (hr : use_types ts Registry.start = .ok r)
    (hnone : r.ids (.sub d Super) = none)
    (h : type_hierarchy_init_id__ (.sub d Super) r = .ok (v, r2)) :
    s_type_hierarchy__ r2 (.sub d Super) = v ∧
    (Super.depth = 0 → ∃ r1, next_id Super.config 0 r = .ok (v, r1)) ∧
    (Super.depth ≠ 0 → ∃ n r1 r3,
      use_type Super r = .ok r1 ∧
      next_id Super.config (level_of_v (.node Super)) r1 = .ok (n, r3) ∧
      v = s_type_hierarchy__ r2 Super ||| n * 2 ^ Super.config.span Super.depth ∧
      s_type_hierarchy__ r2 Super < 2 ^ Super.config.span Super.depth ∧
      v / 2 ^ Super.config.span Super.depth = n ∧
      v % 2 ^ Super.config.span Super.depth = s_type_hierarchy__ r2 Super) := by
  obtain ⟨hw, _, _⟩ := use_types_spec ts _ r hr well_formed_start
  have hv : s_type_hierarchy__ r2 (.sub d Super) = v := by
    unfold s_type_hierarchy__
    rw [(init_id_spec _ r v r2 h hw).2.1]
    rfl
  refine ⟨hv, ?_, ?_⟩
  · intro h0
    cases Super with
    | root c =>
      obtain ⟨r1, h1, _⟩ := init_id_first_level d c r r2 v h hnone
      exact ⟨r1, h1⟩
    | sub d2 s => simp [HType.depth] at h0
  · intro h0
    cases Super with
    | root c => exact absurd rfl h0
    | sub d2 s =>
      obtain ⟨sid, r1, n, r3, w, b, hsuper, hnext, _, _, hr2, hsid, hlt, _, hor, hadd⟩ :=
        init_id_deeper d d2 s r r2 v h hnone hw
      have hsuper_id : s_type_hierarchy__ r2 (.sub d2 s) = sid := by
        obtain ⟨_, _, _, _, _, _, hr3⟩ := next_id_inv _ _ r1 r3 n hnext
        unfold s_type_hierarchy__
        rw [hr2, set_id_ids, if_neg (sub_ne_self d _), hr3, set_counter_ids, hsid]
        rfl
      rw [hsuper_id]
      refine ⟨n, r1, r3, ?_, ?_, hor, hlt, ?_, ?_⟩
      · unfold use_type
        rw [hsuper]
      · rw [level_of_v_node]
        exact hnext
      · rw [hadd, Nat.mul_add_div (Nat.two_pow_pos _), Nat.div_eq_of_lt hlt, Nat.add_zero]
      · rw [hadd, Nat.mul_add_mod, Nat.mod_eq_of_lt hlt]

/-- Witness for C12: from program start `Type_1` gets the local id 1 as packed id, and
`Type_1_1`, first used afterwards, gets `1 | (1 << 8)`. -/
theorem packed_id_layout_witness :
    s_type_hierarchy__ (registry_after [Type_1]) Type_1 = 1 ∧
    (∃ r1, next_id Type_1.config 0 Registry.start = .ok (1, r1)) ∧
    s_type_hierarchy__ (registry_after [Type_1, Type_1_1]) Type_1_1 = 257 ∧
    (∃ n r1 r3, use_type Type_1 (registry_after [Type_1]) = .ok r1 ∧
      next_id Type_1.config (level_of_v (.node Type_1)) r1 = .ok (n, r3) ∧
      257 = s_type_hierarchy__ (registry_after [Type_1, Type_1_1]) Type_1 |||
        n * 2 ^ Type_1.config.span Type_1.depth ∧
      s_type_hierarchy__ (registry_after [Type_1, Type_1_1]) Type_1
        < 2 ^ Type_1.config.span Type_1.depth ∧
      257 / 2 ^ Type_1.config.span Type_1.depth = n ∧
      257 % 2 ^ Type_1.config.span Type_1.depth
        = s_type_hierarchy__ (registry_after [Type_1, Type_1_1]) Type_1) :=
  ⟨(packed_id_layout [] Registry.start (registry_after [Type_1]) 1 Root 1 rfl rfl rfl).1,
   (packed_id_layout [] Registry.start (registry_after [Type_1]) 1 Root 1 rfl rfl rfl).2.1 rfl,
   (packed_id_layout [Type_1] (registry_after [Type_1]) (registry_after [Type_1, Type_1_1])
      11 Type_1 257 rfl rfl rfl).1,
   (packed_id_layout [Type_1] (registry_after [Type_1]) (registry_after [Type_1, Type_1_1])
      11 Type_1 257 rfl rfl rfl).2.2 (by decide)⟩

/-- C11 (failing input): in `from_base<WideBase, 16, 16, 16, 16>` the class `Wide_1_1` on
level 2 has the packed id `1 | (1 << 16)` and its fields span S = 32 bits.  The comparison
`(id & (2^32 - 1)) == packed_id` in the 64-bit id type is true for a `Wide_1_1` instance, but
`convertible_to<Wide_1_1>` has no value: its mask `(1 << 32) - 1` is computed in `int`. -/
theorem convertible_to_wide_mask_rejected :
    ∃ r, use_types [Wide_1_1] Registry.start = .ok r ∧
      WideRoot.config.id_t = some 64 ∧
      WideRoot.config.span Wide_1_1.depth = 32 ∧
      s_type_hierarchy__ r Wide_1_1 = 65537 ∧
      (construct r 0 Wide_1_1).type_hierarchy_id__ &&& (2 ^ 32 - 1)
        = s_type_hierarchy__ r Wide_1_1 ∧
      convertible_to r (.node Wide_1_1) (construct r 0 Wide_1_1) = .error .ill_formed :=
  ⟨_, rfl, rfl, rfl, rfl, rfl, rfl⟩

/-- C13 (failing input): in `from_base<Base, 32>` the first class first-used beneath the root
receives no id: `next_id` evaluates `static_cast<id_t>(1) << 32` on a 32-bit operand. -/
theorem first_id_flat_hierarchy_undefined :
    FlatHierarchy.config.id_t = some 32 ∧
    get 0 FlatHierarchy.config.bits_per_level = some 32 ∧
    id_shl 32 1 32 = none ∧
    next_id FlatHierarchy.config 0 Registry.start = .error .undefined_shift ∧
    type_hierarchy_init_id__ (.sub 1 FlatHierarchy) Registry.start
      = .error .undefined_shift :=
  ⟨rfl, rfl, rfl, rfl, rfl⟩

/-- C14 (failing input): `Type_1_1` is the first class first-used under `Type_1` and
`Type_2_1` the first under `Type_2`; they receive the local ids 1 and 2, not 1 and 1: the
counter is one per level, whatever the parent. -/
theorem first_children_share_counter :
    ∃ r, use_types [Type_1, Type_2, Type_1_1, Type_2_1] Registry.start = .ok r ∧
      s_type_hierarchy__ r Type_1 = 1 ∧ s_type_hierarchy__ r Type_2 = 2 ∧
      s_type_hierarchy__ r Type_1_1 = (1 ||| 1 <<< 8) ∧
      s_type_hierarchy__ r Type_2_1 = (2 ||| 2 <<< 8) ∧
      s_type_hierarchy__ r Type_1_1 / 2 ^ 8 = 1 ∧
      s_type_hierarchy__ r Type_2_1 / 2 ^ 8 = 2 ∧
      r.counter Root.config 1 = 2 :=
  ⟨_, rfl, rfl, rfl, rfl, rfl, rfl, rfl, rfl⟩

set_option maxRecDepth 100000 in
/-- C15 (failing input): in the default configuration, once 255 classes have been derived
from `Type_1`, the first class derived from `Type_2`, which has no child yet, cannot be
registered: the assertion of `next_id` fails. -/
theorem other_branch_exhausted :
    ∃ r, use_types (Type_2 :: children Type_1 255) Registry.start = .ok r ∧
      r.counter Root.config 1 = 255 ∧
      r.ids Type_2 = some 1 ∧
      r.ids (.sub 1 Type_2) = none ∧
      use_type (.sub 1 Type_2) r = .error .assertion_failed :=
  ⟨_, rfl, rfl, rfl, rfl, rfl⟩

set_option maxRecDepth 100000 in
/-- C16 (failing input): in `from_base<FlatBase, 8>`, after 255 ids have been issued on the
only level, the next request passes the assertion and returns 0. -/
theorem next_id_wraps_to_zero :
    ∃ r, use_types (flat_types 255) Registry.start = .ok r ∧
      FlatRoot.config.id_t = some 8 ∧
      r.counter FlatRoot.config 0 = 255 ∧
      id_shl 8 1 8 = some 256 ∧
      ∃ r2, next_id FlatRoot.config 0 r = .ok (0, r2) :=
  ⟨_, rfl, rfl, rfl, rfl, _, rfl⟩

/-- C19 (failing input): an object of `Type_1` constructed while `Type_1::s_type_hierarchy__`
still has its zero-initialised value stores 0; an object constructed after the dynamic
initialisation stores the packed id 1. -/
theorem early_instance_stores_zero :
    (construct Registry.start 0 Type_1).type_hierarchy_id__ = 0 ∧
    use_types [Type_1] Registry.start = .ok (registry_after [Type_1]) ∧
    s_type_hierarchy__ (registry_after [Type_1]) Type_1 = 1 ∧
    (construct (registry_after [Type_1]) 0 Type_1).type_hierarchy_id__ = 1 :=
  ⟨rfl, rfl, rfl, rfl⟩

theorem next_no_wrap (cnt w b : Nat) (h1 : cnt < 2 ^ b) (h2 : b < w) :
    (cnt + 1) % 2 ^ w = cnt + 1 := by
  have : 2 ^ b < 2 ^ w := Nat.pow_lt_pow_right (by omega) h2
  exact Nat.mod_eq_of_lt (by omega)

theorem set_counter_counter (r : Registry) (c : Config) (Level : Int) (v : Nat)
    (c2 : Config) (l2 : Int) :
    (r.set_counter c Level v).counter c2 l2
      = if c2 = c ∧ l2 = Level then v else r.counter c2 l2 := rfl

theorem set_id_counter (r : Registry) (t : HType) (v : Nat) :
    (r.set_id t v).counter = r.counter := rfl

/-- One assignment, `next_id` followed by the storing of the new id, keeps the counters in
order. -/
theorem counters_ok_step (r r3 : Registry) (d : Nat) (s : HType) (n v : Nat)
    (hk : r.counters_ok)
    (hnext : next_id s.config (s.depth : Int) r = .ok (n, r3))
    (hloc : local_id s v = n) :
    (r3.set_id (.sub d s) v).counters_ok := by
  obtain ⟨w, b, hw, hb, hn, hnlt, hr3⟩ := next_id_inv _ _ r r3 n hnext
  subst hr3
  obtain ⟨k1, k2, k3⟩ := hk
  have hcnt := k1 s.config s.depth w b hw hb
  have hstep : b < w → n = r.counter s.config (s.depth : Int) + 1 := by
    intro hbw
    rw [hn]
    exact next_no_wrap _ w b hcnt hbw
  -- a class of the same hierarchy and level as the new one sees the same `w` and `b`
  have hsame : ∀ (s2 : HType) (w2 b2 : Nat), s2.config = s.config → s2.depth = s.depth →
      s2.config.id_t = some w2 → get (s2.depth : Int) s2.config.bits_per_level = some b2 →
      w2 = w ∧ b2 = b := by
    intro s2 w2 b2 hc hd hw2 hb2
    rw [hc] at hw2 hb2
    rw [hd] at hb2
    rw [hw] at hw2
    rw [hb] at hb2
    cases hw2
    cases hb2
    exact ⟨rfl, rfl⟩
  refine ⟨?_, ?_, ?_⟩
  · intro c2 L2 w2 b2 hw2 hb2
    rw [set_id_counter, set_counter_counter]
    by_cases hkey : c2 = s.config ∧ (L2 : Int) = (s.depth : Int)
    · rw [if_pos hkey]
      obtain ⟨hc, hL⟩ := hkey
      subst hc
      rw [hL, hb] at hb2
      cases hb2
      exact hnlt
    · rw [if_neg hkey]
      exact k1 c2 L2 w2 b2 hw2 hb2
  · intro d2 s2 v2 w2 b2 hv2 hw2 hb2 hbw
    rw [set_id_ids, set_counter_ids] at hv2
    rw [set_id_counter, set_counter_counter]
    by_cases he : HType.sub d2 s2 = .sub d s
    · rw [if_pos he] at hv2
      cases hv2
      cases he
      obtain ⟨e1, e2⟩ := hsame s w2 b2 rfl rfl hw2 hb2
      subst e1 e2
      rw [if_pos ⟨rfl, rfl⟩, hloc, hstep hbw]
      omega
    · rw [if_neg he] at hv2
      obtain ⟨g1, g2⟩ := k2 d2 s2 v2 w2 b2 hv2 hw2 hb2 hbw
      refine ⟨g1, ?_⟩
      by_cases hkey : s2.config = s.config ∧ (s2.depth : Int) = (s.depth : Int)
      · rw [if_pos hkey]
        obtain ⟨hc, hL⟩ := hkey
        have hL2 : s2.depth = s.depth := by exact_mod_cast hL
        obtain ⟨e1, e2⟩ := hsame s2 w2 b2 hc hL2 hw2 hb2
        subst e1 e2
        rw [hc, hL2] at g2
        rw [hstep hbw]
        omega
      · rw [if_neg hkey]
        exact g2
  · intro d1 s1 v1 d2 s2 v2 w2 b2 hv1 hv2 hne hc hdep hw2 hb2 hbw
    rw [set_id_ids, set_counter_ids] at hv1 hv2
    by_cases he1 : HType.sub d1 s1 = .sub d s
    · by_cases he2 : HType.sub d2 s2 = .sub d s
      · exact absurd (he1.trans he2.symm) hne
      · rw [if_pos he1] at hv1
        rw [if_neg he2] at hv2
        cases hv1
        cases he1
        obtain ⟨e1, e2⟩ := hsame s w2 b2 rfl rfl hw2 hb2
        subst e1 e2
        have hw3 : s2.config.id_t = some w2 := by rw [← hc]; exact hw2
        have hb3 : get (s2.depth : Int) s2.config.bits_per_level = some b2 := by
          rw [← hc, ← hdep]; exact hb2
        obtain ⟨_, g2⟩ := k2 d2 s2 v2 w2 b2 hv2 hw3 hb3 hbw
        rw [← hc, ← hdep] at g2
        rw [hloc, hstep hbw]
        omega
    · rw [if_neg he1] at hv1
      by_cases he2 : HType.sub d2 s2 = .sub d s
      · rw [if_pos he2] at hv2
        cases hv2
        cases he2
        obtain ⟨e1, e2⟩ := hsame s1 w2 b2 hc hdep hw2 hb2
        subst e1 e2
        obtain ⟨_, g2⟩ := k2 d1 s1 v1 w2 b2 hv1 hw2 hb2 hbw
        rw [hc, hdep] at g2
        rw [hloc, hstep hbw]
        omega
      · rw [if_neg he2] at hv2
        exact k3 d1 s1 v1 d2 s2 v2 w2 b2 hv1 hv2 hne hc hdep hw2 hb2 hbw

theorem counters_ok_start : Registry.start.counters_ok := by
  refine ⟨?_, ?_, ?_⟩
  · intro c L w b _ _
    exact Nat.pos_pow_of_pos b (by omega)
  · intro d s v w b h
    cases h
  · intro d1 s1 v1 d2 s2 v2 w b h
    cases h

/-- One run of `type_hierarchy_init_id__` keeps the counters in order, and it changes
counters of the hierarchy of the class only. -/
theorem init_id_counters (t : HType) : ∀ (r : Registry) (v : Nat) (r2 : Registry),
    type_hierarchy_init_id__ t r = .ok (v, r2) → r.well_formed → r.counters_ok →
    r2.counters_ok ∧ ∀ (c : Config) (L : Int), r2.counter c L ≠ r.counter c L → c = t.config := by
  induction t with
  | root c =>
    intro r v r2 h
    rw [type_hierarchy_init_id__] at h
    cases h
  | sub d s ih =>
    intro r v r2 h hw hk
    cases hreg : r.ids (.sub d s) with
    | some id =>
      have h2 := init_id_registered _ r id hw hreg
      rw [h2] at h
      cases h
      exact ⟨hk, fun c L hne => absurd rfl hne⟩
    | none =>
      cases s with
      | root c =>
        obtain ⟨r1, hnext, hr2⟩ := init_id_first_level d c r r2 v h hreg
        subst hr2
        have hnext2 : next_id (HType.root c).config ((HType.root c).depth : Int) r
            = .ok (v, r1) := hnext
        refine ⟨counters_ok_step r r1 d (.root c) v v hk hnext2 ?_, ?_⟩
        · show v / 2 ^ c.span 0 = v
          rw [span_zero]
          simp
        · intro c2 L hne
          obtain ⟨w, b, _, _, _, _, hr1⟩ := next_id_inv _ _ r r1 v hnext
          subst hr1
          rw [set_id_counter, set_counter_counter] at hne
          by_cases hkey : c2 = c ∧ L = 0
          · exact hkey.1
          · rw [if_neg hkey] at hne
            exact absurd rfl hne
      | sub d2 s2 =>
        obtain ⟨sid, r1, n, r3, w, b, hsuper, hnext, _, _, hr2, _, hsid, _, _, hv⟩ :=
          init_id_deeper d d2 s2 r r2 v h hreg hw
        obtain ⟨hk1, hframe⟩ := ih r sid r1 hsuper hw hk
        subst hr2
        refine ⟨counters_ok_step r1 r3 d (.sub d2 s2) n v hk1 hnext ?_, ?_⟩
        · show v / 2 ^ _ = n
          rw [hv]
          have hpos : 0 < 2 ^ (HType.sub d2 s2).config.span (HType.sub d2 s2).depth :=
            Nat.pos_pow_of_pos _ (by omega)
          rw [Nat.mul_add_div hpos, Nat.div_eq_of_lt hsid]
          rfl
        · intro c2 L hne
          obtain ⟨_, _, _, _, _, _, hr3⟩ := next_id_inv _ _ r1 r3 n hnext
          subst hr3
          rw [set_id_counter, set_counter_counter] at hne
          by_cases hkey : c2 = (HType.sub d2 s2).config ∧ L = ((HType.sub d2 s2).depth : Int)
          · exact hkey.1
          · rw [if_neg hkey] at hne
            exact hframe c2 L hne

/-- Initialising the static members of a list of classes keeps the counters in order, and it
changes counters of the hierarchies of the listed classes only. -/
theorem use_types_counters (ts : List HType) : ∀ (r r2 : Registry),
    use_types ts r = .ok r2 → r.well_formed → r.counters_ok →
    r2.counters_ok ∧
    ∀ (c : Config) (L : Int), r2.counter c L ≠ r.counter c L → ∃ t ∈ ts, c = t.config := by
  induction ts with
  | nil =>
    intro r r2 h hw hk
    rw [use_types] at h
    cases h
    exact ⟨hk, fun c L hne => absurd rfl hne⟩
  | cons t ts ih =>
    intro r r2 h hw hk
    rw [use_types] at h
    unfold use_type at h
    cases h1 : type_hierarchy_init_id__ t r with
    | error e => rw [h1] at h; cases h
    | ok p =>
      obtain ⟨v, r1⟩ := p
      rw [h1] at h
      obtain ⟨g1, g2⟩ := init_id_counters t r v r1 h1 hw hk
      obtain ⟨g3, g4⟩ := ih r1 r2 h (init_id_spec t r v r1 h1 hw).1 g1
      refine ⟨g3, ?_⟩
      intro c L hne
      by_cases hc : r2.counter c L = r1.counter c L
      · rw [hc] at hne
        exact ⟨t, List.mem_cons_self _ _, g2 c L hne⟩
      · obtain ⟨t2, ht2, e⟩ := g4 c L hc
        exact ⟨t2, List.mem_cons_of_mem _ ht2, e⟩

theorem get_of_lt (l : List Nat) (k : Nat) (h : k < l.length) :
    get (k : Int) l = some (l.get ⟨k, h⟩) := by
  unfold get
  have : ¬ ((k : Int) < 0) := by omega
  rw [if_neg this, Int.toNat_ofNat]
  exact List.getElem?_eq_getElem h

/-- A hierarchy in which a class has an id gives its first level at least one bit. -/
theorem first_width_pos (r : Registry) (hw : r.well_formed) (hk : r.counters_ok)
    (t : HType) : ∀ v, r.ids t = some v →
    ∃ b1, get 0 t.config.bits_per_level = some b1 ∧ 1 ≤ b1 := by
  induction t with
  | root c =>
    intro v h
    rw [hw.1 c] at h
    cases h
  | sub d s ih =>
    intro v h
    obtain ⟨⟨w, hwid, hspan⟩, hlen, hlt, _, hsuper⟩ := hw.2 d s v h
    cases s with
    | root c =>
      have hlen2 : 0 < c.bits_per_level.length := hlen
      have hget := get_of_lt c.bits_per_level 0 hlen2
      refine ⟨_, hget, ?_⟩
      by_contra hzero
      have hb0 : c.bits_per_level.get ⟨0, hlen2⟩ = 0 := by omega
      rw [hb0] at hget
      have hs1 := (get_bits c 0 0 hget).2
      have hbound := (id_t_bound c w hwid).2
      have hloc := (hk.2.1 d (.root c) v w 0 h hwid hget (by omega)).1
      have hv : v < 2 ^ c.span 1 := hlt
      rw [hs1, span_zero] at hv
      have hl : local_id (.root c) v = v / 2 ^ c.span 0 := rfl
      rw [hl, span_zero] at hloc
      simp at hv hloc
      omega
    | sub d2 s2 =>
      have hs := hsuper (by simp [HType.depth])
      obtain ⟨v2, hv2⟩ := Option.isSome_iff_exists.1 hs
      exact ih v2 hv2

/-- Beneath the first level the width of a level that holds a class with an id is smaller
than the width of the id type. -/
theorem deep_width_lt (r : Registry) (hw : r.well_formed) (hk : r.counters_ok)
    (d : Nat) (s : HType) (v w b : Nat) (h : r.ids (.sub d s) = some v)
    (hdepth : s.depth ≠ 0) (hwid : s.config.id_t = some w)
    (hb : get (s.depth : Int) s.config.bits_per_level = some b) : b < w := by
  obtain ⟨b1, hb1, hpos⟩ := first_width_pos r hw hk (.sub d s) v h
  have e1 := (get_bits s.config 0 b1 hb1).2
  rw [span_zero] at e1
  have e2 := (get_bits s.config s.depth b hb).2
  have e3 := span_mono s.config 1 s.depth (by omega)
  have e4 := span_le_sum s.config (s.depth + 1)
  have e5 := (id_t_bound s.config w hwid).1
  simp only [Nat.zero_add] at e1
  omega

/-- Two different classes of one hierarchy that stand on the same level beneath the first
have different local ids, whatever their super classes are: the local ids of a level come
from one counter. -/
theorem local_ids_distinct (ts : List HType) (r : Registry)
    (hr : use_types ts Registry.start = .ok r)
    (d1 d2 : Nat) (s1 s2 : HType) (v1 v2 : Nat)
    (h1 : r.ids (.sub d1 s1) = some v1) (h2 : r.ids (.sub d2 s2) = some v2)
    (hne : HType.sub d1 s1 ≠ HType.sub d2 s2)
    (hc : s1.config = s2.config) (hd : s1.depth = s2.depth) (hdepth : s1.depth ≠ 0) :
    local_id s1 v1 ≠ local_id s2 v2 := by
  have hw := (use_types_spec ts _ r hr well_formed_start).1
  have hk := (use_types_counters ts _ r hr well_formed_start counters_ok_start).1
  obtain ⟨⟨w, hwid, _⟩, hlen, _, _, _⟩ := hw.2 d1 s1 v1 h1
  have hb := get_of_lt s1.config.bits_per_level s1.depth (by omega)
  have hbw := deep_width_lt r hw hk d1 s1 v1 w _ h1 hdepth hwid hb
  exact hk.2.2 d1 s1 v1 d2 s2 v2 w _ h1 h2 hne hc hd hwid hb hbw

theorem local_ids_distinct_witness :
    local_id Type_1 (s_type_hierarchy__ (registry_after [Type_1_1, Type_2_1]) Type_1_1)
      ≠ local_id Type_2 (s_type_hierarchy__ (registry_after [Type_1_1, Type_2_1]) Type_2_1) :=
  local_ids_distinct [Type_1_1, Type_2_1] (registry_after [Type_1_1, Type_2_1]) rfl
    11 21 Type_1 Type_2 _ _ rfl rfl (by decide) rfl rfl (by decide)

theorem id_shl_one_narrow (w b : Nat) (hbw : b < w) :
    id_shl w 1 b = some (2 ^ b) := by
  unfold id_shl int_shl
  have hp : 2 ^ b < 2 ^ w := Nat.pow_lt_pow_right (by omega) hbw
  by_cases h : w < int_bits
  · rw [if_pos h]
    have h31 : 2 ^ b < 2 ^ (int_bits - 1) := by
      apply Nat.pow_lt_pow_right (by omega)
      unfold int_bits at h ⊢
      omega
    simp [h31, Nat.shiftLeft_eq]
  · rw [if_neg h, if_pos hbw]
    simp [Nat.shiftLeft_eq, Nat.mod_eq_of_lt hp]

/-- On a level whose width `b` is smaller than the width of the id type the assertion of
`next_id` does its work: the counter stays below `2 ^ b`, the call returns the counter plus
one while that is below `2 ^ b`, and the call that would reach `2 ^ b` fails the
assertion. -/
theorem next_id_narrow_level (ts : List HType) (r : Registry)
    (hr : use_types ts Registry.start = .ok r) (c : Config) (L w b : Nat)
    (hwid : c.id_t = some w) (hb : get (L : Int) c.bits_per_level = some b) (hbw : b < w) :
    r.counter c (L : Int) < 2 ^ b ∧
    (r.counter c (L : Int) + 1 < 2 ^ b →
      next_id c (L : Int) r = .ok (r.counter c (L : Int) + 1,
        r.set_counter c (L : Int) (r.counter c (L : Int) + 1))) ∧
    (r.counter c (L : Int) + 1 = 2 ^ b → next_id c (L : Int) r = .error .assertion_failed) := by
  have hk := (use_types_counters ts _ r hr well_formed_start counters_ok_start).1
  have hcnt := hk.1 c L w b hwid hb
  have hmod := next_no_wrap _ w b hcnt hbw
  have hshl := id_shl_one_narrow w b hbw
  refine ⟨hcnt, ?_, ?_⟩
  · intro hlt
    unfold next_id
    rw [hwid, hb]
    simp only [hshl, hmod, if_pos hlt]
  · intro heq
    unfold next_id
    rw [hwid, hb]
    have : ¬ (r.counter c (L : Int) + 1 < 2 ^ b) := by omega
    simp only [hshl, hmod, if_neg this]

theorem next_id_narrow_level_witness :
    (registry_after [Type_1]).counter Root.config ((0 : Nat) : Int) < 2 ^ 8 ∧
    ((registry_after [Type_1]).counter Root.config ((0 : Nat) : Int) + 1 < 2 ^ 8 →
      next_id Root.config ((0 : Nat) : Int) (registry_after [Type_1])
        = .ok ((registry_after [Type_1]).counter Root.config ((0 : Nat) : Int) + 1,
          (registry_after [Type_1]).set_counter Root.config ((0 : Nat) : Int)
            ((registry_after [Type_1]).counter Root.config ((0 : Nat) : Int) + 1))) ∧
    ((registry_after [Type_1]).counter Root.config ((0 : Nat) : Int) + 1 = 2 ^ 8 →
      next_id Root.config ((0 : Nat) : Int) (registry_after [Type_1])
        = .error .assertion_failed) :=
  next_id_narrow_level [Type_1] (registry_after [Type_1]) rfl Root.config 0 32 8 rfl rfl
    (by decide)

/-- An ancestor test whose fields span at most 30 bits is the comparison of the masked id of
the instance with the packed id of the target. -/
theorem convertible_to_narrow_eq (r : Registry) (d : Nat) (s : HType) (x : Instance) (w : Nat)
    (hcfg : s.config = x.config) (hw : s.config.id_t = some w)
    (hd : s.depth + 1 ≤ s.config.bits_per_level.length)
    (h30 : s.config.span (s.depth + 1) ≤ 30) :
    convertible_to r (.node (.sub d s)) x
      = .ok (decide ((2 ^ s.config.span (s.depth + 1) - 1) &&& x.type_hierarchy_id__
          = s_type_hierarchy__ r (.sub d s))) := by
  unfold convertible_to
  have : (HType.sub d s).config = x.config := hcfg
  simp only [this, if_true]
  rw [← hcfg]
  have hm := mask_v_narrow (.sub d s) (HType.sub d s).config w hw hd h30
  simp only [HType.config, HType.depth] at hm
  rw [hm]

theorem convertible_to_narrow_eq_witness :
    convertible_to (registry_after [Type_1_1]) (.node Type_1) (construct (registry_after [Type_1_1]) 0 Type_1_1)
      = .ok (decide ((2 ^ Root.config.span (Root.depth + 1) - 1)
          &&& (construct (registry_after [Type_1_1]) 0 Type_1_1).type_hierarchy_id__
          = s_type_hierarchy__ (registry_after [Type_1_1]) Type_1)) :=
  convertible_to_narrow_eq (registry_after [Type_1_1]) 1 Root
    (construct (registry_after [Type_1_1]) 0 Type_1_1) 32 rfl rfl (by decide) (by decide)

/-- Initialising the static members of a list of classes changes ids of classes of the
hierarchies of the listed classes only. -/
theorem use_types_ids_frame (ts : List HType) : ∀ (r r2 : Registry),
    use_types ts r = .ok r2 → r.well_formed →
    ∀ t2, r2.ids t2 ≠ r.ids t2 → ∃ t ∈ ts, t2.config = t.config := by
  induction ts with
  | nil =>
    intro r r2 h hw t2 hne
    rw [use_types] at h
    cases h
    exact absurd rfl hne
  | cons t ts ih =>
    intro r r2 h hw t2 hne
    rw [use_types] at h
    unfold use_type at h
    cases h1 : type_hierarchy_init_id__ t r with
    | error e => rw [h1] at h; cases h
    | ok p =>
      obtain ⟨v, r1⟩ := p
      rw [h1] at h
      obtain ⟨g1, _, g3⟩ := init_id_spec t r v r1 h1 hw
      by_cases hc : r2.ids t2 = r1.ids t2
      · rw [hc] at hne
        exact ⟨t, List.mem_cons_self _ _, derives_from_config t2 t (g3 t2 hne).1⟩
      · obtain ⟨t3, ht3, e⟩ := ih r1 r2 h g1 t2 hc
        exact ⟨t3, List.mem_cons_of_mem _ ht3, e⟩

theorem id_shl_one_bound (w b : Nat) (hw : w = 8 ∨ w = 16 ∨ w = 32 ∨ w = 64) (hle : b ≤ w)
    (h : w < int_bits ∨ b < w) : id_shl w 1 b = some (2 ^ b) := by
  by_cases hbw : b < w
  · exact id_shl_one_narrow w b hbw
  · have hlt : w < int_bits := by
      rcases h with h | h
      · exact h
      · exact absurd h hbw
    unfold id_shl int_shl
    rw [if_pos hlt]
    have h31 : 2 ^ b < 2 ^ (int_bits - 1) := by
      apply Nat.pow_lt_pow_right (by omega)
      unfold int_bits at hlt ⊢
      omega
    simp [h31, Nat.shiftLeft_eq]

/-- The counters of a hierarchy are its own: whatever classes of other hierarchies have got
their ids before, the first class first-used beneath the root of a hierarchy gets the id 1,
provided the first level has at least one bit and the bound of `next_id` can be computed
(the id type is narrower than `int` or wider than the first level). -/
theorem first_id_is_one (ts : List HType) (r : Registry)
    (hr : use_types ts Registry.start = .ok r) (c : Config)
    (hother : ∀ t ∈ ts, t.config ≠ c) (w b1 : Nat) (hwid : c.id_t = some w)
    (hb : get 0 c.bits_per_level = some b1) (hpos : 1 ≤ b1) (hshift : w < int_bits ∨ b1 < w)
    (d : Nat) :
    ∃ r2, type_hierarchy_init_id__ (.sub d (.root c)) r = .ok (1, r2) ∧
      s_type_hierarchy__ r2 (.sub d (.root c)) = 1 := by
  have hcnt : r.counter c 0 = 0 := by
    by_contra hne
    obtain ⟨t, ht, e⟩ := (use_types_counters ts _ r hr well_formed_start counters_ok_start).2
      c 0 hne
    exact hother t ht e.symm
  have hnone : r.ids (.sub d (.root c)) = none := by
    by_contra hne
    obtain ⟨t, ht, e⟩ := use_types_ids_frame ts _ r hr well_formed_start (.sub d (.root c)) hne
    exact hother t ht e.symm
  have hbound := id_t_bound c w hwid
  have hb2 : get ((0 : Nat) : Int) c.bits_per_level = some b1 := hb
  have hspan := (get_bits c 0 b1 hb2).2
  have hsum := span_le_sum c (0 + 1)
  rw [span_zero] at hspan
  have hshl := id_shl_one_bound w b1 hbound.2 (by omega) hshift
  have h1w : (1 : Nat) % 2 ^ w = 1 := by
    apply Nat.mod_eq_of_lt
    exact Nat.one_lt_two_pow (by omega)
  have h1b : 1 < 2 ^ b1 := Nat.one_lt_two_pow (by omega)
  have hnext : next_id c 0 r = .ok (1, r.set_counter c 0 1) := by
    unfold next_id
    rw [hwid, hb]
    simp only [hcnt, Nat.zero_add, h1w, hshl, if_pos h1b]
  refine ⟨(r.set_counter c 0 1).set_id (.sub d (.root c)) 1, ?_, ?_⟩
  · rw [type_hierarchy_init_id__, hnone]
    simp only [hnext]
  · simp [s_type_hierarchy__, Registry.set_id]

theorem first_id_is_one_witness :
    ∃ r2, type_hierarchy_init_id__ (.sub 1 (.root OtherRoot.config))
        (registry_after [Type_1, Type_2, Type_1_1]) = .ok (1, r2) ∧
      s_type_hierarchy__ r2 (.sub 1 (.root OtherRoot.config)) = 1 :=
  first_id_is_one [Type_1, Type_2, Type_1_1] (registry_after [Type_1, Type_2, Type_1_1]) rfl
    OtherRoot.config (by decide) 32 8 rfl rfl (by decide) (by decide) 1

/-- Once the static member of a class is initialised, every instance constructed afterwards
stores that id, whatever classes get their ids in between. -/
theorem instance_stores_id (ts ts2 : List HType) (r r2 : Registry) (d : Nat) (s : HType)
    (junk junk2 : Nat) (hr : use_types ts Registry.start = .ok r) (ht : HType.sub d s ∈ ts)
    (hr2 : use_types ts2 r = .ok r2) :
    (construct r junk (.sub d s)).type_hierarchy_id__ = s_type_hierarchy__ r (.sub d s) ∧
    (construct r2 junk2 (.sub d s)).type_hierarchy_id__
      = (construct r junk (.sub d s)).type_hierarchy_id__ ∧
    r.ids (.sub d s) = some (s_type_hierarchy__ r (.sub d s)) := by
  obtain ⟨hw, _, hall⟩ := use_types_spec ts _ r hr well_formed_start
  obtain ⟨v, hv⟩ := Option.isSome_iff_exists.1 (hall _ ht)
  have hv2 := (use_types_spec ts2 r r2 hr2 hw).2.1 _ v hv
  refine ⟨rfl, ?_, ?_⟩
  · show s_type_hierarchy__ r2 (.sub d s) = s_type_hierarchy__ r (.sub d s)
    simp [s_type_hierarchy__, hv, hv2]
  · simp [s_type_hierarchy__, hv]

theorem instance_stores_id_witness :
    (construct (registry_after [Type_1]) 0 Type_1).type_hierarchy_id__
      = s_type_hierarchy__ (registry_after [Type_1]) Type_1 ∧
    (construct (registry_after [Type_1, Type_2]) 7 Type_1).type_hierarchy_id__
      = (construct (registry_after [Type_1]) 0 Type_1).type_hierarchy_id__ ∧
    (registry_after [Type_1]).ids Type_1
      = some (s_type_hierarchy__ (registry_after [Type_1]) Type_1) :=
  instance_stores_id [Type_1] [Type_2] (registry_after [Type_1])
    (registry_after [Type_1, Type_2]) 1 Root 0 7 rfl (by decide) rfl

/-- The scenario of the test `for_each_hierarchy_ids_must_start_counting_at_one`: two
hierarchies with the default widths and the same shape give corresponding classes the same
ids, 1 on the first level, in whatever order the two hierarchies are interleaved. -/
theorem ids_start_at_one_in_each_hierarchy :
    (∃ r, use_types [Type_1, Type_1_1, OtherType_1, OtherType_1_1] Registry.start = .ok r ∧
      s_type_hierarchy__ r Type_1 = 1 ∧ s_type_hierarchy__ r OtherType_1 = 1 ∧
      s_type_hierarchy__ r Type_1_1 = 257 ∧ s_type_hierarchy__ r OtherType_1_1 = 257) ∧
    (∃ r, use_types [OtherType_1_1, Type_2, Type_1_1, Type_1] Registry.start = .ok r ∧
      s_type_hierarchy__ r Type_2 = 1 ∧ s_type_hierarchy__ r OtherType_1 = 1 ∧
      s_type_hierarchy__ r Type_1 = 2 ∧ s_type_hierarchy__ r OtherType_1_1 = 257) :=
  ⟨⟨_, rfl, rfl, rfl, rfl, rfl⟩, ⟨_, rfl, rfl, rfl, rfl, rfl⟩⟩

theorem ancestor_at_spec (t : HType) (k : Nat) :
    t.derives_from (t.ancestor_at k) = true ∧ (k ≤ t.depth → (t.ancestor_at k).depth = k) := by
  induction t with
  | root c =>
    refine ⟨by simp [HType.ancestor_at, HType.derives_from], fun h => ?_⟩
    simp only [HType.depth, HType.ancestor_at] at h ⊢
    omega
  | sub d s ih =>
    rw [HType.ancestor_at]
    by_cases hk : s.depth + 1 ≤ k
    · rw [if_pos hk]
      refine ⟨derives_from_self _, fun h => ?_⟩
      simp only [HType.depth] at h ⊢
      omega
    · rw [if_neg hk]
      refine ⟨?_, fun h => ih.2 (by omega)⟩
      simp only [HType.derives_from, Bool.or_eq_true, decide_eq_true_eq]
      exact Or.inr ih.1

/-- The classes a class derives from form a chain. -/
theorem derives_from_linear (t a b : HType) (ha : t.derives_from a = true)
    (hb : t.derives_from b = true) :
    a.derives_from b = true ∨ b.derives_from a = true := by
  induction t with
  | root c =>
    simp only [HType.derives_from, decide_eq_true_eq] at ha hb
    subst ha hb
    exact Or.inl (derives_from_self _)
  | sub d s ih =>
    simp only [HType.derives_from, Bool.or_eq_true, decide_eq_true_eq] at ha hb
    rcases ha with ha | ha
    · subst ha
      refine Or.inl ?_
      simp only [HType.derives_from, Bool.or_eq_true, decide_eq_true_eq]
      exact hb
    · rcases hb with hb | hb
      · subst hb
        refine Or.inr ?_
        simp only [HType.derives_from, Bool.or_eq_true, decide_eq_true_eq]
        exact Or.inr ha
      · exact ih ha hb

theorem derives_from_trans (t a b : HType) (hta : t.derives_from a = true)
    (hab : a.derives_from b = true) : t.derives_from b = true := by
  induction t with
  | root c =>
    simp only [HType.derives_from, decide_eq_true_eq] at hta
    subst hta
    exact hab
  | sub d s ih =>
    simp only [HType.derives_from, Bool.or_eq_true, decide_eq_true_eq] at hta
    rcases hta with hta | hta
    · subst hta; exact hab
    · simp only [HType.derives_from, Bool.or_eq_true, decide_eq_true_eq]
      exact Or.inr (ih hta)

theorem derives_from_antisymm (a b : HType) (hab : a.derives_from b = true)
    (hba : b.derives_from a = true) : a = b := by
  have h1 := derives_from_depth b a hab
  have h2 := derives_from_depth a b hba
  cases a with
  | root c =>
    simp only [HType.derives_from, decide_eq_true_eq] at hab
    exact hab
  | sub d s =>
    simp only [HType.derives_from, Bool.or_eq_true, decide_eq_true_eq] at hab
    rcases hab with hab | hab
    · exact hab
    · have := derives_from_depth b s hab
      simp only [HType.depth] at h1 h2
      omega

/-- In a storage reached by id assignments, in a hierarchy whose first level is narrower than
the id type, two different classes of one level have different packed ids. -/
theorem packed_ids_distinct (r : Registry) (hw : r.well_formed) (hk : r.counters_ok)
    (d1 d2 : Nat) (s1 s2 : HType) (v1 v2 : Nat)
    (h1 : r.ids (.sub d1 s1) = some v1) (h2 : r.ids (.sub d2 s2) = some v2)
    (hne : HType.sub d1 s1 ≠ HType.sub d2 s2)
    (hc : s1.config = s2.config) (hd : s1.depth = s2.depth)
    (hnarrow : ∀ w b, s1.config.id_t = some w →
      get 0 s1.config.bits_per_level = some b → b < w) : v1 ≠ v2 := by
  obtain ⟨⟨w, hwid, _⟩, hlen, _, _, _⟩ := hw.2 d1 s1 v1 h1
  have hb := get_of_lt s1.config.bits_per_level s1.depth (by omega)
  have hbw : s1.config.bits_per_level.get ⟨s1.depth, by omega⟩ < w := by
    by_cases h0 : s1.depth = 0
    · refine hnarrow w _ hwid ?_
      have : get ((0 : Nat) : Int) s1.config.bits_per_level
          = some (s1.config.bits_per_level.get ⟨0, by omega⟩) := get_of_lt _ 0 (by omega)
      simp only [h0]
      exact this
    · exact deep_width_lt r hw hk d1 s1 v1 w _ h1 h0 hwid hb
  have hloc := hk.2.2 d1 s1 v1 d2 s2 v2 w _ h1 h2 hne hc hd hwid hb hbw
  intro heq
  apply hloc
  unfold local_id
  rw [hc, hd, heq]

/-- A packed id that, cut to the span of a class `C`, is the packed id of `C` belongs to a
class that derives from `C`. -/
theorem masked_id_is_ancestor (r : Registry) (hw : r.well_formed) (hk : r.counters_ok)
    (C T : HType) (vC vT : Nat) (hC : r.ids C = some vC) (hT : r.ids T = some vT)
    (hcfg : C.config = T.config)
    (hnarrow : ∀ w b, C.config.id_t = some w →
      get 0 C.config.bits_per_level = some b → b < w)
    (heq : vT % 2 ^ C.config.span C.depth = vC) : T.derives_from C = true := by
  cases C with
  | root c => rw [hw.1 c] at hC; cases hC
  | sub dC sC =>
  cases T with
  | root c => rw [hw.1 c] at hT; cases hT
  | sub dT sT =>
  by_cases hdep : (HType.sub dC sC).depth ≤ (HType.sub dT sT).depth
  · obtain ⟨hder, hdepth⟩ := ancestor_at_spec (.sub dT sT) (HType.sub dC sC).depth
    have hdA := hdepth hdep
    have hcA := derives_from_config _ _ hder
    have hA0 : ((HType.sub dT sT).ancestor_at (HType.sub dC sC).depth).depth ≠ 0 := by
      rw [hdA]; simp [HType.depth]
    have hidA := id_of_ancestor r hw _ _ vT hT hder hA0
    rw [hcA, hdA, ← hcfg, heq] at hidA
    cases hA : (HType.sub dT sT).ancestor_at (HType.sub dC sC).depth with
    | root c => rw [hA] at hA0; exact absurd rfl hA0
    | sub dA sA =>
      rw [hA] at hidA hdA hcA hder
      by_cases hAC : HType.sub dA sA = HType.sub dC sC
      · rw [hAC] at hder; exact hder
      · exfalso
        have hc2 : sA.config = sC.config := by
          have : (HType.sub dA sA).config = (HType.sub dC sC).config := by rw [hcA, hcfg]
          exact this
        have hd2 : sA.depth = sC.depth := by
          simp only [HType.depth] at hdA
          omega
        refine packed_ids_distinct r hw hk dA dC sA sC vC vC hidA hC hAC hc2 hd2 ?_ rfl
        intro w b h1 h2
        rw [hc2] at h1 h2
        exact hnarrow w b h1 h2
  · exfalso
    obtain ⟨_, _, hltT, _, _⟩ := hw.2 dT sT vT hT
    obtain ⟨⟨w, hwid, _⟩, hlenC, _, _, _⟩ := hw.2 dC sC vC hC
    simp only [HType.depth] at hdep
    have hcs : sT.config = sC.config := hcfg.symm
    have hmono : sC.config.span (sT.depth + 1) ≤ sC.config.span sC.depth :=
      span_mono _ _ _ (by omega)
    have hmono2 : sC.config.span sC.depth ≤ sC.config.span (sC.depth + 1) :=
      span_mono _ _ _ (by omega)
    rw [hcs] at hltT
    have hp1 : 2 ^ sC.config.span (sT.depth + 1) ≤ 2 ^ sC.config.span sC.depth :=
      Nat.pow_le_pow_right (by omega) hmono
    have hp2 : 2 ^ sC.config.span sC.depth ≤ 2 ^ sC.config.span (sC.depth + 1) :=
      Nat.pow_le_pow_right (by omega) hmono2
    have hvv : vT = vC := by
      have : vT % 2 ^ (HType.sub dC sC).config.span (HType.sub dC sC).depth = vT :=
        Nat.mod_eq_of_lt (by simp only [HType.config, HType.depth]; omega)
      rw [this] at heq
      exact heq
    have hb := get_of_lt sC.config.bits_per_level sC.depth (by omega)
    have hbw := deep_width_lt r hw hk dC sC vC w _ hC (by omega) hwid hb
    have hloc := (hk.2.1 dC sC vC w _ hC hwid hb hbw).1
    unfold local_id at hloc
    have hpos : 0 < 2 ^ sC.config.span sC.depth := Nat.pos_pow_of_pos _ (by omega)
    have : 2 ^ sC.config.span sC.depth ≤ vC := by
      by_contra hlt
      rw [Nat.div_eq_of_lt (by omega)] at hloc
      omega
    omega

/-- After any sequence of id assignments without fault, in a hierarchy whose first level is
narrower than the id type, `convertible_to<C>` on an instance of `T` tells whether `T`
derives from `C`, provided the fields up to the level of `C` span at most 30 bits. -/
theorem convertible_to_iff_derives (ts : List HType) (r : Registry) (junk : Nat)
    (C T : HType) (hr : use_types ts Registry.start = .ok r) (hC : C ∈ ts) (hT : T ∈ ts)
    (h30 : C.config.span C.depth ≤ 30)
    (hnarrow : ∀ w b, C.config.id_t = some w →
      get 0 C.config.bits_per_level = some b → b < w) :
    convertible_to r (.node C) (construct r junk T) = .ok (T.derives_from C) := by
  obtain ⟨hw, _, hall⟩ := use_types_spec ts _ r hr well_formed_start
  have hk := (use_types_counters ts _ r hr well_formed_start counters_ok_start).1
  obtain ⟨vC, hvC⟩ := Option.isSome_iff_exists.1 (hall C hC)
  obtain ⟨vT, hvT⟩ := Option.isSome_iff_exists.1 (hall T hT)
  cases hder : T.derives_from C with
  | true =>
    refine convertible_to_ancestor_narrow ts r junk C T hr hT hder ?_ h30
    intro h0
    cases C with
    | root c => rw [hw.1 c] at hvC; cases hvC
    | sub d s => simp [HType.depth] at h0
  | false =>
    cases C with
    | root c => rw [hw.1 c] at hvC; cases hvC
    | sub d s =>
    by_cases hcfg : (HType.sub d s).config = T.config
    · obtain ⟨⟨w, hwid, _⟩, hlen, _, _, _⟩ := hw.2 d s vC hvC
      have hx : s.config = (construct r junk T).config := by
        rw [construct_config]; exact hcfg
      rw [convertible_to_narrow_eq r d s _ w hx hwid hlen h30]
      congr 1
      rw [decide_eq_false_iff_not]
      intro hmask
      have hid : (construct r junk T).type_hierarchy_id__ = vT := by
        cases T with
        | root c => rw [hw.1 c] at hvT; cases hvT
        | sub dT sT => simp [construct, Instance.type_hierarchy_id__, s_type_hierarchy__, hvT]
      rw [hid, Nat.and_comm, Nat.and_pow_two_sub_one_eq_mod] at hmask
      simp only [s_type_hierarchy__, hvC, Option.getD_some] at hmask
      have := masked_id_is_ancestor r hw hk (.sub d s) T vC vT hvC hvT hcfg hnarrow hmask
      rw [hder] at this
      cases this
    · unfold convertible_to
      simp only [construct_config]
      rw [if_neg hcfg]

theorem derives_from_root (t : HType) : t.derives_from (.root t.config) = true := by
  induction t with
  | root c => simp [HType.derives_from, HType.config]
  | sub d s ih =>
    simp only [HType.derives_from, HType.config, Bool.or_eq_true, decide_eq_true_eq]
    exact Or.inr ih

theorem to_object_deref (r : Registry) (junk : Nat) (T : HType) (is_const : Bool)
    (address : Nat) :
    (Pointer.to_object r junk (.root T.config) T is_const address).deref
      = construct r junk T := by
  have h := construct_config r junk T
  cases hc : construct r junk T with
  | mk cfg id =>
    rw [hc] at h
    simp only [Pointer.deref, Pointer.to_object, HType.config, hc, Instance.type_hierarchy_id__]
    rw [← h]

/-- For a pointer to the root class of the hierarchy of `C`, the cast `dyn_cast<C>` compiles
whenever the mask of `C` does, and it is the target pointer or null as `convertible_to<C>`
says. -/
theorem dyn_cast_from_root (r : Registry) (hw : r.well_formed) (C : HType) (vC : Nat)
    (hC : r.ids C = some vC) (h30 : C.config.span C.depth ≤ 30) (p : Pointer)
    (hp : p.pointee = .root C.config) (hpc : p.is_const = false) :
    ∃ b, convertible_to r (.node C) p.deref = .ok b ∧
      dyn_cast r (.node C) false p
        = .ok (if b then some { pointee := .node C, is_const := false, address := p.address }
               else none) := by
  cases C with
  | root c => rw [hw.1 c] at hC; cases hC
  | sub d s =>
    obtain ⟨⟨w, hwid, _⟩, hlen, _, _, _⟩ := hw.2 d s vC hC
    have hx : s.config = p.deref.config := by
      simp only [Pointer.deref, hp, HType.config]
    have hconv := convertible_to_narrow_eq r d s p.deref w hx hwid hlen h30
    refine ⟨_, hconv, ?_⟩
    have hwf : dyn_cast_well_formed (.node (.sub d s)) false p = true := by
      unfold dyn_cast_well_formed
      simp only [hp, dyn_cast_parameter, hpc, Bool.and_true, Bool.or_eq_true]
      exact Or.inl (derives_from_root (.sub d s))
    unfold dyn_cast
    rw [hwf, if_pos rfl, hconv]
    split <;> simp_all

/-- Counterexample for C35: `void` is part of no hierarchy and carries no level tag, yet
`level_of_v<void>` is 0 and not -1, by the explicit specialisation. -/
theorem level_of_void :
    LevelArg.level_of_v .void = 0 ∧ LevelArg.level_tags .void = [] ∧
      LevelArg.level_of_v .void ≠ level_of (LevelArg.level_tags .void) ∧
      level_of (LevelArg.level_tags .void) = -1 := by
  refine ⟨rfl, rfl, ?_, rfl⟩
  decide

/-- C35, amended: `level_of` is the depth from the root for every class: a root has
level 0, a class derived with `sub_type` from a parent of level `L` has level `L + 1`, and a
class outside every hierarchy has level -1, because a class at depth `d` carries exactly
the level tags `0..d` and the walk returns one less than the first tag index the class does
not carry; `void` alone is given level 0 by an explicit specialisation. -/
theorem level_of_is_depth :
    (∀ c, LevelArg.level_of_v (.cls (.node (.root c))) = 0) ∧
    (∀ d s, LevelArg.level_of_v (.cls (.node (.sub d s)))
        = LevelArg.level_of_v (.cls (.node s)) + 1) ∧
    (∀ t : HType, LevelArg.level_of_v (.cls (.node t)) = t.depth) ∧
    (∀ cls, LevelArg.level_of_v (.cls (.user cls)) = -1) ∧
    (∀ (t : HType) (N : Int), N ∈ t.level_tags ↔ 0 ≤ N ∧ N ≤ t.depth) ∧
    (∀ T : TargetType, (∀ N : Int, 0 ≤ N → N ≤ level_of_v T → N ∈ T.level_tags) ∧
        level_of_v T + 1 ∉ T.level_tags) ∧
    LevelArg.level_of_v .void = 0 := by
  refine ⟨fun c => ?_, fun d s => ?_, fun t => level_of_v_node t, fun cls => rfl,
    fun t N => (level_tags_spec t).1 N, fun T => ?_, rfl⟩
  · exact level_of_v_node (.root c)
  · show level_of_v (.node (.sub d s)) = level_of_v (.node s) + 1
    rw [level_of_v_node, level_of_v_node]
    simp [HType.depth]
  · cases T with
    | user cls =>
      refine ⟨fun N h0 h1 => ?_, ?_⟩
      · have : level_of_v (.user cls) = -1 := rfl
        omega
      · simp [TargetType.level_tags]
    | node t =>
      rw [level_of_v_node]
      refine ⟨fun N h0 h1 => ?_, ?_⟩
      · exact ((level_tags_spec t).1 N).2 ⟨h0, h1⟩
      · intro h
        have := ((level_tags_spec t).1 _).1 h
        omega

theorem level_members_append (c : Config) (L : Nat) (S T : List HType) :
    level_members c L (S ++ T) = level_members c L S ++ level_members c L T := by
  simp [level_members]

theorem level_members_single (c : Config) (L : Nat) (t : HType) :
    level_members c L [t] = if t.config = c ∧ t.depth = L + 1 then [t] else [] := by
  unfold level_members
  by_cases h : t.config = c ∧ t.depth = L + 1
  · simp [List.filter_cons, h]
  · simp [List.filter_cons, h]

theorem mem_level_members (c : Config) (L : Nat) (S : List HType) (t : HType) :
    t ∈ level_members c L S ↔ t ∈ S ∧ t.config = c ∧ t.depth = L + 1 := by
  simp [level_members]

theorem in_order_start : Registry.start.in_order [] := by
  refine ⟨List.nodup_nil, fun t => ?_, fun c L w _ => ?_, fun d s v w h => ?_⟩
  · simp [Registry.start]
  · simp [Registry.start, level_members]
  · cases h

/-- One assignment, `next_id` followed by the storing of the new id, appends the class to
the order of first use. -/
theorem in_order_step (r r3 : Registry) (S : List HType) (d : Nat) (s : HType) (n v : Nat)
    (ho : r.in_order S) (hnone : r.ids (.sub d s) = none)
    (hnext : next_id s.config (s.depth : Int) r = .ok (n, r3))
    (hloc : local_id s v = n) :
    (r3.set_id (.sub d s) v).in_order (S ++ [.sub d s]) := by
  obtain ⟨w, b, hw, hb, hn, hnlt, hr3⟩ := next_id_inv _ _ r r3 n hnext
  subst hr3
  obtain ⟨o1, o2, o3, o4⟩ := ho
  have hnotin : HType.sub d s ∉ S := by
    intro hin
    have := (o2 _).2 hin
    rw [hnone] at this
    cases this
  have hcfg : (HType.sub d s).config = s.config := rfl
  have hdep : (HType.sub d s).depth = s.depth + 1 := rfl
  refine ⟨?_, ?_, ?_, ?_⟩
  · exact List.Nodup.append o1 (List.nodup_singleton _) (by simpa using hnotin)
  · intro t
    rw [set_id_ids, set_counter_ids]
    by_cases he : t = .sub d s
    · simp [he]
    · rw [if_neg he, o2 t]
      simp [he]
  · intro c L w2 hw2
    rw [set_id_counter, set_counter_counter, level_members_append, level_members_single]
    by_cases hkey : c = s.config ∧ (L : Int) = (s.depth : Int)
    · rw [if_pos hkey]
      obtain ⟨hc, hL⟩ := hkey
      have hL2 : L = s.depth := by exact_mod_cast hL
      subst hc hL2
      rw [hw] at hw2
      cases hw2
      rw [if_pos ⟨hcfg, hdep⟩, hn, o3 _ _ w hw]
      simp [Nat.add_mod]
    · rw [if_neg hkey]
      have : ¬ ((HType.sub d s).config = c ∧ (HType.sub d s).depth = L + 1) := by
        rintro ⟨h1, h2⟩
        apply hkey
        rw [hdep] at h2
        exact ⟨h1.symm, by exact_mod_cast (by omega : L = s.depth)⟩
      rw [if_neg this, List.append_nil]
      exact o3 c L w2 hw2
  · intro d2 s2 v2 w2 hv2 hw2
    rw [set_id_ids, set_counter_ids] at hv2
    rw [level_members_append, level_members_single]
    by_cases he : HType.sub d2 s2 = .sub d s
    · rw [if_pos he] at hv2
      cases hv2
      cases he
      rw [hw] at hw2
      cases hw2
      rw [if_pos ⟨hcfg, hdep⟩, hloc, hn, o3 _ _ w hw]
      have hni : HType.sub d s ∉ level_members s.config s.depth S :=
        fun h => hnotin ((mem_level_members _ _ _ _).1 h).1
      rw [List.indexOf_append_of_not_mem hni]
      simp [Nat.add_mod]
    · rw [if_neg he] at hv2
      have hin : HType.sub d2 s2 ∈ level_members s2.config s2.depth S :=
        (mem_level_members _ _ _ _).2 ⟨(o2 _).1 (by rw [hv2]; rfl), rfl, rfl⟩
      rw [List.indexOf_append_of_mem hin]
      exact o4 d2 s2 v2 w2 hv2 hw2

theorem chain_registered (r : Registry) (hw : r.well_formed) (t : HType) :
    ∀ v, r.ids t = some v → ∀ a ∈ t.chain, (r.ids a).isSome = true := by
  induction t with
  | root c => intro v _ a ha; simp [HType.chain] at ha
  | sub d s ih =>
    intro v hv a ha
    rw [HType.chain, List.mem_append, List.mem_singleton] at ha
    rcases ha with ha | rfl
    · by_cases h0 : s.depth = 0
      · cases s with
        | root c => simp [HType.chain] at ha
        | sub d2 s2 => simp [HType.depth] at h0
      · obtain ⟨_, _, _, _, h5⟩ := hw.2 d s v hv
        obtain ⟨vs, hvs⟩ := Option.isSome_iff_exists.1 (h5 h0)
        exact ih vs hvs a ha
    · rw [hv]; rfl

/-- One run of `type_hierarchy_init_id__` appends to the order of first use the classes of
the chain that had no id. -/
theorem init_id_in_order (t : HType) : ∀ (r : Registry) (v : Nat) (r2 : Registry)
    (S : List HType), type_hierarchy_init_id__ t r = .ok (v, r2) → r.well_formed →
    r.in_order S → r2.in_order (S ++ t.chain.filter (fun a => decide (a ∉ S))) := by
  induction t with
  | root c =>
    intro r v r2 S h
    rw [type_hierarchy_init_id__] at h
    cases h
  | sub d s ih =>
    intro r v r2 S h hw ho
    cases hreg : r.ids (.sub d s) with
    | some id =>
      have h2 := init_id_registered _ r id hw hreg
      have hnil : (HType.sub d s).chain.filter (fun a => decide (a ∉ S)) = [] := by
        rw [List.filter_eq_nil_iff]
        intro a ha
        have := (ho.2.1 a).1 (chain_registered r hw _ id hreg a ha)
        simpa using this
      rw [h2] at h
      cases h
      rw [hnil, List.append_nil]
      exact ho
    | none =>
      have hnotin : HType.sub d s ∉ S := by
        intro hin
        have := (ho.2.1 _).2 hin
        rw [hreg] at this
        cases this
      cases s with
      | root c =>
        obtain ⟨r1, hnext, hr2⟩ := init_id_first_level d c r r2 v h hreg
        subst hr2
        have hnext2 : next_id (HType.root c).config ((HType.root c).depth : Int) r
            = .ok (v, r1) := hnext
        have hch : (HType.sub d (.root c)).chain.filter (fun a => decide (a ∉ S))
            = [.sub d (.root c)] := by
          simp [HType.chain, List.filter_cons, hnotin]
        rw [hch]
        refine in_order_step r r1 S d (.root c) v v ho hreg hnext2 ?_
        show v / 2 ^ c.span 0 = v
        rw [span_zero]
        simp
      | sub d2 s2 =>
        obtain ⟨sid, r1, n, r3, w, b, hsuper, hnext, _, _, hr2, _, hsid, _, _, hv⟩ :=
          init_id_deeper d d2 s2 r r2 v h hreg hw
        have ho1 := ih r sid r1 S hsuper hw ho
        obtain ⟨hw1, _, hchg⟩ := init_id_spec _ r sid r1 hsuper hw
        have hreg1 : r1.ids (.sub d (.sub d2 s2)) = none := by
          by_contra hne
          have hne2 : r1.ids (.sub d (.sub d2 s2)) ≠ r.ids (.sub d (.sub d2 s2)) := by
            rw [hreg]; exact hne
          have := derives_from_depth _ _ (hchg _ hne2).1
          simp only [HType.depth] at this
          omega
        subst hr2
        have hch : (HType.sub d (.sub d2 s2)).chain.filter (fun a => decide (a ∉ S))
            = (HType.sub d2 s2).chain.filter (fun a => decide (a ∉ S))
              ++ [.sub d (.sub d2 s2)] := by
          rw [HType.chain, List.filter_append]
          simp [List.filter_cons, hnotin]
        rw [hch, ← List.append_assoc]
        refine in_order_step r1 r3 _ d (.sub d2 s2) n v ho1 hreg1 hnext ?_
        show v / 2 ^ _ = n
        rw [hv]
        have hpos : 0 < 2 ^ (HType.sub d2 s2).config.span (HType.sub d2 s2).depth :=
          Nat.pos_pow_of_pos _ (by omega)
        rw [Nat.mul_add_div hpos, Nat.div_eq_of_lt hsid]
        rfl

/-- Initialising the static members of a list of classes extends the order of first
use. -/
theorem use_types_in_order (ts : List HType) : ∀ (r r2 : Registry) (S : List HType),
    use_types ts r = .ok r2 → r.well_formed → r.in_order S →
    r2.in_order (first_use_order ts S) := by
  induction ts with
  | nil =>
    intro r r2 S h hw ho
    rw [use_types] at h
    cases h
    exact ho
  | cons t ts ih =>
    intro r r2 S h hw ho
    rw [use_types] at h
    unfold use_type at h
    cases hi : type_hierarchy_init_id__ t r with
    | error e => rw [hi] at h; cases h
    | ok p =>
      obtain ⟨v, r1⟩ := p
      rw [hi] at h
      simp only at h
      rw [first_use_order]
      exact ih r1 r2 _ h (init_id_spec t r v r1 hi hw).1 (init_id_in_order t r v r1 S hi hw ho)

/-- The storage reached from program start is in the order of first use. -/
theorem reached_in_order (ts : List HType) (r : Registry)
    (hr : use_types ts Registry.start = .ok r) : r.in_order (first_use_order ts []) :=
  use_types_in_order ts _ r [] hr well_formed_start in_order_start

theorem capacity_get (c : Config) (S : List HType) (h : within_capacity c S = true)
    (L b : Nat) (hb : get (L : Int) c.bits_per_level = some b) :
    (level_members c L S).length + 1 ≤ 2 ^ b := by
  have hL := (get_bits c L b hb).1
  unfold within_capacity at h
  rw [List.all_eq_true] at h
  have := h L (List.mem_range.2 hL)
  rw [get_of_lt _ L hL] at hb
  cases hb
  simpa [List.getD_eq_getElem?_getD, List.getElem?_eq_getElem hL] using this

theorem width_le_id_t (c : Config) (w L b : Nat) (hw : c.id_t = some w)
    (hb : get (L : Int) c.bits_per_level = some b) : b ≤ w := by
  have h1 := (get_bits c L b hb).2
  have h2 := span_le_sum c (L + 1)
  have h3 := (id_t_bound c w hw).1
  omega

/-- Within capacity the local id of a class is its position, counted from 1, among the
classes of its level in the order of first use. -/
theorem local_id_position (r : Registry) (S : List HType) (hw : r.well_formed)
    (ho : r.in_order S) (d : Nat) (s : HType) (v : Nat)
    (hcap : within_capacity s.config S = true) (hv : r.ids (.sub d s) = some v) :
    HType.sub d s ∈ level_members s.config s.depth S ∧
    local_id s v = (level_members s.config s.depth S).indexOf (.sub d s) + 1 := by
  obtain ⟨⟨w, hwid, _⟩, hlen, _, _, _⟩ := hw.2 d s v hv
  have hb := get_of_lt s.config.bits_per_level s.depth (by omega)
  have hin : HType.sub d s ∈ level_members s.config s.depth S :=
    (mem_level_members _ _ _ _).2 ⟨(ho.2.1 _).1 (by rw [hv]; rfl), rfl, rfl⟩
  refine ⟨hin, ?_⟩
  rw [ho.2.2.2 d s v w hv hwid]
  have h1 := capacity_get _ S hcap _ _ hb
  have h2 := width_le_id_t _ w _ _ hwid hb
  have h3 := List.indexOf_lt_length.2 hin
  have h4 : 2 ^ (s.config.bits_per_level.get ⟨s.depth, by omega⟩) ≤ 2 ^ w :=
    Nat.pow_le_pow_right (by omega) h2
  exact Nat.mod_eq_of_lt (by omega)

/-- Within capacity the local ids are positive and distinct on every level. -/
theorem local_ids_ok_of_capacity (r : Registry) (S : List HType) (hw : r.well_formed)
    (ho : r.in_order S) (c : Config) (hcap : within_capacity c S = true) :
    r.local_ids_ok c := by
  refine ⟨?_, ?_⟩
  · intro d s v hv hc
    subst hc
    rw [(local_id_position r S hw ho d s v hcap hv).2]
    omega
  · intro d1 s1 v1 d2 s2 v2 h1 h2 hne hc1 hc2 hd
    subst hc1
    obtain ⟨m1, e1⟩ := local_id_position r S hw ho d1 s1 v1 hcap h1
    obtain ⟨m2, e2⟩ := local_id_position r S hw ho d2 s2 v2 (by rw [hc2]; exact hcap) h2
    rw [e1, e2]
    rw [hc2, ← hd] at m2 ⊢
    intro heq
    exact hne ((List.indexOf_inj m1 m2).1 (by omega))

theorem local_id_pos_ge (s : HType) (v : Nat) (h : 1 ≤ local_id s v) :
    2 ^ s.config.span s.depth ≤ v := by
  unfold local_id at h
  by_contra hlt
  rw [Nat.div_eq_of_lt (by omega)] at h
  omega

/-- Where the local ids are positive and distinct on every level, two different classes
of a hierarchy, on one level or on different levels, have different packed ids. -/
theorem packed_ids_injective_of (r : Registry) (hw : r.well_formed) (c : Config)
    (hl : r.local_ids_ok c) (t1 t2 : HType) (v1 v2 : Nat)
    (h1 : r.ids t1 = some v1) (h2 : r.ids t2 = some v2) (hne : t1 ≠ t2)
    (hc1 : t1.config = c) (hc2 : t2.config = c) : v1 ≠ v2 := by
  cases t1 with
  | root c1 => rw [hw.1 c1] at h1; cases h1
  | sub d1 s1 =>
  cases t2 with
  | root c2 => rw [hw.1 c2] at h2; cases h2
  | sub d2 s2 =>
  have hc1' : s1.config = c := hc1
  have hc2' : s2.config = c := hc2
  obtain ⟨_, _, hlt1, _, _⟩ := hw.2 d1 s1 v1 h1
  obtain ⟨_, _, hlt2, _, _⟩ := hw.2 d2 s2 v2 h2
  have hge1 := local_id_pos_ge s1 v1 (hl.1 d1 s1 v1 h1 hc1')
  have hge2 := local_id_pos_ge s2 v2 (hl.1 d2 s2 v2 h2 hc2')
  rw [hc1'] at hlt1 hge1
  rw [hc2'] at hlt2 hge2
  rcases Nat.lt_trichotomy s1.depth s2.depth with hlt | heq | hgt
  · have := Nat.pow_le_pow_right (by omega : 0 < 2) (span_mono c (s1.depth + 1) s2.depth hlt)
    omega
  · intro hv
    apply hl.2 d1 s1 v1 d2 s2 v2 h1 h2 hne hc1' hc2' heq
    unfold local_id
    rw [hc1', hc2', heq, hv]
  · have := Nat.pow_le_pow_right (by omega : 0 < 2) (span_mono c (s2.depth + 1) s1.depth hgt)
    omega

theorem lookup_v_deep (c : Config) (k : Nat) (hk : c.bits_per_level.length < k) :
    lookup_v c (k : Int) = none := by
  unfold lookup_v Config.level_shifts meta.scan_add
  simp only [Option.some_bind, get]
  have : ¬ ((k : Int) < 0) := by omega
  rw [if_neg this, Int.toNat_ofNat, List.getElem?_eq_none]
  rw [meta.scan_add_impl_acc]
  have hlen : ∀ (N : Nat) (Ns : List Nat), (meta.running_sums N Ns).length = Ns.length + 1 := by
    intro N Ns
    induction Ns generalizing N with
    | nil => simp [meta.running_sums]
    | cons n ns ih => simp [meta.running_sums, ih]
  simp only [List.nil_append, hlen]
  omega

theorem mask_v_deep (A : HType) (c : Config) (hd : c.bits_per_level.length < A.depth) :
    mask_v c (.node A) = none := by
  unfold mask_v shift_v
  rw [level_of_v_node, lookup_v_deep c _ hd]
  cases c.id_t <;> rfl

/-- Where the local ids are positive, the packed id of a class cut to the span of any level
from the first on is not zero. -/
theorem masked_id_ne_zero (r : Registry) (hw : r.well_formed) (D : HType) (vD : Nat)
    (hl : r.local_ids_ok D.config) (hD : r.ids D = some vD) (k : Nat) (hk : k ≠ 0) :
    vD % 2 ^ D.config.span k ≠ 0 := by
  by_cases hdep : k ≤ D.depth
  · obtain ⟨hder, hdepth⟩ := ancestor_at_spec D k
    have hdA := hdepth hdep
    have hcA := derives_from_config _ _ hder
    have hidA := id_of_ancestor r hw _ _ vD hD hder (by rw [hdA]; exact hk)
    rw [hcA, hdA] at hidA
    cases hA : D.ancestor_at k with
    | root c => rw [hA] at hdA; simp [HType.depth] at hdA; omega
    | sub dA sA =>
      rw [hA] at hidA hcA
      have hge := local_id_pos_ge sA _ (hl.1 dA sA _ hidA hcA)
      have hpos : 0 < 2 ^ sA.config.span sA.depth := Nat.pos_pow_of_pos _ (by omega)
      omega
  · cases D with
    | root c => rw [hw.1 c] at hD; cases hD
    | sub dD sD =>
      obtain ⟨_, _, hlt, _, _⟩ := hw.2 dD sD vD hD
      have hge := local_id_pos_ge sD vD (hl.1 dD sD vD hD rfl)
      have hpos : 0 < 2 ^ sD.config.span sD.depth := Nat.pos_pow_of_pos _ (by omega)
      simp only [HType.depth] at hdep
      have hmono := Nat.pow_le_pow_right (by omega : 0 < 2)
        (span_mono sD.config (sD.depth + 1) k (by omega))
      have : vD % 2 ^ (HType.sub dD sD).config.span k = vD :=
        Nat.mod_eq_of_lt (by simp only [HType.config]; omega)
      rw [this]
      omega

/-- Where the local ids are positive and distinct on every level, a packed id that, cut to
the span of a class `C`, is the packed id of `C` belongs to a class that derives from
`C`. -/
theorem masked_id_derives_of (r : Registry) (hw : r.well_formed) (C T : HType)
    (vC vT : Nat) (hl : r.local_ids_ok T.config) (hC : r.ids C = some vC)
    (hT : r.ids T = some vT) (hcfg : C.config = T.config)
    (heq : vT % 2 ^ C.config.span C.depth = vC) : T.derives_from C = true := by
  by_cases hdep : C.depth ≤ T.depth
  · obtain ⟨hder, hdepth⟩ := ancestor_at_spec T C.depth
    have hdA := hdepth hdep
    have hcA := derives_from_config _ _ hder
    have hC0 : C.depth ≠ 0 := by
      cases C with
      | root c => rw [hw.1 c] at hC; cases hC
      | sub dC sC => simp [HType.depth]
    have hidA := id_of_ancestor r hw _ _ vT hT hder (by rw [hdA]; exact hC0)
    rw [hcA, hdA, ← hcfg, heq] at hidA
    by_cases hAC : T.ancestor_at C.depth = C
    · rw [hAC] at hder; exact hder
    · exact absurd rfl (packed_ids_injective_of r hw T.config hl _ _ vC vC hidA hC hAC hcA hcfg)
  · exfalso
    have hne : C ≠ T := by
      intro h
      rw [h] at hdep
      exact hdep (Nat.le_refl _)
    cases T with
    | root c => rw [hw.1 c] at hT; cases hT
    | sub dT sT =>
      obtain ⟨_, _, hlt, _, _⟩ := hw.2 dT sT vT hT
      simp only [HType.depth] at hdep
      have hmono := Nat.pow_le_pow_right (by omega : 0 < 2)
        (span_mono sT.config (sT.depth + 1) C.depth (by omega))
      have hcs : C.config = sT.config := hcfg
      have : vT % 2 ^ C.config.span C.depth = vT :=
        Nat.mod_eq_of_lt (by rw [hcs]; omega)
      rw [this] at heq
      exact packed_ids_injective_of r hw _ hl _ _ vC vT hC hT hne hcfg rfl heq.symm

/-- Where the local ids are positive and distinct on every level and the mask of the
target class can be computed, `convertible_to` on an instance of a class that has its id
tells whether that class derives from the target class; the target class need not have an
id. -/
theorem convertible_to_derives_of (r : Registry) (hw : r.well_formed) (D : HType)
    (hl : r.local_ids_ok D.config) (junk d : Nat) (s : HType) (vD m : Nat)
    (hD : r.ids D = some vD) (hcfg : s.config = D.config)
    (hm : mask_v D.config (.node (.sub d s)) = some m) :
    convertible_to r (.node (.sub d s)) (construct r junk D)
      = .ok (D.derives_from (.sub d s)) := by
  cases D with
  | root c => rw [hw.1 c] at hD; cases hD
  | sub dD sD =>
  obtain ⟨⟨w, hwid, _⟩, _, _, _, _⟩ := hw.2 dD sD vD hD
  have hcs : s.config = sD.config := hcfg
  replace hm : mask_v sD.config (.node (.sub d s)) = some m := hm
  have hlen : s.depth + 1 ≤ s.config.bits_per_level.length := by
    by_contra hd
    rw [mask_v_deep (.sub d s) _ (by
      simp only [HType.config, HType.depth]; rw [← hcs]; omega)] at hm
    cases hm
  have h30 : s.config.span (s.depth + 1) ≤ 30 := by
    by_contra h31
    rw [mask_v_wide (.sub d s) _ w hwid (by
      simp only [HType.config, HType.depth]; rw [← hcs]; omega) (by
      simp only [HType.config, HType.depth]; rw [← hcs]; omega)] at hm
    cases hm
  have hx : s.config = (construct r junk (.sub dD sD)).config := by
    rw [construct_config]; exact hcfg
  rw [convertible_to_narrow_eq r d s _ w hx (by rw [hcs]; exact hwid) hlen h30]
  congr 1
  have hid : (construct r junk (.sub dD sD)).type_hierarchy_id__ = vD := by
    simp [construct, Instance.type_hierarchy_id__, s_type_hierarchy__, hD]
  rw [hid, Nat.and_comm, Nat.and_pow_two_sub_one_eq_mod]
  cases hder : (HType.sub dD sD).derives_from (.sub d s) with
  | true =>
    rw [decide_eq_true_iff]
    have := id_of_ancestor r hw (.sub d s) (.sub dD sD) vD hD hder (by simp [HType.depth])
    simp only [s_type_hierarchy__, this, Option.getD_some]
    rfl
  | false =>
    rw [decide_eq_false_iff_not]
    intro hmask
    cases hC : r.ids (.sub d s) with
    | some vC =>
      simp only [s_type_hierarchy__, hC, Option.getD_some] at hmask
      have := masked_id_derives_of r hw (.sub d s) (.sub dD sD) vC vD hl hC hD hcfg hmask
      rw [hder] at this
      cases this
    | none =>
      simp only [s_type_hierarchy__, hC, Option.getD_none] at hmask
      have := masked_id_ne_zero r hw (.sub dD sD) vD hl hD (s.depth + 1) (by omega)
      apply this
      rw [← hmask]
      simp only [HType.config]
      rw [hcs]

theorem narrow_width (r : Registry) (hw : r.well_formed) (hk : r.counters_ok)
    (d : Nat) (s : HType) (v : Nat) (hv : r.ids (.sub d s) = some v)
    (hnarrow : ∀ w b, s.config.id_t = some w →
      get 0 s.config.bits_per_level = some b → b < w) :
    ∃ w b, s.config.id_t = some w ∧ get (s.depth : Int) s.config.bits_per_level = some b ∧
      b < w := by
  obtain ⟨⟨w, hwid, _⟩, hlen, _, _, _⟩ := hw.2 d s v hv
  have hb := get_of_lt s.config.bits_per_level s.depth (by omega)
  refine ⟨w, _, hwid, hb, ?_⟩
  by_cases h0 : s.depth = 0
  · refine hnarrow w _ hwid ?_
    have : get ((0 : Nat) : Int) s.config.bits_per_level
        = some (s.config.bits_per_level.get ⟨0, by omega⟩) := get_of_lt _ 0 (by omega)
    simp only [h0]
    exact this
  · exact deep_width_lt r hw hk d s v w _ hv h0 hwid hb

/-- In a hierarchy whose first level is narrower than the id type the assertion of
`next_id` keeps the local ids positive and distinct on every level. -/
theorem local_ids_ok_of_narrow (r : Registry) (hw : r.well_formed) (hk : r.counters_ok)
    (c : Config)
    (hnarrow : ∀ w b, c.id_t = some w → get 0 c.bits_per_level = some b → b < w) :
    r.local_ids_ok c := by
  refine ⟨?_, ?_⟩
  · intro d s v hv hc
    subst hc
    obtain ⟨w, b, hwid, hb, hbw⟩ := narrow_width r hw hk d s v hv hnarrow
    exact (hk.2.1 d s v w b hv hwid hb hbw).1
  · intro d1 s1 v1 d2 s2 v2 h1 h2 hne hc1 hc2 hd
    subst hc1
    obtain ⟨w, b, hwid, hb, hbw⟩ := narrow_width r hw hk d1 s1 v1 h1 hnarrow
    exact hk.2.2 d1 s1 v1 d2 s2 v2 w b h1 h2 hne hc2.symm hd hwid hb hbw

/-- Within capacity, and in every hierarchy whose first level is narrower than its id
type, two different classes that have an id, on one level or on different levels and
whatever their super classes, have different packed ids. -/
theorem packed_ids_injective (ts : List HType) (r : Registry)
    (hr : use_types ts Registry.start = .ok r) (t1 t2 : HType) (v1 v2 : Nat)
    (h1 : r.ids t1 = some v1) (h2 : r.ids t2 = some v2) (hne : t1 ≠ t2)
    (hc : t1.config = t2.config)
    (hcap : within_capacity t1.config (first_use_order ts []) = true ∨
      ∀ w b, t1.config.id_t = some w → get 0 t1.config.bits_per_level = some b → b < w) :
    v1 ≠ v2 := by
  obtain ⟨hw, _, _⟩ := use_types_spec ts _ r hr well_formed_start
  have hk := (use_types_counters ts _ r hr well_formed_start counters_ok_start).1
  have hl : r.local_ids_ok t1.config := by
    rcases hcap with hcap | hnarrow
    · exact local_ids_ok_of_capacity r _ hw (reached_in_order ts r hr) _ hcap
    · exact local_ids_ok_of_narrow r hw hk _ hnarrow
  exact packed_ids_injective_of r hw _ hl t1 t2 v1 v2 h1 h2 hne rfl hc.symm

set_option maxRecDepth 100000 in
/-- C36 (failing input): in `from_base<FlatBase, 8>` the ids of 257 classes are assigned
without any assertion failure, and the two different classes `Flat_1` and `Flat_257` have
the same packed id 1. -/
theorem packed_ids_collide_after_wrap :
    ∃ r, use_types (flat_types 257) Registry.start = .ok r ∧
      HType.sub 1 FlatRoot ≠ HType.sub 257 FlatRoot ∧
      r.ids (.sub 1 FlatRoot) = some 1 ∧
      r.ids (.sub 257 FlatRoot) = some 1 ∧
      r.counter FlatRoot.config 0 = 1 :=
  ⟨_, rfl, by decide, rfl, rfl, rfl⟩

theorem id_shl_full_width (w : Nat) (h32 : int_bits ≤ w) : id_shl w 1 w = none := by
  unfold id_shl
  rw [if_neg (by omega), if_neg (by omega)]

/-- On a level as wide as an id type of 32 or 64 bits `next_id` returns nothing, whatever
the counter: the bound of its assertion is an undefined shift. -/
theorem next_id_full_width (c : Config) (Level : Int) (r : Registry) (w : Nat)
    (hw : c.id_t = some w) (hb : get Level c.bits_per_level = some w)
    (h32 : int_bits ≤ w) : next_id c Level r = .error .undefined_shift := by
  unfold next_id
  rw [hw, hb]
  simp only
  rw [id_shl_full_width w h32]

/-- C34 (failing input): on the single level of `from_base<Base, 32>` and of
`from_base<Base, 64>`, whose width is the full width of the id type, no request for an id
returns a value, whatever the number of ids issued before; the first use of a class yields
no local id. -/
theorem next_id_full_width_undefined :
    FlatHierarchy.config.id_t = some 32 ∧ LongHierarchy.config.id_t = some 64 ∧
    (∀ r, next_id FlatHierarchy.config 0 r = .error .undefined_shift) ∧
    (∀ r, next_id LongHierarchy.config 0 r = .error .undefined_shift) ∧
    use_types [.sub 1 FlatHierarchy] Registry.start = .error .undefined_shift ∧
    use_types [.sub 1 LongHierarchy] Registry.start = .error .undefined_shift :=
  ⟨rfl, rfl, fun r => next_id_full_width _ 0 r 32 rfl rfl (by decide),
    fun r => next_id_full_width _ 0 r 64 rfl rfl (by decide), rfl, rfl⟩

/-- Where the bound of the assertion can be computed, the request that follows `n` first
uses on a level of width `b` returns `n + 1`, for every `n + 1 ≤ 2 ^ b - 1`: the `k`-th
class first used on a level receives the local id `k`. -/
theorem next_id_kth (ts : List HType) (r : Registry)
    (hr : use_types ts Registry.start = .ok r) (c : Config) (L w b : Nat)
    (hw : c.id_t = some w) (hb : get (L : Int) c.bits_per_level = some b)
    (hshift : w < int_bits ∨ b < w)
    (hroom : (level_members c L (first_use_order ts [])).length + 1 ≤ 2 ^ b - 1) :
    next_id c (L : Int) r
      = .ok ((level_members c L (first_use_order ts [])).length + 1,
          r.set_counter c (L : Int) ((level_members c L (first_use_order ts [])).length + 1)) := by
  have ho := reached_in_order ts r hr
  have hbw := width_le_id_t c w L b hw hb
  have hpow : 2 ^ b ≤ 2 ^ w := Nat.pow_le_pow_right (by omega) hbw
  have hpos : 0 < 2 ^ b := Nat.pos_pow_of_pos _ (by omega)
  have hcnt : r.counter c (L : Int) = (level_members c L (first_use_order ts [])).length := by
    rw [ho.2.2.1 c L w hw]
    exact Nat.mod_eq_of_lt (by omega)
  unfold next_id
  rw [hw, hb]
  simp only
  rw [id_shl_one_bound w b (id_t_bound c w hw).2 hbw hshift, hcnt]
  have hmod : ((level_members c L (first_use_order ts [])).length + 1) % 2 ^ w
      = (level_members c L (first_use_order ts [])).length + 1 :=
    Nat.mod_eq_of_lt (by omega)
  simp only [hmod]
  rw [if_pos (by omega)]

/-- The classes of a level, in a storage reached within capacity, carry the local ids
1, 2, 3, ... in the order of their first use. -/
theorem kth_type_local_id (ts : List HType) (r : Registry)
    (hr : use_types ts Registry.start = .ok r) (c : Config) (L k : Nat)
    (hcap : within_capacity c (first_use_order ts []) = true)
    (hk : k < (level_members c L (first_use_order ts [])).length) :
    ∃ d s v, (level_members c L (first_use_order ts [])).get ⟨k, hk⟩ = HType.sub d s ∧
      r.ids (.sub d s) = some v ∧ local_id s v = k + 1 := by
  obtain ⟨hw, _, _⟩ := use_types_spec ts _ r hr well_formed_start
  have ho := reached_in_order ts r hr
  have hmem := List.get_mem (level_members c L (first_use_order ts [])) k hk
  obtain ⟨hS, hcfg, hdep⟩ := (mem_level_members _ _ _ _).1 hmem
  obtain ⟨v, hv⟩ := Option.isSome_iff_exists.1 ((ho.2.1 _).2 hS)
  cases ht : (level_members c L (first_use_order ts [])).get ⟨k, hk⟩ with
  | root c2 => rw [ht] at hdep; simp [HType.depth] at hdep
  | sub d s =>
    rw [ht] at hv hcfg hdep
    have hc : s.config = c := hcfg
    have hd : s.depth = L := by simp only [HType.depth] at hdep; omega
    subst hc hd
    refine ⟨d, s, v, rfl, hv, ?_⟩
    rw [(local_id_position r _ hw ho d s v hcap hv).2, ← ht]
    have hnd : (level_members s.config s.depth (first_use_order ts [])).Nodup := by
      unfold level_members
      exact ho.1.filter _
    rw [List.get_indexOf hnd]

set_option maxRecDepth 100000 in
/-- C37 (failing input): in `from_base<FlatBase, 8>`, after 255 first uses, the first use
of a 256th class succeeds and stores the packed id 0, so the field of the level of that
class is zero. -/
theorem own_field_zero_after_wrap :
    ∃ r0 r, use_types (flat_types 255) Registry.start = .ok r0 ∧
      r0.ids (.sub 256 FlatRoot) = none ∧
      type_hierarchy_init_id__ (.sub 256 FlatRoot) r0 = .ok (0, r) ∧
      r.ids (.sub 256 FlatRoot) = some 0 ∧
      local_id FlatRoot (s_type_hierarchy__ r (.sub 256 FlatRoot)) = 0 :=
  ⟨_, _, rfl, rfl, rfl, rfl, rfl⟩

/-- What every id assignment keeps true of the packed id of a class on a level of width
`b`: no bit is set at or above the end of the field of the level, the bits below the field
are the packed id of the super class, the field lies below the width of the id type, and
the field is not zero when the level is narrower than the id type or the hierarchy is within
capacity. -/
theorem id_assignment_keeps_layout (ts : List HType) (r : Registry)
    (hr : use_types ts Registry.start = .ok r) (d : Nat) (s : HType) (v : Nat)
    (hv : r.ids (.sub d s) = some v) :
    ∃ w b, s.config.id_t = some w ∧
      get (s.depth : Int) s.config.bits_per_level = some b ∧
      s.config.span (s.depth + 1) = s.config.span s.depth + b ∧
      s.config.span (s.depth + 1) ≤ w ∧
      v < 2 ^ s.config.span (s.depth + 1) ∧
      v &&& (2 ^ s.config.span s.depth - 1) = s_type_hierarchy__ r s ∧
      local_id s v < 2 ^ b ∧
      ((b < w ∨ within_capacity s.config (first_use_order ts []) = true) →
        1 ≤ local_id s v) := by
  obtain ⟨hw, _, _⟩ := use_types_spec ts _ r hr well_formed_start
  have hk := (use_types_counters ts _ r hr well_formed_start counters_ok_start).1
  obtain ⟨⟨w, hwid, hspan⟩, hlen, hlt, hmod, _⟩ := hw.2 d s v hv
  have hb := get_of_lt s.config.bits_per_level s.depth (by omega)
  have hsp := (get_bits _ _ _ hb).2
  refine ⟨w, _, hwid, hb, hsp, hspan, hlt, ?_, ?_, ?_⟩
  · rw [Nat.and_pow_two_sub_one_eq_mod]
    exact hmod
  · unfold local_id
    rw [hsp, Nat.pow_add] at hlt
    exact Nat.div_lt_of_lt_mul hlt
  · rintro (hbw | hcap)
    · exact (hk.2.1 d s v w _ hv hwid hb hbw).1
    · exact (local_ids_ok_of_capacity r _ hw (reached_in_order ts r hr) _ hcap).1 d s v hv rfl

/-- The fields that `level_shifts` gives to two levels do not overlap, and every field lies
below the width of the id type. -/
theorem level_fields_disjoint (c : Config) (w j k bj bk : Nat) (hw : c.id_t = some w)
    (hjk : j < k) (hj : get (j : Int) c.bits_per_level = some bj)
    (hk : get (k : Int) c.bits_per_level = some bk) :
    lookup_v c (j : Int) = some (c.span j) ∧ lookup_v c (k : Int) = some (c.span k) ∧
      c.span j + bj ≤ c.span k ∧ c.span k + bk ≤ w := by
  obtain ⟨hj1, hj2⟩ := get_bits c j bj hj
  obtain ⟨hk1, hk2⟩ := get_bits c k bk hk
  refine ⟨level_shifts_get c j (by omega), level_shifts_get c k (by omega), ?_, ?_⟩
  · rw [← hj2]
    exact span_mono c _ _ hjk
  · rw [← hk2]
    exact Nat.le_trans (span_le_sum c _) (id_t_bound c w hw).1

/-- C38: for two runs that first use classes in any two orders, both without fault and
within the capacity of the hierarchy of a class `D` used in both, `convertible_to<T>` on an
instance of `D` has the same outcome in both runs for every target type `T`, whatever the
packed ids are; and asking again for the id of a class that has one returns that id and
leaves the storage, so every counter, as it is. -/
theorem convertible_to_order_independent (ts1 ts2 : List HType) (r1 r2 : Registry)
    (D : HType) (T : TargetType) (junk1 junk2 : Nat)
    (h1 : use_types ts1 Registry.start = .ok r1)
    (h2 : use_types ts2 Registry.start = .ok r2)
    (hD1 : D ∈ ts1) (hD2 : D ∈ ts2)
    (hcap1 : within_capacity D.config (first_use_order ts1 []) = true)
    (hcap2 : within_capacity D.config (first_use_order ts2 []) = true) :
    convertible_to r1 T (construct r1 junk1 D) = convertible_to r2 T (construct r2 junk2 D) ∧
    (∀ t id, r1.ids t = some id → type_hierarchy_init_id__ t r1 = .ok (id, r1)) ∧
    (∀ t id, r2.ids t = some id → type_hierarchy_init_id__ t r2 = .ok (id, r2)) := by
  obtain ⟨hw1, _, hall1⟩ := use_types_spec ts1 _ r1 h1 well_formed_start
  obtain ⟨hw2, _, hall2⟩ := use_types_spec ts2 _ r2 h2 well_formed_start
  refine ⟨?_, fun t id h => init_id_registered t r1 id hw1 h,
    fun t id h => init_id_registered t r2 id hw2 h⟩
  have hl1 := local_ids_ok_of_capacity r1 _ hw1 (reached_in_order ts1 r1 h1) _ hcap1
  have hl2 := local_ids_ok_of_capacity r2 _ hw2 (reached_in_order ts2 r2 h2) _ hcap2
  obtain ⟨v1, hv1⟩ := Option.isSome_iff_exists.1 (hall1 D hD1)
  obtain ⟨v2, hv2⟩ := Option.isSome_iff_exists.1 (hall2 D hD2)
  cases T with
  | user cls => simp [convertible_to, construct_config]
  | node C =>
    by_cases hcfg : C.config = D.config
    · cases C with
      | root c => simp [convertible_to, construct_config]
      | sub d s =>
        cases hm : mask_v D.config (.node (.sub d s)) with
        | none =>
          have hcfg2 : s.config = D.config := hcfg
          simp [convertible_to, construct_config, HType.config, hcfg2, hm]
        | some m =>
          rw [convertible_to_derives_of r1 hw1 D hl1 junk1 d s v1 m hv1 hcfg hm,
            convertible_to_derives_of r2 hw2 D hl2 junk2 d s v2 m hv2 hcfg hm]
    · unfold convertible_to
      simp only [construct_config]
      rw [if_neg hcfg, if_neg hcfg]

/-- Witness for C38: `Type_1`, `Type_2` and `Type_1_1` first used in two orders: the packed
id of `Type_1` is 1 in one run and 2 in the other, and in both runs an instance of
`Type_1_1` is convertible to `Type_1`. -/
theorem convertible_to_order_independent_witness :
    s_type_hierarchy__ (registry_after [Type_1, Type_2, Type_1_1]) Type_1 = 1 ∧
    s_type_hierarchy__ (registry_after [Type_2, Type_1_1, Type_1]) Type_1 = 2 ∧
    convertible_to (registry_after [Type_1, Type_2, Type_1_1]) (.node Type_1)
        (construct (registry_after [Type_1, Type_2, Type_1_1]) 0 Type_1_1) = .ok true ∧
    convertible_to (registry_after [Type_1, Type_2, Type_1_1]) (.node Type_1)
        (construct (registry_after [Type_1, Type_2, Type_1_1]) 0 Type_1_1)
      = convertible_to (registry_after [Type_2, Type_1_1, Type_1]) (.node Type_1)
        (construct (registry_after [Type_2, Type_1_1, Type_1]) 7 Type_1_1) :=
  ⟨rfl, rfl, rfl,
    (convertible_to_order_independent [Type_1, Type_2, Type_1_1] [Type_2, Type_1_1, Type_1]
      (registry_after [Type_1, Type_2, Type_1_1]) (registry_after [Type_2, Type_1_1, Type_1])
      Type_1_1 (.node Type_1) 0 7 rfl rfl (by decide) (by decide) (by decide) (by decide)).1⟩

/-- Two threads that race for the first use of one class: whatever the order of the first
steps, one of them initialises the static, the other waits and takes its value, and the
counter goes up once. -/
theorem same_class_race :
    (run Root.config (Machine.initial [1, 1]) [0, 1, 1, 0, 1, 0, 0, 1, 0, 0, 1]).threads
      = [⟨1, .done 1⟩, ⟨1, .done 1⟩] ∧
    (run Root.config (Machine.initial [1, 1]) [0, 1, 1, 0, 1, 0, 0, 1, 0, 0, 1]).counter = 1 ∧
    (run Root.config (Machine.initial [1, 1]) [1, 0, 0, 1, 1, 0, 1, 1, 1, 0]).threads
      = [⟨1, .done 1⟩, ⟨1, .done 1⟩] ∧
    (run Root.config (Machine.initial [1, 1]) [1, 0, 0, 1, 1, 0, 1, 1, 1, 0]).counter = 1 :=
  ⟨by decide, by decide, by decide, by decide⟩

/-- Three threads, two of them on `Type_1` and one on `Type_2`, in the default
configuration: under an interleaved schedule both threads on `Type_1` end with the same id
and the counter has gone up once for each class; the same holds when they run one after
the other. -/
theorem shared_class_threads :
    (run Root.config (Machine.initial [1, 1, 2])
        [0, 1, 0, 0, 1, 0, 0, 0, 1, 2, 2, 2, 2, 2, 2]).threads
      = [⟨1, .done 1⟩, ⟨1, .done 1⟩, ⟨2, .done 2⟩] ∧
    (run Root.config (Machine.initial [1, 1, 2])
        [0, 1, 0, 0, 1, 0, 0, 0, 1, 2, 2, 2, 2, 2, 2]).counter = 2 ∧
    (run Root.config (Machine.initial [1, 1, 2]) (serial 3)).threads
      = [⟨1, .done 1⟩, ⟨1, .done 1⟩, ⟨2, .done 2⟩] :=
  ⟨by decide, by decide, by decide⟩

/-- C38 (failing input): `Type_1` and `Type_1_1` of the default configuration, with the
statics initialised in the order `Type_1`, `Type_1_1`.  For an object of `Type_1_1` that is
constructed after the initialisation, `convertible_to<Type_1>` and `convertible_to<Type_1_1>`
answer `true`.  For an object of `Type_1_1` constructed before it, at program start or after
the static of `Type_1` alone, the constructors store 0 and both answer `false`, although
`Type_1_1` derives from `Type_1`: the outcome depends on where the construction stands in
the order of first use. -/
theorem convertible_to_depends_on_construction_order :
    use_types [Type_1, Type_1_1] Registry.start = .ok (registry_after [Type_1, Type_1_1]) ∧
    Type_1_1.derives_from Type_1 = true ∧
    convertible_to (registry_after [Type_1, Type_1_1]) (.node Type_1)
      (construct (registry_after [Type_1, Type_1_1]) 0 Type_1_1) = .ok true ∧
    convertible_to (registry_after [Type_1, Type_1_1]) (.node Type_1_1)
      (construct (registry_after [Type_1, Type_1_1]) 0 Type_1_1) = .ok true ∧
    (construct Registry.start 0 Type_1_1).type_hierarchy_id__ = 0 ∧
    convertible_to (registry_after [Type_1, Type_1_1]) (.node Type_1)
      (construct Registry.start 0 Type_1_1) = .ok false ∧
    convertible_to (registry_after [Type_1, Type_1_1]) (.node Type_1_1)
      (construct Registry.start 0 Type_1_1) = .ok false ∧
    (construct (registry_after [Type_1]) 0 Type_1_1).type_hierarchy_id__ = 0 ∧
    convertible_to (registry_after [Type_1, Type_1_1]) (.node Type_1)
      (construct (registry_after [Type_1]) 0 Type_1_1) = .ok false :=
  ⟨rfl, rfl, rfl, rfl, rfl, rfl, rfl, rfl, rfl⟩

end type_hierarchy_detail

namespace detail

variable {Src σ R : Type}

theorem matcher_impl_rotate (i : result_type_info) (init : R) (x : Src) (depth : Nat)
    (l : σ → R × σ) (b : List (Handler Src σ R)) (s : σ) (hb : b ≠ []) :
    matcher_impl i init x (depth + 1) (.zero l :: b) s
      = matcher_impl i init x depth (b ++ [.zero l]) s := by
  cases b with
  | nil => exact absurd rfl hb
  | cons l2 ls => rw [matcher_impl]

theorem arity_eq_one_iff (h : Handler Src σ R) :
    h.number_of_arguments = 1 ↔ ∃ T c f, h = .one T c f := by
  cases h with
  | zero f => simp [Handler.number_of_arguments]
  | one T c f => simp [Handler.number_of_arguments]
  | many n => simp [Handler.number_of_arguments]

theorem sum_cases_only (l : List (Handler Src σ R)) (h : cases_only l) :
    (l.map Handler.number_of_arguments).sum = l.length := by
  induction l with
  | nil => rfl
  | cons g t ih =>
    have hg := h g (List.mem_cons_self _ _)
    have ht : cases_only t := fun k hk => h k (List.mem_cons_of_mem _ hk)
    simp [hg, ih ht]; omega

theorem sum_one_default (a b : List (Handler Src σ R)) (l : σ → R × σ)
    (ha : cases_only a) (hb : cases_only b) :
    ((a ++ .zero l :: b).map Handler.number_of_arguments).sum = a.length + b.length := by
  simp [sum_cases_only a ha, sum_cases_only b hb, Handler.number_of_arguments]

theorem fold_add_arities (hs : List (Handler Src σ R)) (hne : hs ≠ []) :
    meta.fold_add (hs.map Handler.number_of_arguments)
      = some (hs.map Handler.number_of_arguments).sum := by
  cases hs with
  | nil => exact absurd rfl hne
  | cons g t => exact meta.fold_add_nat _ _

theorem make_cases_only (v : Bool) (hs : List (Handler Src σ R)) (hne : hs ≠ [])
    (h : cases_only hs) :
    result_type_info.make v hs
      = some { sum_of_arguments := hs.length, size := hs.length, wrapped_is_void := v } := by
  unfold result_type_info.make
  rw [fold_add_arities hs hne, sum_cases_only hs h]
  rfl

theorem make_one_default (v : Bool) (a b : List (Handler Src σ R)) (l : σ → R × σ)
    (ha : cases_only a) (hb : cases_only b) :
    result_type_info.make v (a ++ .zero l :: b)
      = some { sum_of_arguments := a.length + b.length, size := a.length + b.length + 1,
               wrapped_is_void := v } := by
  unfold result_type_info.make
  rw [fold_add_arities (a ++ .zero l :: b) (by simp), sum_one_default a b l ha hb]
  simp
  omega

theorem accepts_cases_only (hs : List (Handler Src σ R)) (hne : hs ≠ [])
    (h : cases_only hs) : matcher_accepts hs = true := by
  unfold matcher_accepts
  rw [fold_add_arities hs hne, sum_cases_only hs h, Bool.and_eq_true, meta.fold_and_iff]
  simp only [beq_self_eq_true, Bool.true_or, and_true]
  intro b hb
  obtain ⟨g, hg, rfl⟩ := List.mem_map.1 hb
  simp [h g hg]

theorem accepts_one_default (a b : List (Handler Src σ R)) (l : σ → R × σ)
    (ha : cases_only a) (hb : cases_only b) : matcher_accepts (a ++ .zero l :: b) = true := by
  unfold matcher_accepts
  rw [fold_add_arities _ (by simp), sum_one_default a b l ha hb, Bool.and_eq_true,
    meta.fold_and_iff]
  simp only [List.length_append, List.length_cons, Bool.or_eq_true, beq_iff_eq]
  refine ⟨?_, Or.inr (by omega)⟩
  intro c hc
  obtain ⟨g, hg, rfl⟩ := List.mem_map.1 hc
  rcases List.mem_append.1 hg with hga | hgb
  · simp [ha g hga]
  · rcases List.mem_cons.1 hgb with rfl | hgb
    · simp [Handler.number_of_arguments]
    · simp [hb g hgb]

theorem sum_le_length (l : List (Handler Src σ R))
    (h : ∀ g ∈ l, g.number_of_arguments ≤ 1) :
    (l.map Handler.number_of_arguments).sum ≤ l.length := by
  induction l with
  | nil => simp
  | cons g t ih =>
    have hg := h g (List.mem_cons_self _ _)
    have := ih (fun k hk => h k (List.mem_cons_of_mem _ hk))
    simp; omega

theorem shape_of_sum (l : List (Handler Src σ R))
    (h : ∀ g ∈ l, g.number_of_arguments ≤ 1) :
    ((l.map Handler.number_of_arguments).sum = l.length → cases_only l) ∧
    ((l.map Handler.number_of_arguments).sum + 1 = l.length →
      ∃ a f b, l = a ++ .zero f :: b ∧ cases_only a ∧ cases_only b) := by
  induction l with
  | nil =>
    refine ⟨fun _ g hg => by simp at hg, fun hs => by simp at hs⟩
  | cons g t ih =>
    have ht : ∀ k ∈ t, k.number_of_arguments ≤ 1 := fun k hk => h k (List.mem_cons_of_mem _ hk)
    have hle := sum_le_length t ht
    have hg := h g (List.mem_cons_self _ _)
    obtain ⟨ih1, ih2⟩ := ih ht
    cases g with
    | many n => simp [Handler.number_of_arguments] at hg
    | zero f =>
      simp only [List.map_cons, List.sum_cons, Handler.number_of_arguments, List.length_cons,
        zero_add]
      refine ⟨fun hs => by omega, fun hs => ⟨[], f, t, rfl, ?_, ih1 (by omega)⟩⟩
      intro k hk; simp at hk
    | one T c f =>
      simp only [List.map_cons, List.sum_cons, Handler.number_of_arguments, List.length_cons]
      constructor
      · intro hs k hk
        rcases List.mem_cons.1 hk with rfl | hk
        · rfl
        · exact ih1 (by omega) k hk
      · intro hs
        obtain ⟨a, f2, b, rfl, ha, hb⟩ := ih2 (by omega)
        refine ⟨.one T c f :: a, f2, b, rfl, ?_, hb⟩
        intro k hk
        rcases List.mem_cons.1 hk with rfl | hk
        · rfl
        · exact ha k hk

/-- What the two static assertions of `matcher` leave: a non-empty list of cases with at
most one default among them. -/
theorem accepted_shape (hs : List (Handler Src σ R)) (h : matcher_accepts hs = true) :
    hs ≠ [] ∧ (cases_only hs ∨
      ∃ a f b, hs = a ++ .zero f :: b ∧ cases_only a ∧ cases_only b) := by
  unfold matcher_accepts at h
  rw [Bool.and_eq_true, meta.fold_and_iff] at h
  obtain ⟨h1, h2⟩ := h
  have hne : hs ≠ [] := by
    rintro rfl
    simp [meta.fold_add] at h2
  refine ⟨hne, ?_⟩
  rw [fold_add_arities hs hne] at h2
  simp only [Bool.or_eq_true, beq_iff_eq] at h2
  have hle : ∀ g ∈ hs, g.number_of_arguments ≤ 1 := by
    intro g hg
    have := h1 _ (List.mem_map.2 ⟨g, hg, rfl⟩)
    simp only [Bool.or_eq_true, beq_iff_eq] at this
    omega
  obtain ⟨s1, s2⟩ := shape_of_sum hs hle
  have hlen : 0 < hs.length := List.length_pos.2 hne
  rcases h2 with h2 | h2
  · exact Or.inl (s1 h2)
  · exact Or.inr (s2 (by omega))


theorem all_fail_cons (x : Src) (g : Handler Src σ R) (t : List (Handler Src σ R)) :
    all_fail x (g :: t) ↔ g.casts x = false ∧ all_fail x t := by
  unfold all_fail
  exact List.forall_mem_cons

theorem first_hit_eq_none (x : Src) (l : List (Handler Src σ R)) :
    first_hit x l = none ↔ all_fail x l := by
  induction l with
  | nil => simp [first_hit, all_fail]
  | cons g t ih =>
    rw [all_fail_cons]
    cases g with
    | zero f => rw [first_hit, ih]; simp [Handler.casts]
    | many n => rw [first_hit, ih]; simp [Handler.casts]
    | one T c f =>
      rw [first_hit]
      cases hc : c x with
      | none => simp [Handler.casts, hc, ih]
      | some p => simp [Handler.casts, hc]

theorem first_hit_decomp (x : Src) (pre post : List (Handler Src σ R)) (T : Type)
    (c : Src → Option T) (f : T → σ → R × σ) (p : T)
    (hpre : all_fail x pre) (hc : c x = some p) :
    first_hit x (pre ++ .one T c f :: post) = some (f p) := by
  induction pre with
  | nil => simp [first_hit, hc]
  | cons g t ih =>
    have ht : all_fail x t := fun k hk => hpre k (List.mem_cons_of_mem _ hk)
    have hg := hpre g (List.mem_cons_self _ _)
    cases g with
    | zero f2 => simpa [first_hit] using ih ht
    | many n => simpa [first_hit] using ih ht
    | one T2 c2 f2 =>
      cases hc2 : c2 x with
      | none => simpa [first_hit, hc2] using ih ht
      | some p2 => simp [Handler.casts, hc2] at hg

theorem first_hit_skip_default (x : Src) (a b : List (Handler Src σ R)) (l : σ → R × σ) :
    first_hit x (a ++ .zero l :: b) = first_hit x (a ++ b) := by
  induction a with
  | nil => simp [first_hit]
  | cons g t ih =>
    cases g with
    | zero f2 => simpa [first_hit] using ih
    | many n => simpa [first_hit] using ih
    | one T2 c2 f2 =>
      cases hc2 : c2 x with
      | none => simpa [first_hit, hc2] using ih
      | some p2 => simp [first_hit, hc2]

/-- Dispatch over cases only. -/
theorem matcher_impl_cases (i : result_type_info) (init : R) (x : Src)
    (hs : List (Handler Src σ R)) (depth : Nat) (s : σ)
    (h1 : cases_only hs) (hd : hs.length + 1 ≤ depth) :
    matcher_impl i init x depth hs s =
      match first_hit x hs with
      | some g => .ok (invoker i (g s))
      | none => .ok (value_init i init, s) := by
  induction hs generalizing depth with
  | nil =>
    obtain ⟨k, rfl⟩ : ∃ k, depth = k + 1 := ⟨depth - 1, by simp at hd; omega⟩
    simp [matcher_impl, first_hit]
  | cons g t ih =>
    obtain ⟨k, rfl⟩ : ∃ k, depth = k + 1 := ⟨depth - 1, by simp at hd; omega⟩
    have ht : cases_only t := fun j hj => h1 j (List.mem_cons_of_mem _ hj)
    obtain ⟨T, c, f, rfl⟩ := (arity_eq_one_iff g).1 (h1 g (List.mem_cons_self _ _))
    cases hc : c x with
    | none =>
      rw [matcher_impl, hc]
      simp only [first_hit, hc]
      exact ih k ht (by simp at hd; omega)
    | some p => simp [matcher_impl, first_hit, hc]

/-- Dispatch over cases followed by the default. -/
theorem matcher_impl_cases_then_default (i : result_type_info) (init : R) (x : Src)
    (b : List (Handler Src σ R)) (l : σ → R × σ) (depth : Nat) (s : σ)
    (h1 : cases_only b) (hd : b.length + 1 ≤ depth) :
    matcher_impl i init x depth (b ++ [.zero l]) s
      = .ok (invoker i ((first_hit x b).getD l s)) := by
  induction b generalizing depth with
  | nil =>
    obtain ⟨k, rfl⟩ : ∃ k, depth = k + 1 := ⟨depth - 1, by simp at hd; omega⟩
    simp [matcher_impl, first_hit]
  | cons g t ih =>
    obtain ⟨k, rfl⟩ : ∃ k, depth = k + 1 := ⟨depth - 1, by simp at hd; omega⟩
    have ht : cases_only t := fun j hj => h1 j (List.mem_cons_of_mem _ hj)
    obtain ⟨T, c, f, rfl⟩ := (arity_eq_one_iff g).1 (h1 g (List.mem_cons_self _ _))
    cases hc : c x with
    | none =>
      rw [List.cons_append, matcher_impl, hc]
      simp only [first_hit, hc]
      exact ih k ht (by simp at hd; omega)
    | some p => simp [matcher_impl, first_hit, hc]

/-- Dispatch over cases with one default anywhere among them. -/
theorem matcher_impl_with_default (i : result_type_info) (init : R) (x : Src)
    (a b : List (Handler Src σ R)) (l : σ → R × σ) (depth : Nat) (s : σ)
    (ha : cases_only a) (hb : cases_only b) (hd : a.length + b.length + 2 ≤ depth) :
    matcher_impl i init x depth (a ++ .zero l :: b) s
      = .ok (invoker i ((first_hit x (a ++ b)).getD l s)) := by
  induction a generalizing depth with
  | nil =>
    obtain ⟨k, rfl⟩ : ∃ k, depth = k + 1 := ⟨depth - 1, by omega⟩
    cases b with
    | nil => simp [matcher_impl, first_hit]
    | cons l2 ls =>
      rw [List.nil_append, matcher_impl_rotate i init x k l (l2 :: ls) s (by simp)]
      exact matcher_impl_cases_then_default i init x (l2 :: ls) l k s hb (by simp at hd ⊢; omega)
  | cons g t ih =>
    obtain ⟨k, rfl⟩ : ∃ k, depth = k + 1 := ⟨depth - 1, by omega⟩
    have ht : cases_only t := fun j hj => ha j (List.mem_cons_of_mem _ hj)
    obtain ⟨T, c, f, rfl⟩ := (arity_eq_one_iff g).1 (ha g (List.mem_cons_self _ _))
    cases hc : c x with
    | none =>
      rw [List.cons_append, matcher_impl, hc]
      simp only [List.cons_append, first_hit, hc]
      exact ih k ht (by simp at hd; omega)
    | some p => simp [matcher_impl, first_hit, hc]


/-- C3: in a handler list accepted by `matcher`, the first one-argument handler (in
declaration order) whose cast of the value succeeds is the one invoked, and the matcher
returns that handler's result in the matcher's result type, whatever handlers follow it
(a later, more derived case included). -/
theorem matcher_first_case_wins (depth : Nat) (wrapped_is_void : Bool) (init : R)
    (pre post : List (Handler Src σ R)) (T : Type) (c : Src → Option T)
    (f : T → σ → R × σ) (x : Src) (p : T) (s : σ)
    (hacc : matcher_accepts (pre ++ .one T c f :: post) = true)
    (hpre : ∀ h ∈ pre, h.casts x = false)
    (hc : c x = some p)
    (hd : (pre ++ .one T c f :: post).length + 1 ≤ depth) :
    ∃ i, result_type_info.make wrapped_is_void (pre ++ .one T c f :: post) = some i ∧
      matcher depth wrapped_is_void init (pre ++ .one T c f :: post) x s
        = .ok (invoker i (f p s)) := by
  have hfirst := first_hit_decomp x pre post T c f p hpre hc
  generalize pre ++ Handler.one T c f :: post = hs at hacc hd hfirst ⊢
  obtain ⟨hne, hshape⟩ := accepted_shape hs hacc
  rcases hshape with h1 | ⟨a, l, b, rfl, ha, hb⟩
  · refine ⟨_, make_cases_only wrapped_is_void hs hne h1, ?_⟩
    unfold matcher
    rw [hacc, make_cases_only wrapped_is_void hs hne h1]
    simp only [if_true]
    rw [matcher_impl_cases _ init x hs depth s h1 hd, hfirst]
  · refine ⟨_, make_one_default wrapped_is_void a b l ha hb, ?_⟩
    unfold matcher
    rw [hacc, make_one_default wrapped_is_void a b l ha hb]
    simp only [if_true]
    rw [matcher_impl_with_default _ init x a b l depth s ha hb (by simp at hd; omega)]
    rw [first_hit_skip_default] at hfirst
    rw [hfirst]; rfl

/-- Witness for C3: with the base case listed before the case of `derived1`, a `derived1`
object is dispatched to the base case. -/
theorem matcher_first_case_wins_witness :
    matcher 3 false 0 [base_case, derived1_case] sample_object.derived1 []
      = .ok (.optional (some 0), ["base"]) := by
  obtain ⟨i, hi, hm⟩ := matcher_first_case_wins 3 false (0 : Int) [] [derived1_case]
    sample_object (fun o => some o) (fun _ s => (0, s ++ ["base"]))
    sample_object.derived1 sample_object.derived1 ([] : List String)
    rfl (by simp) rfl (by decide)
  cases hi
  exact hm

/-- C5: without a zero-argument handler and with handlers returning a non-void type, the
matcher returns an optional; it is empty exactly when no handler's cast succeeds, and
otherwise holds the return value of the invoked (first matching) handler. -/
theorem matcher_optional_result (depth : Nat) (init : R) (hs : List (Handler Src σ R))
    (x : Src) (s : σ)
    (hne : hs ≠ []) (h1 : ∀ h ∈ hs, h.number_of_arguments = 1)
    (hd : hs.length + 1 ≤ depth) :
    ∃ o s1, matcher depth false init hs x s = .ok (.optional o, s1) ∧
      (o = none ↔ ∀ h ∈ hs, h.casts x = false) ∧
      (∀ (pre post : List (Handler Src σ R)) (T : Type) (c : Src → Option T)
          (f : T → σ → R × σ) (p : T),
        hs = pre ++ .one T c f :: post → (∀ h ∈ pre, h.casts x = false) → c x = some p →
        o = some (f p s).1 ∧ s1 = (f p s).2) := by
  have hm : matcher depth false init hs x s =
      match first_hit x hs with
      | some g => .ok (.optional (some (g s).1), (g s).2)
      | none => .ok (.optional none, s) := by
    unfold matcher
    rw [accepts_cases_only hs hne h1, make_cases_only false hs hne h1]
    simp only [if_true]
    rw [matcher_impl_cases _ init x hs depth s h1 hd]
    cases first_hit x hs <;> simp [invoker, value_init, result_type_info.result_t]
  cases hf : first_hit x hs with
  | none =>
    rw [hf] at hm
    refine ⟨none, s, hm, ?_, ?_⟩
    · simpa [all_fail] using (first_hit_eq_none x hs).1 hf
    · intro pre post T c f p hdec hpre hc
      rw [hdec, first_hit_decomp x pre post T c f p hpre hc] at hf
      cases hf
  | some g =>
    rw [hf] at hm
    refine ⟨some (g s).1, (g s).2, hm, ?_, ?_⟩
    · constructor
      · intro h; cases h
      · intro h
        rw [(first_hit_eq_none x hs).2 h] at hf
        cases hf
    · intro pre post T c f p hdec hpre hc
      rw [hdec, first_hit_decomp x pre post T c f p hpre hc] at hf
      cases hf
      exact ⟨rfl, rfl⟩

/-- Witness for C5: the matcher of match.test.cpp returns `value2 + 2` in an optional for a
`derived2` object. -/
theorem matcher_optional_result_witness :
    matcher 3 false 0 [derived1_case, derived2_case] sample_object.derived2 []
      = .ok (.optional (some 7359), ["derived2"]) := by
  obtain ⟨o, s1, hm, _, hval⟩ := matcher_optional_result 3 (0 : Int)
    [derived1_case, derived2_case] sample_object.derived2 ([] : List String)
    (by simp) (by simp [derived1_case, derived2_case, Handler.number_of_arguments])
    (by decide)
  obtain ⟨ho, hs⟩ := hval [derived1_case] [] Unit
    (fun o => if o = .derived2 then some () else none)
    (fun _ s => (7359, s ++ ["derived2"])) () rfl
    (by simp [derived1_case, Handler.casts]) rfl
  rw [hm, ho, hs]
  rfl

/-- C6: with exactly one zero-argument handler and a non-void result type, the matcher
returns the default handler's value when no cast succeeds, and otherwise the value of the
first matching handler, the default not being run. -/
theorem matcher_default_result (depth : Nat) (init : R) (a b : List (Handler Src σ R))
    (l : σ → R × σ) (x : Src) (s : σ)
    (ha : ∀ h ∈ a, h.number_of_arguments = 1) (hb : ∀ h ∈ b, h.number_of_arguments = 1)
    (hd : (a ++ .zero l :: b).length + 1 ≤ depth) :
    ((∀ h ∈ a ++ b, h.casts x = false) →
      matcher depth false init (a ++ .zero l :: b) x s = .ok (.wrapped (l s).1, (l s).2)) ∧
    (∀ (pre post : List (Handler Src σ R)) (T : Type) (c : Src → Option T)
        (f : T → σ → R × σ) (p : T),
      a ++ .zero l :: b = pre ++ .one T c f :: post →
      (∀ h ∈ pre, h.casts x = false) → c x = some p →
      matcher depth false init (a ++ .zero l :: b) x s
        = .ok (.wrapped (f p s).1, (f p s).2)) := by
  have hm : matcher depth false init (a ++ .zero l :: b) x s =
      .ok (.wrapped ((first_hit x (a ++ b)).getD l s).1,
        ((first_hit x (a ++ b)).getD l s).2) := by
    unfold matcher
    rw [accepts_one_default a b l ha hb, make_one_default false a b l ha hb]
    simp only [if_true]
    rw [matcher_impl_with_default _ init x a b l depth s ha hb (by simp at hd; omega)]
    simp [invoker, result_type_info.result_t]
  constructor
  · intro hall
    rw [hm, (first_hit_eq_none x (a ++ b)).2 hall]
    rfl
  · intro pre post T c f p hdec hpre hc
    rw [hm, ← first_hit_skip_default x a b l, hdec,
      first_hit_decomp x pre post T c f p hpre hc]
    rfl

/-- Witness for C6: `matcher(case derived1, case derived2, []{ return -1; })` applied to a
`derived3` object and to a `derived2` object. -/
theorem matcher_default_result_witness :
    matcher 4 false 0 [derived1_case, derived2_case, .zero minus_one]
        sample_object.derived3 [] = .ok (.wrapped (-1), []) ∧
    matcher 4 false 0 [derived1_case, derived2_case, .zero minus_one]
        sample_object.derived2 [] = .ok (.wrapped 7359, ["derived2"]) :=
  ⟨(matcher_default_result 4 0 [derived1_case, derived2_case] [] minus_one
      sample_object.derived3 []
      (by simp [derived1_case, derived2_case, Handler.number_of_arguments]) (by simp)
      (by decide)).1 (by simp [derived1_case, derived2_case, Handler.casts]),
   (matcher_default_result 4 0 [derived1_case, derived2_case] [] minus_one
      sample_object.derived2 []
      (by simp [derived1_case, derived2_case, Handler.number_of_arguments]) (by simp)
      (by decide)).2 [derived1_case] [.zero minus_one] Unit
        (fun o => if o = .derived2 then some () else none)
        (fun _ s => (7359, s ++ ["derived2"])) () rfl
        (by simp [derived1_case, Handler.casts]) rfl⟩

/-- C7: when every handler returns `void` and there is no default, the matcher returns
`true` after running the first handler whose cast succeeds, and `false`, running nothing,
when none succeeds. -/
theorem matcher_void_result (depth : Nat) (hs : List (Handler Src σ Unit))
    (x : Src) (s : σ)
    (hne : hs ≠ []) (h1 : ∀ h ∈ hs, h.number_of_arguments = 1)
    (hd : hs.length + 1 ≤ depth) :
    ((∀ h ∈ hs, h.casts x = false) →
      matcher depth true () hs x s = .ok (.boolean false, s)) ∧
    (∀ (pre post : List (Handler Src σ Unit)) (T : Type) (c : Src → Option T)
        (f : T → σ → Unit × σ) (p : T),
      hs = pre ++ .one T c f :: post → (∀ h ∈ pre, h.casts x = false) → c x = some p →
      matcher depth true () hs x s = .ok (.boolean true, (f p s).2)) := by
  have hm : matcher depth true () hs x s =
      match first_hit x hs with
      | some g => .ok (.boolean true, (g s).2)
      | none => .ok (.boolean false, s) := by
    unfold matcher
    rw [accepts_cases_only hs hne h1, make_cases_only true hs hne h1]
    simp only [if_true]
    rw [matcher_impl_cases _ () x hs depth s h1 hd]
    cases first_hit x hs <;> simp [invoker, value_init, result_type_info.result_t]
  constructor
  · intro hall
    rw [hm, (first_hit_eq_none x hs).2 hall]
  · intro pre post T c f p hdec hpre hc
    rw [hm, hdec, first_hit_decomp x pre post T c f p hpre hc]

/-- Witness for C7: a single `void` case on `derived1`, applied to a `derived1` object and
to a `derived2` object. -/
theorem matcher_void_result_witness :
    matcher 2 true () [derived1_void_case] sample_object.derived1 []
        = .ok (.boolean true, ["derived1"]) ∧
    matcher 2 true () [derived1_void_case] sample_object.derived2 []
        = .ok (.boolean false, []) :=
  ⟨(matcher_void_result 2 [derived1_void_case] sample_object.derived1 [] (by simp)
      (by simp [derived1_void_case, Handler.number_of_arguments]) (by decide)).2
      [] [] Unit (fun o => if o = .derived1 then some () else none)
      (fun _ s => ((), s ++ ["derived1"])) () rfl (by simp) rfl,
   (matcher_void_result 2 [derived1_void_case] sample_object.derived2 [] (by simp)
      (by simp [derived1_void_case, Handler.number_of_arguments]) (by decide)).1
      (by simp [derived1_void_case, Handler.casts])⟩

/-- C8: in a handler list with exactly one zero-argument handler, moving that handler to any
other position, the one-argument handlers keeping their order, gives a matcher that returns
the same result and leaves the same state (so runs the same handler) for every value. -/
theorem matcher_default_position (depth : Nat) (wrapped_is_void : Bool) (init : R)
    (a b a2 b2 : List (Handler Src σ R)) (l : σ → R × σ) (x : Src) (s : σ)
    (hab : a ++ b = a2 ++ b2) (h1 : ∀ h ∈ a ++ b, h.number_of_arguments = 1)
    (hd : (a ++ .zero l :: b).length + 1 ≤ depth) :
    matcher depth wrapped_is_void init (a ++ .zero l :: b) x s
      = matcher depth wrapped_is_void init (a2 ++ .zero l :: b2) x s ∧
    ∃ out, matcher depth wrapped_is_void init (a ++ .zero l :: b) x s = .ok out := by
  have hlen : a.length + b.length = a2.length + b2.length := by
    have := congrArg List.length hab
    simpa using this
  have ha : cases_only a := fun g hg => h1 g (List.mem_append_left _ hg)
  have hb : cases_only b := fun g hg => h1 g (List.mem_append_right _ hg)
  have ha2 : cases_only a2 := fun g hg => h1 g (hab ▸ List.mem_append_left _ hg)
  have hb2 : cases_only b2 := fun g hg => h1 g (hab ▸ List.mem_append_right _ hg)
  have e1 : matcher depth wrapped_is_void init (a ++ .zero l :: b) x s =
      .ok (invoker { sum_of_arguments := a.length + b.length,
                     size := a.length + b.length + 1, wrapped_is_void := wrapped_is_void }
            ((first_hit x (a ++ b)).getD l s)) := by
    unfold matcher
    rw [accepts_one_default a b l ha hb, make_one_default wrapped_is_void a b l ha hb]
    simp only [if_true]
    rw [matcher_impl_with_default _ init x a b l depth s ha hb (by simp at hd; omega)]
  have e2 : matcher depth wrapped_is_void init (a2 ++ .zero l :: b2) x s =
      .ok (invoker { sum_of_arguments := a2.length + b2.length,
                     size := a2.length + b2.length + 1, wrapped_is_void := wrapped_is_void }
            ((first_hit x (a2 ++ b2)).getD l s)) := by
    unfold matcher
    rw [accepts_one_default a2 b2 l ha2 hb2, make_one_default wrapped_is_void a2 b2 l ha2 hb2]
    simp only [if_true]
    rw [matcher_impl_with_default _ init x a2 b2 l depth s ha2 hb2
      (by simp at hd; omega)]
  refine ⟨?_, _, e1⟩
  rw [e1, e2, hab, hlen]

/-- Witness for C8: `otherwise(-1)` first (match.test.cpp,
`otherwise_value_can_be_at_any_position`) against `otherwise(-1)` last. -/
theorem matcher_default_position_witness :
    matcher 4 false 0 [otherwise (-1), derived1_case, derived2_case]
        sample_object.derived2 ([] : List String)
      = matcher 4 false 0 [derived1_case, derived2_case, otherwise (-1)]
        sample_object.derived2 [] ∧
    ∃ out, matcher 4 false 0 [otherwise (-1), derived1_case, derived2_case]
        sample_object.derived2 ([] : List String) = .ok out :=
  matcher_default_position 4 false 0 [] [derived1_case, derived2_case]
    [derived1_case, derived2_case] [] (fun s => (-1, s)) sample_object.derived2 []
    rfl (by simp [derived1_case, derived2_case, Handler.number_of_arguments]) (by decide)

theorem invoker_kind (i : result_type_info) (out : R × σ) :
    (invoker i out).1.kind = i.result_t := by
  unfold invoker
  cases h : i.result_t <;> rfl

theorem value_init_kind (i : result_type_info) (init : R) :
    (value_init i init).kind = i.result_t := by
  unfold value_init
  cases h : i.result_t <;> rfl

/-- C20: for a handler list accepted by `matcher` the result is a boolean when the handlers
return `void`; otherwise an optional when no handler is a zero-argument handler, which is
when the arities sum to the number of handlers; otherwise a plain value. -/
theorem matcher_result_kind (depth : Nat) (wrapped_is_void : Bool) (init : R)
    (hs : List (Handler Src σ R)) (x : Src) (s : σ)
    (hacc : matcher_accepts hs = true) (hd : hs.length + 1 ≤ depth) :
    ∃ i res s1, result_type_info.make wrapped_is_void hs = some i ∧
      matcher depth wrapped_is_void init hs x s = .ok (res, s1) ∧
      res.kind = i.result_t ∧
      (i.sum_of_arguments = i.size ↔ ∀ h ∈ hs, h.number_of_arguments ≠ 0) ∧
      (wrapped_is_void = true → i.result_t = .boolean) ∧
      (wrapped_is_void = false → (∀ h ∈ hs, h.number_of_arguments ≠ 0) →
        i.result_t = .optional) ∧
      (wrapped_is_void = false → (∃ h ∈ hs, h.number_of_arguments = 0) →
        i.result_t = .wrapped) := by
  obtain ⟨hne, hshape⟩ := accepted_shape hs hacc
  rcases hshape with h1 | ⟨a, l, b, rfl, ha, hb⟩
  · have hall : ∀ h ∈ hs, h.number_of_arguments ≠ 0 := fun h hh => by
      rw [h1 h hh]; exact one_ne_zero
    have hm : matcher depth wrapped_is_void init hs x s =
        matcher_impl { sum_of_arguments := hs.length, size := hs.length,
                       wrapped_is_void := wrapped_is_void } init x depth hs s := by
      unfold matcher
      rw [hacc, make_cases_only wrapped_is_void hs hne h1]
      rfl
    rw [matcher_impl_cases _ init x hs depth s h1 hd] at hm
    have hk : ∀ res s1, matcher depth wrapped_is_void init hs x s = .ok (res, s1) →
        res.kind = (result_type_info.mk hs.length hs.length wrapped_is_void).result_t := by
      intro res s1 hres
      rw [hm] at hres
      cases hf : first_hit x hs with
      | none =>
        rw [hf] at hres
        cases hres
        exact value_init_kind _ _
      | some g =>
        rw [hf] at hres
        simp only [Except.ok.injEq] at hres
        rw [← invoker_kind _ (g s), hres]
    have hex : ∃ res s1, matcher depth wrapped_is_void init hs x s = .ok (res, s1) := by
      rw [hm]
      cases first_hit x hs with
      | none => exact ⟨_, _, rfl⟩
      | some g => exact ⟨_, _, rfl⟩
    obtain ⟨res, s1, hres⟩ := hex
    refine ⟨_, res, s1, make_cases_only wrapped_is_void hs hne h1, hres, hk res s1 hres,
      ⟨fun _ => hall, fun _ => rfl⟩, ?_, ?_, ?_⟩
    · intro hv; simp [result_type_info.result_t, hv]
    · intro hv _; simp [result_type_info.result_t, hv]
    · rintro hv ⟨h, hh, h0⟩
      exact absurd h0 (hall h hh)
  · have hzero : ∃ h ∈ a ++ Handler.zero l :: b, h.number_of_arguments = 0 :=
      ⟨.zero l, by simp, rfl⟩
    have hm : matcher depth wrapped_is_void init (a ++ .zero l :: b) x s =
        .ok (invoker { sum_of_arguments := a.length + b.length,
                       size := a.length + b.length + 1,
                       wrapped_is_void := wrapped_is_void }
              ((first_hit x (a ++ b)).getD l s)) := by
      unfold matcher
      rw [hacc, make_one_default wrapped_is_void a b l ha hb]
      simp only [if_true]
      rw [matcher_impl_with_default _ init x a b l depth s ha hb (by simp at hd; omega)]
    refine ⟨_, _, _, make_one_default wrapped_is_void a b l ha hb, hm, invoker_kind _ _,
      ⟨fun h => ?_, fun h => ?_⟩, ?_, ?_, ?_⟩
    · simp only at h; omega
    · obtain ⟨g, hg, h0⟩ := hzero
      exact absurd h0 (h g hg)
    · intro hv; simp [result_type_info.result_t, hv]
    · intro hv hall
      obtain ⟨g, hg, h0⟩ := hzero
      exact absurd h0 (hall g hg)
    · intro hv _
      simp [result_type_info.result_t, hv]

/-- Witness for C20: the matcher of match.test.cpp with `otherwise(-1)` yields a plain
`int`, the one without default an optional. -/
theorem matcher_result_kind_witness :
    (∃ i res s1,
      result_type_info.make false [derived1_case, derived2_case, otherwise (-1)] = some i ∧
      matcher 4 false 0 [derived1_case, derived2_case, otherwise (-1)]
        sample_object.derived3 ([] : List String) = .ok (res, s1) ∧
      res.kind = i.result_t ∧ i.result_t = .wrapped) ∧
    (∃ i, result_type_info.make false [derived1_case, derived2_case] = some i ∧
      i.result_t = .optional) := by
  obtain ⟨i, res, s1, hi, hm, hk, _, _, _, hw⟩ := matcher_result_kind 4 false (0 : Int)
    [derived1_case, derived2_case, otherwise (-1)] sample_object.derived3
    ([] : List String) rfl (by decide)
  exact ⟨⟨i, res, s1, hi, hm, hk, hw rfl ⟨otherwise (-1), by simp, rfl⟩⟩, ⟨_, rfl, rfl⟩⟩

/-- Dropping the report of `matcher_impl_traced` gives `matcher_impl`. -/
theorem matcher_impl_traced_erase (i : result_type_info) (init : R) (x : Src) (depth : Nat) :
    ∀ (l : List (Nat × Handler Src σ R)) (s : σ),
    (match matcher_impl_traced i init x depth l s with
      | .ok (out, _) => .ok out
      | .error e => .error e) = matcher_impl i init x depth (l.map Prod.snd) s := by
  induction depth with
  | zero =>
    intro l s
    simp [matcher_impl_traced, matcher_impl]
  | succ depth ih =>
    intro l s
    cases l with
    | nil => simp [matcher_impl_traced, matcher_impl]
    | cons p t =>
      obtain ⟨k, h⟩ := p
      cases h with
      | many n => simp [matcher_impl_traced, matcher_impl]
      | zero f =>
        cases t with
        | nil => simp [matcher_impl_traced, matcher_impl]
        | cons p2 t2 =>
          have := ih (p2 :: t2 ++ [(k, .zero f)]) s
          simp only [List.map_cons, List.map_append, List.map_nil] at this ⊢
          rw [matcher_impl_traced, matcher_impl]
          exact this
      | one T c f =>
        simp only [List.map_cons]
        rw [matcher_impl_traced, matcher_impl]
        cases hc : c x with
        | some p => simp
        | none =>
          simp only
          rw [← ih t s]
          cases matcher_impl_traced i init x depth t s with
          | error e => rfl
          | ok v => rfl

/-- Dropping the report of `matcher_traced` gives `matcher`. -/
theorem matcher_traced_erase (depth : Nat) (wrapped_is_void : Bool) (init : R)
    (hs : List (Handler Src σ R)) (x : Src) (s : σ) :
    (match matcher_traced depth wrapped_is_void init hs x s with
      | .ok (out, _) => .ok out
      | .error e => .error e) = matcher depth wrapped_is_void init hs x s := by
  unfold matcher_traced matcher
  by_cases hacc : matcher_accepts hs = true
  · rw [if_pos hacc, if_pos hacc]
    cases hm : result_type_info.make wrapped_is_void hs with
    | none => rfl
    | some i =>
      simp only
      rw [matcher_impl_traced_erase, List.enum_map_snd]
  · rw [if_neg hacc, if_neg hacc]

theorem expected_events_calls_le (x : Src) (l : List (Nat × Handler Src σ R)) :
    ∀ d, ((expected_events x l d).filter Event.is_call).length ≤ 1 := by
  induction l with
  | nil =>
    intro d
    cases d <;> simp [expected_events, Event.is_call]
  | cons p t ih =>
    intro d
    obtain ⟨k, h⟩ := p
    cases h with
    | zero f => simpa [expected_events] using ih (some k)
    | many n => simpa [expected_events] using ih d
    | one T c f =>
      rw [expected_events]
      cases hc : c x with
      | some v => simp [Event.is_call]
      | none => simpa [Event.is_call] using ih d

theorem expected_events_calls_default (x : Src) (l : List (Nat × Handler Src σ R)) :
    ∀ d, (d.isSome = true ∨ ∃ p ∈ l, p.2.number_of_arguments = 0) →
      ((expected_events x l d).filter Event.is_call).length = 1 := by
  induction l with
  | nil =>
    intro d hd
    cases d with
    | none => simp at hd
    | some v => simp [expected_events, Event.is_call]
  | cons p t ih =>
    intro d hd
    obtain ⟨k, h⟩ := p
    cases h with
    | zero f => simpa [expected_events] using ih (some k) (Or.inl rfl)
    | many n =>
      have : d.isSome = true ∨ ∃ p ∈ t, p.2.number_of_arguments = 0 := by
        rcases hd with hd | ⟨p, hp, h0⟩
        · exact Or.inl hd
        · rcases List.mem_cons.1 hp with rfl | hp
          · simp [Handler.number_of_arguments] at h0
          · exact Or.inr ⟨p, hp, h0⟩
      simpa [expected_events] using ih d this
    | one T c f =>
      rw [expected_events]
      cases hc : c x with
      | some v => simp [Event.is_call]
      | none =>
        have : d.isSome = true ∨ ∃ p ∈ t, p.2.number_of_arguments = 0 := by
          rcases hd with hd | ⟨p, hp, h0⟩
          · exact Or.inl hd
          · rcases List.mem_cons.1 hp with rfl | hp
            · simp [Handler.number_of_arguments] at h0
            · exact Or.inr ⟨p, hp, h0⟩
        simpa [Event.is_call] using ih d this

theorem expected_events_call_last (x : Src) (l : List (Nat × Handler Src σ R)) :
    ∀ d k, Event.call k ∈ expected_events x l d →
      (expected_events x l d).getLast? = some (.call k) := by
  induction l with
  | nil =>
    intro d k hk
    cases d with
    | none => simp [expected_events] at hk
    | some v =>
      simp only [expected_events, List.mem_singleton, Event.call.injEq] at hk
      simp [expected_events, hk]
  | cons p t ih =>
    intro d k hk
    obtain ⟨j, h⟩ := p
    cases h with
    | zero f =>
      rw [expected_events] at hk ⊢
      exact ih _ k hk
    | many n =>
      rw [expected_events] at hk ⊢
      exact ih _ k hk
    | one T c f =>
      rw [expected_events] at hk ⊢
      cases hc : c x with
      | some v =>
        rw [hc] at hk
        simp only
        rcases List.mem_cons.1 hk with hk | hk
        · cases hk
        · rw [List.mem_singleton] at hk
          cases hk
          rfl
      | none =>
        rw [hc] at hk
        simp only
        rcases List.mem_cons.1 hk with hk | hk
        · cases hk
        · have := ih d k hk
          cases he : expected_events x t d with
          | nil => rw [he] at this; simp at this
          | cons e es =>
            rw [he] at this
            rw [List.getLast?_cons_cons]
            exact this

/-- The casts that are attempted: exactly those of the one-argument handlers before which no
cast has succeeded. -/
theorem expected_events_cast_iff (x : Src) (hs : List (Handler Src σ R)) :
    ∀ (n : Nat) (d : Option Nat) (k : Nat),
      Event.cast k ∈ expected_events x (List.enumFrom n hs) d ↔
        n ≤ k ∧ ∃ h, hs[k - n]? = some h ∧ h.number_of_arguments = 1 ∧
          ∀ j g, j < k - n → hs[j]? = some g → g.casts x = false := by
  induction hs with
  | nil =>
    intro n d k
    cases d <;> simp [expected_events]
  | cons g0 t ih =>
    intro n d k
    rw [List.enumFrom_cons]
    have hstep : ∀ (hg0 : g0.casts x = false) (hne : g0.number_of_arguments ≠ 1),
        ((n + 1 ≤ k ∧ ∃ h, t[k - (n + 1)]? = some h ∧ h.number_of_arguments = 1 ∧
          ∀ j g, j < k - (n + 1) → t[j]? = some g → g.casts x = false) ↔
        (n ≤ k ∧ ∃ h, (g0 :: t)[k - n]? = some h ∧ h.number_of_arguments = 1 ∧
          ∀ j g, j < k - n → (g0 :: t)[j]? = some g → g.casts x = false)) := by
      intro hg0 hne
      constructor
      · rintro ⟨hk, h, hh, ha, hall⟩
        refine ⟨by omega, h, ?_, ha, ?_⟩
        · have : k - n = (k - (n + 1)) + 1 := by omega
          rw [this, List.getElem?_cons_succ]
          exact hh
        · intro j g hj hg
          cases j with
          | zero =>
            simp only [List.getElem?_cons_zero, Option.some.injEq] at hg
            rw [← hg]; exact hg0
          | succ j =>
            rw [List.getElem?_cons_succ] at hg
            exact hall j g (by omega) hg
      · rintro ⟨hk, h, hh, ha, hall⟩
        have hkn : k ≠ n := by
          rintro rfl
          simp only [Nat.sub_self, List.getElem?_cons_zero, Option.some.injEq] at hh
          rw [← hh] at ha
          exact hne ha
        refine ⟨by omega, h, ?_, ha, ?_⟩
        · have : k - n = (k - (n + 1)) + 1 := by omega
          rw [this, List.getElem?_cons_succ] at hh
          exact hh
        · intro j g hj hg
          exact hall (j + 1) g (by omega) (by rw [List.getElem?_cons_succ]; exact hg)
    cases g0 with
    | zero f =>
      rw [expected_events, ih (n + 1) (some n) k]
      exact hstep rfl (by simp [Handler.number_of_arguments])
    | many m =>
      rw [expected_events, ih (n + 1) d k]
      exact hstep rfl (by simp [Handler.number_of_arguments])
    | one T c f =>
      rw [expected_events]
      cases hc : c x with
      | some v =>
        simp only [List.mem_cons, Event.cast.injEq, List.mem_singleton, List.not_mem_nil,
          or_false]
        constructor
        · rintro (rfl | h)
          · exact ⟨le_refl _, .one T c f, by simp, rfl, fun j g hj => by omega⟩
          · cases h
        · rintro ⟨hk, h, hh, ha, hall⟩
          refine Or.inl ?_
          by_contra hne
          have h0 := hall 0 (.one T c f) (by have : k ≠ n := hne; omega) (by simp)
          simp [Handler.casts, hc] at h0
      | none =>
        simp only [List.mem_cons, Event.cast.injEq]
        rw [ih (n + 1) d k]
        constructor
        · rintro (rfl | ⟨hk, h, hh, ha, hall⟩)
          · exact ⟨le_refl _, .one T c f, by simp, rfl, fun j g hj => by omega⟩
          · refine ⟨by omega, h, ?_, ha, ?_⟩
            · have : k - n = (k - (n + 1)) + 1 := by omega
              rw [this, List.getElem?_cons_succ]
              exact hh
            · intro j g hj hg
              cases j with
              | zero =>
                simp only [List.getElem?_cons_zero, Option.some.injEq] at hg
                rw [← hg]; simp [Handler.casts, hc]
              | succ j =>
                rw [List.getElem?_cons_succ] at hg
                exact hall j g (by omega) hg
        · rintro ⟨hk, h, hh, ha, hall⟩
          by_cases hkn : k = n
          · exact Or.inl hkn
          · refine Or.inr ⟨by omega, h, ?_, ha, ?_⟩
            · have : k - n = (k - (n + 1)) + 1 := by omega
              rw [this, List.getElem?_cons_succ] at hh
              exact hh
            · intro j g hj hg
              exact hall (j + 1) g (by omega) (by rw [List.getElem?_cons_succ]; exact hg)

/-- No event is reported twice. -/
theorem expected_events_nodup (x : Src) (hs : List (Handler Src σ R)) :
    ∀ (n : Nat) (d : Option Nat), (expected_events x (List.enumFrom n hs) d).Nodup := by
  induction hs with
  | nil =>
    intro n d
    cases d <;> simp [expected_events]
  | cons g0 t ih =>
    intro n d
    rw [List.enumFrom_cons]
    cases g0 with
    | zero f => rw [expected_events]; exact ih _ _
    | many m => rw [expected_events]; exact ih _ _
    | one T c f =>
      rw [expected_events]
      cases hc : c x with
      | some v => simp
      | none =>
        simp only [List.nodup_cons]
        refine ⟨?_, ih _ _⟩
        intro hmem
        have := ((expected_events_cast_iff x t (n + 1) d n).1 hmem).1
        omega

/-- The report for a list of cases only. -/
theorem matcher_impl_traced_cases (i : result_type_info) (init : R) (x : Src)
    (l : List (Nat × Handler Src σ R)) (depth : Nat) (s : σ)
    (h1 : ∀ p ∈ l, p.2.number_of_arguments = 1) (hd : l.length + 1 ≤ depth) :
    ∃ out, matcher_impl_traced i init x depth l s = .ok (out, expected_events x l none) := by
  induction l generalizing depth with
  | nil =>
    obtain ⟨k, rfl⟩ : ∃ k, depth = k + 1 := ⟨depth - 1, by simp at hd; omega⟩
    exact ⟨(value_init i init, s), by simp [matcher_impl_traced, expected_events]⟩
  | cons p t ih =>
    obtain ⟨k, rfl⟩ : ∃ k, depth = k + 1 := ⟨depth - 1, by simp at hd; omega⟩
    have ht : ∀ q ∈ t, q.2.number_of_arguments = 1 := fun q hq => h1 q (List.mem_cons_of_mem _ hq)
    obtain ⟨j, g⟩ := p
    obtain ⟨T, c, f, rfl⟩ := (arity_eq_one_iff g).1 (h1 (j, g) (List.mem_cons_self _ _))
    rw [matcher_impl_traced, expected_events]
    cases hc : c x with
    | some v => exact ⟨_, rfl⟩
    | none =>
      obtain ⟨out, ho⟩ := ih k ht (by simp at hd; omega)
      simp only [ho]
      exact ⟨_, rfl⟩

/-- The report for a list of cases followed by the default. -/
theorem matcher_impl_traced_cases_then_default (i : result_type_info) (init : R) (x : Src)
    (l : List (Nat × Handler Src σ R)) (d : Nat) (f0 : σ → R × σ) (depth : Nat) (s : σ)
    (h1 : ∀ p ∈ l, p.2.number_of_arguments = 1) (hd : l.length + 1 ≤ depth) :
    ∃ out, matcher_impl_traced i init x depth (l ++ [(d, .zero f0)]) s
      = .ok (out, expected_events x l (some d)) := by
  induction l generalizing depth with
  | nil =>
    obtain ⟨k, rfl⟩ : ∃ k, depth = k + 1 := ⟨depth - 1, by simp at hd; omega⟩
    exact ⟨invoker i (f0 s), by simp [matcher_impl_traced, expected_events]⟩
  | cons p t ih =>
    obtain ⟨k, rfl⟩ : ∃ k, depth = k + 1 := ⟨depth - 1, by simp at hd; omega⟩
    have ht : ∀ q ∈ t, q.2.number_of_arguments = 1 := fun q hq => h1 q (List.mem_cons_of_mem _ hq)
    obtain ⟨j, g⟩ := p
    obtain ⟨T, c, f, rfl⟩ := (arity_eq_one_iff g).1 (h1 (j, g) (List.mem_cons_self _ _))
    rw [List.cons_append, matcher_impl_traced, expected_events]
    cases hc : c x with
    | some v => exact ⟨_, rfl⟩
    | none =>
      obtain ⟨out, ho⟩ := ih k ht (by simp at hd; omega)
      simp only [ho]
      exact ⟨_, rfl⟩

/-- The report for a list of cases with one default anywhere among them. -/
theorem matcher_impl_traced_with_default (i : result_type_info) (init : R) (x : Src)
    (a b : List (Nat × Handler Src σ R)) (d : Nat) (f0 : σ → R × σ) (depth : Nat) (s : σ)
    (ha : ∀ p ∈ a, p.2.number_of_arguments = 1) (hb : ∀ p ∈ b, p.2.number_of_arguments = 1)
    (hd : a.length + b.length + 2 ≤ depth) :
    ∃ out, matcher_impl_traced i init x depth (a ++ (d, .zero f0) :: b) s
      = .ok (out, expected_events x (a ++ (d, .zero f0) :: b) none) := by
  induction a generalizing depth with
  | nil =>
    obtain ⟨k, rfl⟩ : ∃ k, depth = k + 1 := ⟨depth - 1, by omega⟩
    cases b with
    | nil => exact ⟨invoker i (f0 s), by simp [matcher_impl_traced, expected_events]⟩
    | cons l2 ls =>
      obtain ⟨out, ho⟩ := matcher_impl_traced_cases_then_default i init x (l2 :: ls) d f0 k s
        hb (by simp at hd ⊢; omega)
      refine ⟨out, ?_⟩
      rw [List.nil_append, matcher_impl_traced, expected_events]
      exact ho
  | cons p t ih =>
    obtain ⟨k, rfl⟩ : ∃ k, depth = k + 1 := ⟨depth - 1, by omega⟩
    have ht : ∀ q ∈ t, q.2.number_of_arguments = 1 := fun q hq => ha q (List.mem_cons_of_mem _ hq)
    obtain ⟨j, g⟩ := p
    obtain ⟨T, c, f, rfl⟩ := (arity_eq_one_iff g).1 (ha (j, g) (List.mem_cons_self _ _))
    rw [List.cons_append, matcher_impl_traced, expected_events]
    cases hc : c x with
    | some v => exact ⟨_, rfl⟩
    | none =>
      obtain ⟨out, ho⟩ := ih k ht (by simp at hd; omega)
      simp only [ho]
      exact ⟨_, rfl⟩

theorem enumFrom_arity (n : Nat) (hs : List (Handler Src σ R)) (h1 : cases_only hs) :
    ∀ p ∈ List.enumFrom n hs, p.2.number_of_arguments = 1 := by
  intro p hp
  obtain ⟨k, g⟩ := p
  have := (List.mem_enumFrom hp).2.2
  exact h1 g (by rw [this]; exact List.getElem_mem _)

/-- The report of an accepted matcher is the one the description allows. -/
theorem matcher_traced_events (depth : Nat) (wrapped_is_void : Bool) (init : R)
    (hs : List (Handler Src σ R)) (x : Src) (s : σ)
    (hacc : matcher_accepts hs = true) (hd : hs.length + 1 ≤ depth) :
    ∃ out, matcher_traced depth wrapped_is_void init hs x s
      = .ok (out, expected_events x hs.enum none) := by
  obtain ⟨hne, hshape⟩ := accepted_shape hs hacc
  have hmake : ∃ i, result_type_info.make wrapped_is_void hs = some i := by
    unfold result_type_info.make
    rw [fold_add_arities hs hne]
    exact ⟨_, rfl⟩
  obtain ⟨i, hi⟩ := hmake
  unfold matcher_traced
  rw [if_pos hacc, hi]
  simp only
  rcases hshape with h1 | ⟨a, f, b, rfl, ha, hb⟩
  · exact matcher_impl_traced_cases i init x hs.enum depth s (enumFrom_arity 0 hs h1)
      (by rw [List.enum_length]; exact hd)
  · rw [List.enum_append, List.enumFrom_cons]
    exact matcher_impl_traced_with_default i init x a.enum (List.enumFrom (a.length + 1) b)
      a.length f depth s (enumFrom_arity 0 a ha) (enumFrom_arity _ b hb)
      (by simp at hd ⊢; omega)

/-- The handler that is called is the first case whose cast succeeds or, when no cast
succeeds, a zero-argument handler. -/
theorem expected_events_call (x : Src) (hs : List (Handler Src σ R)) :
    ∀ (n : Nat) (d : Option Nat) (k : Nat),
      Event.call k ∈ expected_events x (List.enumFrom n hs) d →
        (n ≤ k ∧ ∃ h, hs[k - n]? = some h ∧
          ((h.casts x = true ∧ ∀ j g, j < k - n → hs[j]? = some g → g.casts x = false) ∨
           (h.number_of_arguments = 0 ∧ all_fail x hs))) ∨
        (d = some k ∧ all_fail x hs) := by
  induction hs with
  | nil =>
    intro n d k hk
    cases d with
    | none => simp [expected_events] at hk
    | some v =>
      simp only [List.enumFrom_nil, expected_events, List.mem_singleton, Event.call.injEq] at hk
      exact Or.inr ⟨by rw [hk], fun h hh => by simp at hh⟩
  | cons g0 t ih =>
    intro n d k hk
    rw [List.enumFrom_cons] at hk
    have hshift : ∀ (hg0 : g0.casts x = false),
        (n + 1 ≤ k ∧ ∃ h, t[k - (n + 1)]? = some h ∧
          ((h.casts x = true ∧ ∀ j g, j < k - (n + 1) → t[j]? = some g → g.casts x = false) ∨
           (h.number_of_arguments = 0 ∧ all_fail x t))) →
        (n ≤ k ∧ ∃ h, (g0 :: t)[k - n]? = some h ∧
          ((h.casts x = true ∧ ∀ j g, j < k - n → (g0 :: t)[j]? = some g → g.casts x = false) ∨
           (h.number_of_arguments = 0 ∧ all_fail x (g0 :: t)))) := by
      rintro hg0 ⟨hk, h, hh, hcase⟩
      refine ⟨by omega, h, ?_, ?_⟩
      · have : k - n = (k - (n + 1)) + 1 := by omega
        rw [this, List.getElem?_cons_succ]
        exact hh
      · rcases hcase with ⟨hc, hall⟩ | ⟨h0, hall⟩
        · refine Or.inl ⟨hc, ?_⟩
          intro j g hj hg
          cases j with
          | zero =>
            simp only [List.getElem?_cons_zero, Option.some.injEq] at hg
            rw [← hg]; exact hg0
          | succ j =>
            rw [List.getElem?_cons_succ] at hg
            exact hall j g (by omega) hg
        · exact Or.inr ⟨h0, (all_fail_cons x g0 t).2 ⟨hg0, hall⟩⟩
    cases g0 with
    | zero f =>
      rw [expected_events] at hk
      rcases ih (n + 1) (some n) k hk with h | ⟨hd, hall⟩
      · exact Or.inl (hshift rfl h)
      · simp only [Option.some.injEq] at hd
        subst hd
        exact Or.inl ⟨le_refl _, .zero f, by simp, Or.inr ⟨rfl, (all_fail_cons x _ t).2 ⟨rfl, hall⟩⟩⟩
    | many m =>
      rw [expected_events] at hk
      rcases ih (n + 1) d k hk with h | ⟨hd, hall⟩
      · exact Or.inl (hshift rfl h)
      · exact Or.inr ⟨hd, (all_fail_cons x _ t).2 ⟨rfl, hall⟩⟩
    | one T c f =>
      rw [expected_events] at hk
      cases hc : c x with
      | some v =>
        rw [hc] at hk
        rcases List.mem_cons.1 hk with hk | hk
        · cases hk
        · rw [List.mem_singleton] at hk
          cases hk
          exact Or.inl ⟨le_refl _, .one T c f, by simp,
            Or.inl ⟨by simp [Handler.casts, hc], fun j g hj => by omega⟩⟩
      | none =>
        rw [hc] at hk
        have hg0 : (Handler.one T c f : Handler Src σ R).casts x = false := by
          simp [Handler.casts, hc]
        rcases List.mem_cons.1 hk with hk | hk
        · cases hk
        · rcases ih (n + 1) d k hk with h | ⟨hd, hall⟩
          · exact Or.inl (hshift hg0 h)
          · exact Or.inr ⟨hd, (all_fail_cons x _ t).2 ⟨hg0, hall⟩⟩

/-- C24: one application of an accepted matcher calls at most one handler, and exactly one
when the list has a zero-argument handler; the cast of a one-argument handler is attempted
exactly when no cast of a handler before it in the list succeeds, that is for the handlers up
to and including the first whose cast succeeds, and each such cast is attempted once; the
call, if there is one, comes last, and it is the call of the first handler whose cast
succeeded or, when none succeeded, of the zero-argument handler. -/
theorem matcher_invokes_one_handler (depth : Nat) (wrapped_is_void : Bool) (init : R)
    (hs : List (Handler Src σ R)) (x : Src) (s : σ)
    (hacc : matcher_accepts hs = true) (hd : hs.length + 1 ≤ depth) :
    ∃ out events, matcher_traced depth wrapped_is_void init hs x s = .ok (out, events) ∧
      matcher depth wrapped_is_void init hs x s = .ok out ∧
      events = expected_events x hs.enum none ∧
      (events.filter Event.is_call).length ≤ 1 ∧
      ((∃ h ∈ hs, h.number_of_arguments = 0) → (events.filter Event.is_call).length = 1) ∧
      (∀ k, Event.cast k ∈ events ↔ ∃ h, hs[k]? = some h ∧ h.number_of_arguments = 1 ∧
        ∀ j g, j < k → hs[j]? = some g → g.casts x = false) ∧
      (∀ k, Event.call k ∈ events → ∃ h, hs[k]? = some h ∧
        ((h.casts x = true ∧ ∀ j g, j < k → hs[j]? = some g → g.casts x = false) ∨
         (h.number_of_arguments = 0 ∧ all_fail x hs))) ∧
      (∀ k, Event.call k ∈ events → events.getLast? = some (.call k)) ∧
      events.Nodup := by
  obtain ⟨out, ho⟩ := matcher_traced_events depth wrapped_is_void init hs x s hacc hd
  refine ⟨out, _, ho, ?_, rfl, expected_events_calls_le x _ _, ?_, ?_, ?_,
    expected_events_call_last x _ _, expected_events_nodup x hs 0 none⟩
  · have := matcher_traced_erase depth wrapped_is_void init hs x s
    rw [ho] at this
    exact this.symm
  · rintro ⟨h, hh, h0⟩
    refine expected_events_calls_default x _ none (Or.inr ?_)
    obtain ⟨k, hk, rfl⟩ := List.getElem_of_mem hh
    exact ⟨(k, hs[k]), List.mk_mem_enum_iff_getElem?.2 (List.getElem?_eq_getElem hk), h0⟩
  · intro k
    have := expected_events_cast_iff x hs 0 none k
    simpa using this
  · intro k hk
    rcases expected_events_call x hs 0 none k hk with h | ⟨hd, _⟩
    · simpa using h.2
    · cases hd

/-- Witness for C24: the matcher of match.test.cpp with `otherwise(-1)` in front, applied to
a `derived2` object, attempts the casts of the two cases and calls the second case; applied
to a `derived3` object it attempts both casts and calls the default. -/
theorem matcher_invokes_one_handler_witness :
    (∃ out, matcher_traced 4 false 0 [otherwise (-1), derived1_case, derived2_case]
        sample_object.derived2 ([] : List String)
      = .ok (out, [.cast 1, .cast 2, .call 2])) ∧
    (∃ out, matcher_traced 4 false 0 [otherwise (-1), derived1_case, derived2_case]
        sample_object.derived3 ([] : List String)
      = .ok (out, [.cast 1, .cast 2, .call 0])) := by
  obtain ⟨out, events, h1, _, h3, _⟩ := matcher_invokes_one_handler 4 false (0 : Int)
    [otherwise (-1), derived1_case, derived2_case] sample_object.derived2
    ([] : List String) rfl (by decide)
  obtain ⟨out2, events2, g1, _, g3, _⟩ := matcher_invokes_one_handler 4 false (0 : Int)
    [otherwise (-1), derived1_case, derived2_case] sample_object.derived3
    ([] : List String) rfl (by decide)
  refine ⟨⟨out, ?_⟩, ⟨out2, ?_⟩⟩
  · rw [h1, h3]; rfl
  · rw [g1, g3]; rfl

theorem matcher_accepts_eq (hs : List (Handler Src σ R)) :
    matcher_accepts hs = arity_asserts (hs.map Handler.number_of_arguments) := by
  unfold matcher_accepts arity_asserts
  simp only [List.map_map, List.length_map]
  rfl

theorem sum_add_count_zero (ns : List Nat) (h : ∀ n ∈ ns, n = 0 ∨ n = 1) :
    ns.sum + ns.count 0 = ns.length := by
  induction ns with
  | nil => rfl
  | cons n t ih =>
    have ht := ih (fun m hm => h m (List.mem_cons_of_mem _ hm))
    rcases h n (List.mem_cons_self _ _) with rfl | rfl
    · simp only [List.sum_cons, List.count_cons_self, List.length_cons]; omega
    · simp only [List.sum_cons, List.length_cons]
      rw [List.count_cons_of_ne (by decide)]
      omega

/-- The two assertions on the arities hold for a non-empty list exactly when every arity is 0
or 1 and at most one is 0. -/
theorem arity_asserts_iff (ns : List Nat) (hne : ns ≠ []) :
    arity_asserts ns = true ↔ (∀ n ∈ ns, n = 0 ∨ n = 1) ∧ ns.count 0 ≤ 1 := by
  unfold arity_asserts
  obtain ⟨n, t, rfl⟩ := List.exists_cons_of_ne_nil hne
  rw [meta.fold_add_nat, Bool.and_eq_true, meta.fold_and_iff]
  simp only [List.mem_map, forall_exists_index, and_imp, forall_apply_eq_imp_iff₂,
    Bool.or_eq_true, beq_iff_eq]
  constructor
  · rintro ⟨h1, h2⟩
    refine ⟨h1, ?_⟩
    have := sum_add_count_zero (n :: t) h1
    simp only [List.length_cons] at h2 this ⊢
    omega
  · rintro ⟨h1, h2⟩
    refine ⟨h1, ?_⟩
    have := sum_add_count_zero (n :: t) h1
    simp only [List.length_cons] at this ⊢
    omega

theorem arity_asserts_nil : arity_asserts [] = false := rfl

theorem map_const_eq_iff (c : CppType) (l : List CppType) :
    l = l.map (fun _ => c) ↔ ∀ t ∈ l, t = c := by
  induction l with
  | nil => simp
  | cons a t ih =>
    simp only [List.map_cons, List.cons.injEq, List.mem_cons, forall_eq_or_imp]
    rw [← ih]

/-- What the assertion of `result` accepts: the result types of all handlers but the first are
the decayed result type of the first. -/
theorem result_iff (Function : CppType) (Functions : List CppType) :
    ((result Function Functions).isSome = true ↔ ∀ t ∈ Functions, t = decay_t Function) ∧
    (∀ T, result Function Functions = some T → T = Function) := by
  unfold result
  constructor
  · rw [← map_const_eq_iff]
    by_cases h : Functions = Functions.map (fun _ => decay_t Function)
    · rw [if_pos h]
      exact ⟨(fun _ => h), (fun _ => rfl)⟩
    · rw [if_neg h]
      exact ⟨(fun hh => by cases hh), (fun hh => absurd hh h)⟩
  · intro T h
    split at h
    · cases h; rfl
    · cases h

/-- With an undecorated result type for the first handler, `result` accepts exactly the lists
in which all handlers declare that type. -/
theorem wrapped_result_t_plain (f : Signature) (fs : List Signature)
    (hplain : decay_t f.result_type = f.result_type) :
    (wrapped_result_t (f :: fs)).isSome = true ↔
      ∀ g ∈ f :: fs, g.result_type = f.result_type := by
  rw [wrapped_result_t, (result_iff _ _).1, hplain]
  simp

/-- For handlers with one undecorated result type, `matcher` compiles exactly when every
handler declares no or one parameter and at most one declares none. -/
theorem matcher_compiles_plain (Lambdas : List Signature) (T : CppType) (hne : Lambdas ≠ [])
    (huni : ∀ g ∈ Lambdas, g.result_type = T) (hplain : decay_t T = T) :
    matcher_compiles Lambdas = true ↔
      (∀ g ∈ Lambdas, g.number_of_arguments = 0 ∨ g.number_of_arguments = 1) ∧
      (Lambdas.map Signature.number_of_arguments).count 0 ≤ 1 := by
  unfold matcher_compiles
  obtain ⟨f, fs, rfl⟩ := List.exists_cons_of_ne_nil hne
  have hf := huni f (List.mem_cons_self _ _)
  have hw : (wrapped_result_t (f :: fs)).isSome = true := by
    rw [wrapped_result_t_plain f fs (by rw [hf]; exact hplain)]
    intro g hg
    rw [huni g hg, hf]
  rw [Bool.and_eq_true, arity_asserts_iff _ (by simp)]
  simp only [hw, and_true, List.mem_map, forall_exists_index, and_imp,
    forall_apply_eq_imp_iff₂]

/-- Whatever the result types, a handler with two or more parameters and a second handler
without parameters make `matcher` ill-formed. -/
theorem matcher_compiles_arity (Lambdas : List Signature)
    (h : (∃ g ∈ Lambdas, 2 ≤ g.number_of_arguments) ∨
      2 ≤ (Lambdas.map Signature.number_of_arguments).count 0) :
    matcher_compiles Lambdas = false := by
  unfold matcher_compiles
  by_cases hne : Lambdas = []
  · subst hne; rfl
  rw [Bool.and_eq_false_iff]
  refine Or.inl ?_
  rw [← Bool.not_eq_true, arity_asserts_iff _ (by simpa using hne)]
  rintro ⟨h1, h2⟩
  rcases h with ⟨g, hg, h2g⟩ | hc
  · have := h1 _ (List.mem_map.2 ⟨g, hg, rfl⟩)
    omega
  · omega

/-- C21 (failing input): two cases and a default that all declare the result type
`std::string const&`.  The arities 1, 1, 0 pass both assertions of `matcher`, the result
type is uniform, and yet `matcher` does not compile; with `std::string` in place of the
reference it does. -/
theorem matcher_rejects_valid_arities :
    (∀ g ∈ [Signature.mk 1 string_cref, Signature.mk 1 string_cref,
        Signature.mk 0 string_cref], g.result_type = string_cref) ∧
    arity_asserts [1, 1, 0] = true ∧
    matcher_compiles [Signature.mk 1 string_cref, Signature.mk 1 string_cref,
      Signature.mk 0 string_cref] = false ∧
    matcher_compiles [Signature.mk 1 string_t, Signature.mk 1 string_t,
      Signature.mk 0 string_t] = true := by
  refine ⟨?_, by decide, by decide, by decide⟩
  intro g hg
  simp only [List.mem_cons, List.mem_singleton, List.not_mem_nil, or_false] at hg
  rcases hg with rfl | rfl | rfl <;> rfl

/-- C22 (failing input): two handlers that both declare `int&`, and two that both declare
`const int`, are rejected by the assertion of `result`, although all handlers declare the same
type; handlers declaring `const int`, `int`, `int`, where the first differs from the
others, are accepted, as are handlers declaring `int&`, `int`, `int`. -/
theorem result_compares_with_decayed_type :
    result int_ref [int_ref] = none ∧
    matcher_compiles [Signature.mk 1 int_ref, Signature.mk 1 int_ref] = false ∧
    result const_int [const_int] = none ∧
    matcher_compiles [Signature.mk 1 const_int, Signature.mk 0 const_int] = false ∧
    result const_int [int_t, int_t] = some const_int ∧
    matcher_compiles [Signature.mk 1 const_int, Signature.mk 1 int_t, Signature.mk 0 int_t]
      = true ∧
    result int_ref [int_t, int_t] = some int_ref ∧
    matcher_compiles [Signature.mk 1 int_ref, Signature.mk 1 int_t, Signature.mk 0 int_t]
      = true ∧
    matcher_compiles [Signature.mk 1 int_t, Signature.mk 1 int_t] = true := by
  decide

/-- C23: a matcher built with `otherwise(v)` among one-argument handlers is the matcher built
with any zero-argument handler that returns `v` and does nothing else: same result, same
final state, same casts attempted and same handler called.  The result is a plain value: the
value of the first case whose cast succeeds, else `v`.  `otherwise(v)` declares no parameter,
the list with it is accepted, and a second `otherwise` makes the list ill-formed. -/
theorem otherwise_equals_literal_default (depth : Nat) (init v : R)
    (pre post : List (Handler Src σ R)) (f : σ → R × σ) (x : Src) (s : σ)
    (hf : ∀ s, f s = (v, s)) (hpre : cases_only pre) (hpost : cases_only post)
    (hd : pre.length + post.length + 2 ≤ depth) :
    matcher_traced depth false init (pre ++ otherwise v :: post) x s
      = matcher_traced depth false init (pre ++ .zero f :: post) x s ∧
    matcher depth false init (pre ++ otherwise v :: post) x s
      = matcher depth false init (pre ++ .zero f :: post) x s ∧
    matcher depth false init (pre ++ otherwise v :: post) x s
      = .ok (.wrapped ((first_hit x (pre ++ post)).getD (fun s => (v, s)) s).1,
          ((first_hit x (pre ++ post)).getD (fun s => (v, s)) s).2) ∧
    (all_fail x (pre ++ post) →
      matcher depth false init (pre ++ otherwise v :: post) x s = .ok (.wrapped v, s)) ∧
    (otherwise v : Handler Src σ R).number_of_arguments = 0 ∧
    matcher_accepts (pre ++ otherwise v :: post) = true ∧
    (∀ (w : R) (post2 : List (Handler Src σ R)),
      matcher depth false init (pre ++ otherwise v :: post ++ otherwise w :: post2) x s
        = .error .ill_formed) := by
  have hfe : f = fun s => (v, s) := funext hf
  have hm : matcher depth false init (pre ++ otherwise v :: post) x s
      = .ok (.wrapped ((first_hit x (pre ++ post)).getD (fun s => (v, s)) s).1,
          ((first_hit x (pre ++ post)).getD (fun s => (v, s)) s).2) := by
    unfold matcher otherwise
    rw [accepts_one_default pre post _ hpre hpost, make_one_default false pre post _ hpre hpost]
    simp only [if_true]
    rw [matcher_impl_with_default _ init x pre post _ depth s hpre hpost hd]
    simp [invoker, result_type_info.result_t]
  refine ⟨?_, ?_, hm, ?_, rfl, accepts_one_default pre post _ hpre hpost, ?_⟩
  · rw [hfe]; rfl
  · rw [hfe]; rfl
  · intro hall
    rw [hm, (first_hit_eq_none x (pre ++ post)).2 hall]
    rfl
  · intro w post2
    have hrej : matcher_accepts (pre ++ otherwise v :: post ++ otherwise w :: post2) = false := by
      rw [← Bool.not_eq_true, matcher_accepts_eq, arity_asserts_iff _ (by simp)]
      rintro ⟨_, h2⟩
      simp only [List.map_append, List.map_cons, otherwise, Handler.number_of_arguments,
        List.count_append, List.count_cons_self] at h2
      omega
    unfold matcher
    rw [hrej]
    rfl

/-- Witness for C23: the matcher of match.test.cpp with `otherwise(-1)` and the one with the
literal default `[]{ return -1; }` agree on a `derived3` object, where the result is -1. -/
theorem otherwise_equals_literal_default_witness :
    matcher 4 false 0 [derived1_case, derived2_case, otherwise (-1)]
        sample_object.derived3 ([] : List String)
      = matcher 4 false 0 [derived1_case, derived2_case, .zero minus_one]
        sample_object.derived3 ([] : List String) ∧
    matcher 4 false 0 [derived1_case, derived2_case, otherwise (-1)]
        sample_object.derived3 ([] : List String) = .ok (.wrapped (-1), []) :=
  ⟨(otherwise_equals_literal_default 4 (0 : Int) (-1) [derived1_case, derived2_case] []
      minus_one sample_object.derived3 ([] : List String) (fun _ => rfl)
      (by intro h hh; simp at hh; rcases hh with rfl | rfl <;> rfl)
      (by intro h hh; simp at hh) (by decide)).2.1,
   (otherwise_equals_literal_default 4 (0 : Int) (-1) [derived1_case, derived2_case] []
      minus_one sample_object.derived3 ([] : List String) (fun _ => rfl)
      (by intro h hh; simp at hh; rcases hh with rfl | rfl <;> rfl)
      (by intro h hh; simp at hh) (by decide)).2.2.2.1
      (by intro h hh; simp at hh; rcases hh with rfl | rfl <;> rfl)⟩

/-- C26: the cast that the matcher performs for a case is the customization
`dyn_cast<Target>` of the source type whenever there is one, whatever the built-in
`dynamic_cast` would do; it is the built-in cast only when there is no customization; with
neither the case is ill-formed. -/
theorem matcher_dyn_cast_prefers_customization {Tgt : Type}
    (custom builtin : Option (Src → Option Tgt)) :
    (∀ c, custom = some c → matcher_dyn_cast custom builtin = .ok c) ∧
    (∀ c builtin2, custom = some c →
      matcher_dyn_cast custom builtin2 = matcher_dyn_cast custom builtin) ∧
    (custom = none → ∀ b, builtin = some b → matcher_dyn_cast custom builtin = .ok b) ∧
    (custom = none → builtin = none →
      matcher_dyn_cast custom builtin = .error .ill_formed) ∧
    (∀ g, matcher_dyn_cast custom builtin = .ok g →
      custom = some g ∨ (custom = none ∧ builtin = some g)) ∧
    (∀ c (f : Tgt → σ → R × σ), custom = some c →
      case_of custom builtin f = .ok (.one Tgt c f)) := by
  have h1 : ∀ (c : Src → Option Tgt) (b : Option (Src → Option Tgt)),
      matcher_dyn_cast (some c) b = .ok c := by
    intro c b
    cases b <;> simp [matcher_dyn_cast, meta.dispatch, meta.try_t, meta.catch_t]
  have h2 : ∀ (b : Src → Option Tgt), matcher_dyn_cast (none : Option (Src → Option Tgt)) (some b) = .ok b := by
    intro b
    simp [matcher_dyn_cast, meta.dispatch, meta.try_t, meta.catch_t]
  have h3 : matcher_dyn_cast (none : Option (Src → Option Tgt)) none = .error .ill_formed := by
    simp [matcher_dyn_cast, meta.dispatch, meta.try_t, meta.catch_t]
  refine ⟨?_, ?_, ?_, ?_, ?_, ?_⟩
  · rintro c rfl; exact h1 c builtin
  · rintro c b2 rfl; rw [h1, h1]
  · rintro rfl b rfl; exact h2 b
  · rintro rfl rfl; exact h3
  · intro g hg
    cases custom with
    | some c =>
      rw [h1] at hg
      cases hg
      exact Or.inl rfl
    | none =>
      cases builtin with
      | some b =>
        rw [h2] at hg
        cases hg
        exact Or.inr ⟨rfl, rfl⟩
      | none =>
        rw [h3] at hg
        cases hg
  · rintro c f rfl
    unfold case_of
    rw [h1]

/-- Witness for C26: for the classes of `ni_match_test_detail`, which are not polymorphic, the
cast of a case on `derived1` is the customization that compares `dyn_tag` with the tag 1;
it accepts an object with tag 1 and rejects one with tag 2. -/
theorem matcher_dyn_cast_prefers_customization_witness :
    matcher_dyn_cast (some (tagged_dyn_cast 1)) none = .ok (tagged_dyn_cast 1) ∧
    tagged_dyn_cast 1 { dyn_tag := 1, value := 1337 } = some { dyn_tag := 1, value := 1337 } ∧
    tagged_dyn_cast 1 { dyn_tag := 2, value := 7357 } = none :=
  ⟨(@matcher_dyn_cast_prefers_customization tagged_object Unit Unit tagged_object
      (some (tagged_dyn_cast 1)) none).1 _ rfl, rfl, rfl⟩

/-- The test `match_custom_polymorhic_types`: with the customization as cast, matching the
`derived1` and the `derived2` object records 1337 and 7357. -/
theorem match_custom_polymorphic_types :
    tagged_cases = .ok [.one tagged_object (tagged_dyn_cast 1) (fun o s => ((), s ++ [o.value])),
      .one tagged_object (tagged_dyn_cast 2) (fun o s => ((), s ++ [o.value]))] ∧
    (∀ cases, tagged_cases = .ok cases →
      matcher 3 true () cases { dyn_tag := 1, value := 1337 } [] = .ok (.boolean true, [1337]) ∧
      matcher 3 true () cases { dyn_tag := 2, value := 7357 } [] = .ok (.boolean true, [7357])) := by
  refine ⟨rfl, ?_⟩
  intro cases h
  cases h
  exact ⟨rfl, rfl⟩

/-- C25 (failing input): in the default configuration a case on the class `Type_1_1_1_1` of the
fourth level makes the match ill-formed, for an object of that class as for any other: the
mask of the case's cast is `(1 << 32) - 1` in `int`.  With the case on `Type_1_1_1` of the
third level in its place the same object selects that case. -/
theorem hierarchy_match_fourth_level_ill_formed :
    ∃ r, type_hierarchy_detail.use_types [type_hierarchy_detail.Type_1_1_1_1]
        type_hierarchy_detail.Registry.start = .ok r ∧
      hierarchy_match r 3 true () [(type_hierarchy_detail.Type_1_1_1_1, rec_case "1_1_1_1")]
        (fun m => ((), m ++ ["fail"]))
        (type_hierarchy_detail.Pointer.to_object r 0 type_hierarchy_detail.Root
          type_hierarchy_detail.Type_1_1_1_1 false 0) []
        = .error .ill_formed ∧
      hierarchy_match r 3 true () [(type_hierarchy_detail.Type_1_1_1, rec_case "1_1_1")]
        (fun m => ((), m ++ ["fail"]))
        (type_hierarchy_detail.Pointer.to_object r 0 type_hierarchy_detail.Root
          type_hierarchy_detail.Type_1_1_1_1 false 0) []
        = .ok (.boolean true, ["1_1_1"]) :=
  ⟨_, rfl, rfl, rfl⟩

/-- The test `match_flat`: with the case order `Type_1_1_2, Type_1_1_1, Type_1_1, Type_1_2,
Type_1, Type_2_1, Type_2_2, Type_2, default` every one of the eight classes selects its own
handler. -/
theorem match_flat_selects_own_case :
    ∃ r, type_hierarchy_detail.use_types fixture_types type_hierarchy_detail.Registry.start
        = .ok r ∧
      fixture_types.map (fun T =>
        hierarchy_match r 10 true () match_flat_cases (fun m => ((), m ++ ["fail"]))
          (type_hierarchy_detail.Pointer.to_object r 0 type_hierarchy_detail.Root T false 0) [])
      = [.ok (.boolean true, ["1"]), .ok (.boolean true, ["1_1"]), .ok (.boolean true, ["1_2"]),
         .ok (.boolean true, ["1_1_1"]), .ok (.boolean true, ["1_1_2"]),
         .ok (.boolean true, ["2"]), .ok (.boolean true, ["2_1"]),
         .ok (.boolean true, ["2_2"])] :=
  ⟨_, rfl, rfl⟩

theorem matcher_dyn_cast_some {Tgt : Type} (c : Src → Option Tgt)
    (b : Option (Src → Option Tgt)) : matcher_dyn_cast (some c) b = .ok c := by
  cases b <;> simp [matcher_dyn_cast, meta.dispatch, meta.try_t, meta.catch_t]

theorem case_of_some {Tgt : Type} (c : Src → Option Tgt) (b : Option (Src → Option Tgt))
    (f : Tgt → σ → R × σ) : case_of (some c) b f = .ok (.one Tgt c f) := by
  unfold case_of
  rw [matcher_dyn_cast_some]

/-- The cases on registered classes of one hierarchy whose masks fit compile for a pointer to
the root class. -/
theorem hierarchy_handlers_root (r : type_hierarchy_detail.Registry) (hw : r.well_formed)
    (c : type_hierarchy_detail.Config)
    (cases : List (type_hierarchy_detail.HType ×
      (type_hierarchy_detail.TargetPointer → σ → R × σ)))
    (hcases : ∀ k ∈ cases, k.1.config = c ∧ (∃ v, r.ids k.1 = some v) ∧
      k.1.config.span k.1.depth ≤ 30) :
    hierarchy_handlers r (.root c) false cases
      = .ok (cases.map (fun k => .one type_hierarchy_detail.TargetPointer
          (hierarchy_cast r k.1) k.2)) := by
  induction cases with
  | nil => rfl
  | cons k t ih =>
    obtain ⟨C, f⟩ := k
    obtain ⟨hc, ⟨v, hv⟩, h30⟩ := hcases (C, f) (List.mem_cons_self _ _)
    have iht := ih (fun k hk => hcases k (List.mem_cons_of_mem _ hk))
    obtain ⟨b, _, hdc⟩ := type_hierarchy_detail.dyn_cast_from_root r hw C v hv h30
      { pointee := .root c, is_const := false, address := 0, m_type_hierarchy_id__ := 0 }
      (by simp only at hc ⊢; rw [hc]) rfl
    rw [hierarchy_handlers, hierarchy_case, hdc, iht]
    simp only [case_of_some, List.map_cons]

/-- For an object of class `T` behind a pointer to the root class, the first case whose cast
succeeds is the first case on a class that `T` is or derives from. -/
theorem first_hit_hierarchy (ts : List type_hierarchy_detail.HType)
    (r : type_hierarchy_detail.Registry)
    (hr : type_hierarchy_detail.use_types ts type_hierarchy_detail.Registry.start = .ok r)
    (T : type_hierarchy_detail.HType) (hT : T ∈ ts) (junk address : Nat)
    (hnarrow : ∀ w b, T.config.id_t = some w →
      type_hierarchy_detail.get 0 T.config.bits_per_level = some b → b < w)
    (cases : List (type_hierarchy_detail.HType ×
      (type_hierarchy_detail.TargetPointer → σ → R × σ)))
    (hcases : ∀ k ∈ cases, k.1 ∈ ts ∧ k.1.config = T.config ∧
      k.1.config.span k.1.depth ≤ 30) :
    first_hit (type_hierarchy_detail.Pointer.to_object r junk (.root T.config) T false address)
        (cases.map (fun k => .one type_hierarchy_detail.TargetPointer
          (hierarchy_cast r k.1) k.2))
      = (selected_case T cases).map
          (fun k => k.2 { pointee := .node k.1, is_const := false, address := address }) := by
  obtain ⟨hw, _, hall⟩ := type_hierarchy_detail.use_types_spec ts _ r hr
    type_hierarchy_detail.well_formed_start
  induction cases with
  | nil => rfl
  | cons k t ih =>
    obtain ⟨C, f⟩ := k
    obtain ⟨hCts, hc, h30⟩ := hcases (C, f) (List.mem_cons_self _ _)
    have iht := ih (fun k hk => hcases k (List.mem_cons_of_mem _ hk))
    obtain ⟨v, hv⟩ := Option.isSome_iff_exists.1 (hall C hCts)
    simp only at hc h30
    obtain ⟨b, hb, hdc⟩ := type_hierarchy_detail.dyn_cast_from_root r hw C v hv h30
      (type_hierarchy_detail.Pointer.to_object r junk (.root T.config) T false address)
      (by simp only [type_hierarchy_detail.Pointer.to_object]; rw [hc]) rfl
    rw [type_hierarchy_detail.to_object_deref,
      type_hierarchy_detail.convertible_to_iff_derives ts r junk C T hr hCts hT h30
        (by rw [hc]; exact hnarrow)] at hb
    simp only [Except.ok.injEq] at hb
    subst hb
    simp only [List.map_cons, first_hit, hierarchy_cast, hdc, selected_case, List.find?_cons]
    cases hder : T.derives_from C with
    | true => simp [type_hierarchy_detail.Pointer.to_object]
    | false =>
      simp only [Bool.false_eq_true, if_false]
      exact iht

/-- What a match over cases on classes of a hierarchy followed by a default does for an object
of class `T` behind a pointer to the root class, after any sequence of id assignments without
fault, when the masks of the cases fit into 30 bits and the first level is narrower than the
id type: it calls the first case on a class that `T` is or derives from, with the pointer
cast to that class, and the default when there is none. -/
theorem hierarchy_match_selects (ts : List type_hierarchy_detail.HType)
    (r : type_hierarchy_detail.Registry)
    (hr : type_hierarchy_detail.use_types ts type_hierarchy_detail.Registry.start = .ok r)
    (T : type_hierarchy_detail.HType) (hT : T ∈ ts) (junk address : Nat)
    (hnarrow : ∀ w b, T.config.id_t = some w →
      type_hierarchy_detail.get 0 T.config.bits_per_level = some b → b < w)
    (cases : List (type_hierarchy_detail.HType ×
      (type_hierarchy_detail.TargetPointer → σ → R × σ)))
    (hcases : ∀ k ∈ cases, k.1 ∈ ts ∧ k.1.config = T.config ∧
      k.1.config.span k.1.depth ≤ 30)
    (depth : Nat) (wrapped_is_void : Bool) (init : R) (default : σ → R × σ) (s : σ)
    (hd : cases.length + 2 ≤ depth) :
    hierarchy_match r depth wrapped_is_void init cases default
        (type_hierarchy_detail.Pointer.to_object r junk (.root T.config) T false address) s
      = .ok (invoker { sum_of_arguments := cases.length, size := cases.length + 1,
                       wrapped_is_void := wrapped_is_void }
          (((selected_case T cases).map
            (fun k => k.2 { pointee := .node k.1, is_const := false, address := address })).getD
              default s)) := by
  obtain ⟨hw, _, hall⟩ := type_hierarchy_detail.use_types_spec ts _ r hr
    type_hierarchy_detail.well_formed_start
  have hh := hierarchy_handlers_root r hw T.config cases (fun k hk =>
    ⟨(hcases k hk).2.1, Option.isSome_iff_exists.1 (hall k.1 (hcases k hk).1), (hcases k hk).2.2⟩)
  have hco : cases_only (cases.map (fun k => Handler.one type_hierarchy_detail.TargetPointer
      (hierarchy_cast r k.1) k.2 : _ → Handler type_hierarchy_detail.Pointer σ R)) := by
    intro h hm
    obtain ⟨k, _, rfl⟩ := List.mem_map.1 hm
    rfl
  have hnil : cases_only ([] : List (Handler type_hierarchy_detail.Pointer σ R)) := by
    intro h hm
    simp at hm
  unfold hierarchy_match
  simp only [type_hierarchy_detail.Pointer.to_object]
  rw [hh]
  simp only
  unfold matcher
  rw [accepts_one_default _ [] default hco hnil, make_one_default wrapped_is_void _ [] default hco hnil]
  simp only [if_true]
  rw [matcher_impl_with_default _ init _ _ [] default depth s hco hnil
    (by simp only [List.length_map, List.length_nil]; omega)]
  have hf := first_hit_hierarchy ts r hr T hT junk address hnarrow cases hcases
  simp only [type_hierarchy_detail.Pointer.to_object] at hf
  simp only [List.append_nil, List.length_map, List.length_nil, Nat.add_zero, hf]

theorem selected_case_mem {F : Type} (T : type_hierarchy_detail.HType)
    (cases : List (type_hierarchy_detail.HType × F)) (k : type_hierarchy_detail.HType × F)
    (h : selected_case T cases = some k) : k ∈ cases ∧ T.derives_from k.1 = true := by
  unfold selected_case at h
  exact ⟨List.mem_of_find?_eq_some h, by simpa using List.find?_some h⟩

theorem selected_case_none {F : Type} (T : type_hierarchy_detail.HType)
    (cases : List (type_hierarchy_detail.HType × F)) :
    selected_case T cases = none ↔ ∀ k ∈ cases, T.derives_from k.1 = false := by
  unfold selected_case
  rw [List.find?_eq_none]
  simp

/-- With the most derived classes first, the selected case is the one on the nearest class
that `T` is or derives from: every other such class with a case is an ancestor of it. -/
theorem selected_case_nearest {F : Type} (T : type_hierarchy_detail.HType)
    (cases : List (type_hierarchy_detail.HType × F)) (hord : most_derived_first cases)
    (k : type_hierarchy_detail.HType × F) (h : selected_case T cases = some k) :
    ∀ k2 ∈ cases, T.derives_from k2.1 = true → k.1.derives_from k2.1 = true := by
  induction cases with
  | nil => simp [selected_case] at h
  | cons a t ih =>
    unfold most_derived_first at hord
    rw [List.pairwise_cons] at hord
    obtain ⟨ha, ht⟩ := hord
    unfold selected_case at h
    rw [List.find?_cons] at h
    intro k2 hk2 hder2
    cases hda : T.derives_from a.1 with
    | true =>
      simp only [hda] at h
      cases h
      rcases List.mem_cons.1 hk2 with rfl | hk2
      · exact type_hierarchy_detail.derives_from_self _
      · rcases type_hierarchy_detail.derives_from_linear T _ _ hda hder2 with hl | hl
        · exact hl
        · rw [ha k2 hk2 hl]
          exact type_hierarchy_detail.derives_from_self _
    | false =>
      simp only [hda] at h
      rcases List.mem_cons.1 hk2 with rfl | hk2
      · rw [hda] at hder2; cases hder2
      · exact ih ht h k2 hk2 hder2

/-- With the most derived classes first, a class that has a case selects a case of its own. -/
theorem selected_case_own {F : Type} (T : type_hierarchy_detail.HType)
    (cases : List (type_hierarchy_detail.HType × F)) (hord : most_derived_first cases)
    (f : F) (hmem : (T, f) ∈ cases) : ∃ g, selected_case T cases = some (T, g) := by
  cases hsel : selected_case T cases with
  | none =>
    have := (selected_case_none T cases).1 hsel (T, f) hmem
    rw [type_hierarchy_detail.derives_from_self] at this
    cases this
  | some k =>
    obtain ⟨N, g⟩ := k
    have h1 := selected_case_nearest T cases hord (N, g) hsel (T, f) hmem
      (type_hierarchy_detail.derives_from_self _)
    have h2 := (selected_case_mem T cases (N, g) hsel).2
    have : N = T := type_hierarchy_detail.derives_from_antisymm N T h1 h2
    subst this
    exact ⟨g, rfl⟩

set_option maxRecDepth 100000 in
/-- In `from_base<FlatBase, 8>` with 257 classes the ids have wrapped: an object of the class
`Flat_257` selects the case on `Flat_1`, which is listed before its own. -/
theorem hierarchy_match_after_wrap :
    ∃ r, type_hierarchy_detail.use_types (type_hierarchy_detail.flat_types 257)
        type_hierarchy_detail.Registry.start = .ok r ∧
      hierarchy_match r 4 true ()
        [(.sub 1 type_hierarchy_detail.FlatRoot, rec_case "Flat_1"),
         (.sub 257 type_hierarchy_detail.FlatRoot, rec_case "Flat_257")]
        (fun m => ((), m ++ ["fail"]))
        (type_hierarchy_detail.Pointer.to_object r 0 type_hierarchy_detail.FlatRoot
          (.sub 257 type_hierarchy_detail.FlatRoot) false 0) []
        = .ok (.boolean true, ["Flat_1"]) :=
  ⟨_, rfl, rfl⟩

theorem steps_cases_then_default (x : Src) (b : List (Handler Src σ R)) (l : σ → R × σ)
    (depth : Nat) (h1 : cases_only b) (hd : b.length + 1 ≤ depth) :
    ∃ t, matcher_impl_steps x depth (b ++ [.zero l]) = .ok t ∧ t.length ≤ b.length + 1 ∧
      (∀ e ∈ t, e.2 = false) ∧ steps_shrink t ∧
      t.head?.map Prod.fst = some (b.length + 1) := by
  induction b generalizing depth with
  | nil =>
    obtain ⟨k, rfl⟩ : ∃ k, depth = k + 1 := ⟨depth - 1, by simp at hd; omega⟩
    exact ⟨[(1, false)], by simp [matcher_impl_steps], by simp, by simp, by simp [steps_shrink],
      by simp⟩
  | cons g t ih =>
    obtain ⟨k, rfl⟩ : ∃ k, depth = k + 1 := ⟨depth - 1, by simp at hd; omega⟩
    have ht : cases_only t := fun j hj => h1 j (List.mem_cons_of_mem _ hj)
    obtain ⟨T, c, f, rfl⟩ := (arity_eq_one_iff g).1 (h1 g (List.mem_cons_self _ _))
    cases hc : c x with
    | some p =>
      exact ⟨[(t.length + 2, false)], by simp [matcher_impl_steps, hc], by simp, by simp,
        by simp [steps_shrink], by simp⟩
    | none =>
      obtain ⟨u, hu, hlen, hrot, hch, hhd⟩ := ih k ht (by simp at hd; omega)
      refine ⟨(t.length + 2, false) :: u, by simp [matcher_impl_steps, hc, hu, Except.map],
        by simp; omega, ?_, ?_, by simp⟩
      · intro e he
        rcases List.mem_cons.1 he with rfl | he
        · rfl
        · exact hrot e he
      · cases u with
        | nil => simp [steps_shrink]
        | cons e u2 =>
          simp only [List.head?_cons, Option.map_some', Option.some.injEq] at hhd
          exact List.Chain'.cons (by simp [hhd]) hch

theorem defaults_cons (g : Handler Src σ R) (t : List (Handler Src σ R)) :
    defaults (g :: t) = (if g.number_of_arguments = 0 then 1 else 0) + defaults t := by
  unfold defaults
  by_cases h : g.number_of_arguments = 0
  · simp [List.filter_cons, h]; omega
  · simp [List.filter_cons, h]

theorem cases_only_of_no_defaults (l : List (Handler Src σ R))
    (h01 : ∀ h ∈ l, h.number_of_arguments ≤ 1) (hz : defaults l = 0) : cases_only l := by
  induction l with
  | nil => intro h hh; cases hh
  | cons g t ih =>
    rw [defaults_cons] at hz
    have hg := h01 g (List.mem_cons_self _ _)
    intro h hh
    rcases List.mem_cons.1 hh with rfl | hh
    · by_cases h0 : h.number_of_arguments = 0
      · simp [h0] at hz
      · omega
    · exact ih (fun j hj => h01 j (List.mem_cons_of_mem _ hj)) (by omega) h hh

theorem steps_at_most_one_default (x : Src) (l : List (Handler Src σ R)) (depth : Nat)
    (h01 : ∀ h ∈ l, h.number_of_arguments ≤ 1) (hz : defaults l ≤ 1)
    (hd : l.length + 1 ≤ depth) :
    ∃ t, matcher_impl_steps x depth l = .ok t ∧ t.length ≤ l.length + 1 ∧
      (t.filter (fun e => e.2)).length ≤ 1 ∧ steps_shrink t ∧
      t.head?.map Prod.fst = some l.length := by
  induction l generalizing depth with
  | nil =>
    obtain ⟨k, rfl⟩ : ∃ k, depth = k + 1 := ⟨depth - 1, by simp at hd; omega⟩
    exact ⟨[(0, false)], by simp [matcher_impl_steps], by simp, by simp, by simp [steps_shrink],
      by simp⟩
  | cons g rest ih =>
    obtain ⟨k, rfl⟩ : ∃ k, depth = k + 1 := ⟨depth - 1, by simp at hd; omega⟩
    have hrest : ∀ h ∈ rest, h.number_of_arguments ≤ 1 :=
      fun j hj => h01 j (List.mem_cons_of_mem _ hj)
    rw [defaults_cons] at hz
    cases g with
    | many n =>
      have := h01 _ (List.mem_cons_self _ _)
      simp [Handler.number_of_arguments] at this
    | one T c f =>
      cases hc : c x with
      | some p =>
        exact ⟨[(rest.length + 1, false)], by simp [matcher_impl_steps, hc], by simp, by simp,
          by simp [steps_shrink], by simp⟩
      | none =>
        obtain ⟨u, hu, hlen, hrot, hch, hhd⟩ := ih k hrest (by omega) (by simp at hd; omega)
        refine ⟨(rest.length + 1, false) :: u,
          by simp [matcher_impl_steps, hc, hu, Except.map], by simp; omega,
          by simpa [List.filter_cons] using hrot, ?_, by simp⟩
        cases u with
        | nil => simp [steps_shrink]
        | cons e u2 =>
          simp only [List.head?_cons, Option.map_some', Option.some.injEq] at hhd
          exact List.Chain'.cons (by simp [hhd]) hch
    | zero f =>
      cases rest with
      | nil =>
        exact ⟨[(1, false)], by simp [matcher_impl_steps], by simp, by simp,
          by simp [steps_shrink], by simp⟩
      | cons l2 ls =>
        have hc : cases_only (l2 :: ls) :=
          cases_only_of_no_defaults _ hrest (by simp [Handler.number_of_arguments] at hz; omega)
        obtain ⟨u, hu, hlen, hrot, hch, hhd⟩ :=
          steps_cases_then_default x (l2 :: ls) f k hc (by simp at hd ⊢; omega)
        have hu2 : matcher_impl_steps x k (l2 :: (ls ++ [Handler.zero f])) = .ok u := by
          simpa using hu
        refine ⟨((l2 :: ls).length + 1, true) :: u,
          by simp [matcher_impl_steps, hu2, Except.map], by simp at hlen ⊢; omega, ?_, ?_,
          by simp⟩
        · have : u.filter (fun e => e.2) = [] := by
            rw [List.filter_eq_nil_iff]
            intro e he
            simp [hrot e he]
          simp [List.filter_cons, this]
        · cases u with
          | nil => simp [steps_shrink]
          | cons e u2 =>
            simp only [List.head?_cons, Option.map_some', Option.some.injEq] at hhd
            exact List.Chain'.cons (by simp [hhd]) hch

theorem matcher_impl_of_steps (i : result_type_info) (init : R) (x : Src) (depth : Nat)
    (l : List (Handler Src σ R)) (s : σ) (t : List (Nat × Bool))
    (h : matcher_impl_steps x depth l = .ok t) :
    ∃ out, matcher_impl i init x depth l s = .ok out := by
  induction depth generalizing l t with
  | zero => simp [matcher_impl_steps] at h
  | succ k ih =>
    cases l with
    | nil => exact ⟨_, by rw [matcher_impl]⟩
    | cons g rest =>
      cases g with
      | many n => simp [matcher_impl_steps] at h
      | one T c f =>
        cases hc : c x with
        | some p => exact ⟨invoker i (f p s), by simp [matcher_impl, hc]⟩
        | none =>
          simp only [matcher_impl_steps, hc] at h
          cases hr : matcher_impl_steps x k rest with
          | error e => simp [hr, Except.map] at h
          | ok u =>
            obtain ⟨out, ho⟩ := ih rest u hr
            exact ⟨out, by simp [matcher_impl, hc, ho]⟩
      | zero f =>
        cases rest with
        | nil => exact ⟨invoker i (f s), by simp [matcher_impl]⟩
        | cons l2 ls =>
          simp only [matcher_impl_steps] at h
          cases hr : matcher_impl_steps x k (l2 :: (ls ++ [.zero f])) with
          | error e => simp [hr, Except.map] at h
          | ok u =>
            obtain ⟨out, ho⟩ := ih _ u hr
            exact ⟨out, by rw [matcher_impl]; exact ho⟩

/-- With two zero-argument handlers and nothing else the rotation never ends: whatever the
depth allowed, the recursion uses it up. -/
theorem matcher_impl_two_defaults (i : result_type_info) (init : R) (x : Src) (depth : Nat)
    (f g : σ → R × σ) (s : σ) :
    matcher_impl i init x depth [.zero f, .zero g] s = .error .depth_exceeded := by
  induction depth generalizing f g with
  | zero => rw [matcher_impl]
  | succ k ih =>
    rw [matcher_impl]
    exact ih g f

/-- C40: `matcher_impl` terminates on every list of zero- and one-argument
handlers with at most one zero-argument handler: a template depth of the number of handlers
plus one is enough for it to return, it enters at most that many instantiations, at most one
of them is a rotation, and every instantiation after a rotation receives as many handlers as
the one before while every other one receives one handler less. -/
theorem matcher_impl_terminates (i : result_type_info) (init : R) (x : Src)
    (l : List (Handler Src σ R)) (s : σ) (depth : Nat)
    (h01 : ∀ h ∈ l, h.number_of_arguments = 0 ∨ h.number_of_arguments = 1)
    (hz : defaults l ≤ 1) (hd : l.length + 1 ≤ depth) :
    (∃ out, matcher_impl i init x depth l s = .ok out) ∧
    ∃ t, matcher_impl_steps x depth l = .ok t ∧ t.length ≤ l.length + 1 ∧
      (t.filter (fun e => e.2)).length ≤ 1 ∧ steps_shrink t := by
  obtain ⟨t, ht, hlen, hrot, hch, -⟩ :=
    steps_at_most_one_default x l depth (fun h hh => by rcases h01 h hh with h0 | h0 <;> omega)
      hz hd
  exact ⟨matcher_impl_of_steps i init x depth l s t ht, t, ht, hlen, hrot, hch⟩

/-- Witness for C40: the default first, followed by two cases that both fail. -/
theorem matcher_impl_terminates_witness :
    (∃ out, matcher_impl ⟨2, 3, false⟩ 0 sample_object.derived3 4
        [.zero minus_one, derived1_case, derived2_case] ([] : List String) = .ok out) ∧
    ∃ t, matcher_impl_steps sample_object.derived3 4
        [.zero minus_one, derived1_case, derived2_case] = .ok t ∧ t.length ≤ 3 + 1 ∧
      (t.filter (fun e => e.2)).length ≤ 1 ∧ steps_shrink t :=
  matcher_impl_terminates ⟨2, 3, false⟩ 0 sample_object.derived3
    [.zero minus_one, derived1_case, derived2_case] [] 4
    (by simp [derived1_case, derived2_case, Handler.number_of_arguments])
    (by simp [defaults, derived1_case, derived2_case, Handler.number_of_arguments]) (by simp)

/-- The run of the witness list: a rotation, two failing casts, the call of the default. -/
theorem matcher_impl_steps_sample :
    matcher_impl_steps sample_object.derived3 4
        [(.zero minus_one : Handler sample_object (List String) Int), derived1_case,
          derived2_case]
      = .ok [(3, true), (3, false), (2, false), (1, false)] := rfl

/-- C39: when every handler returns `void` and the list contains a default, the matcher
returns `true` for every value: after running the first case whose cast succeeds, the
default not being run, and equally after running only the default when no cast succeeds. -/
theorem matcher_void_default_true (depth : Nat) (a b : List (Handler Src σ Unit))
    (l : σ → Unit × σ) (x : Src) (s : σ)
    (ha : ∀ h ∈ a, h.number_of_arguments = 1) (hb : ∀ h ∈ b, h.number_of_arguments = 1)
    (hd : (a ++ .zero l :: b).length + 1 ≤ depth) :
    (∃ s2, matcher depth true () (a ++ .zero l :: b) x s = .ok (.boolean true, s2)) ∧
    ((∀ h ∈ a ++ b, h.casts x = false) →
      matcher depth true () (a ++ .zero l :: b) x s = .ok (.boolean true, (l s).2)) ∧
    (∀ (pre post : List (Handler Src σ Unit)) (T : Type) (c : Src → Option T)
        (f : T → σ → Unit × σ) (p : T),
      a ++ .zero l :: b = pre ++ .one T c f :: post →
      (∀ h ∈ pre, h.casts x = false) → c x = some p →
      matcher depth true () (a ++ .zero l :: b) x s = .ok (.boolean true, (f p s).2)) := by
  have hm : matcher depth true () (a ++ .zero l :: b) x s =
      .ok (.boolean true, ((first_hit x (a ++ b)).getD l s).2) := by
    unfold matcher
    rw [accepts_one_default a b l ha hb, make_one_default true a b l ha hb]
    simp only [if_true]
    rw [matcher_impl_with_default _ () x a b l depth s ha hb (by simp at hd; omega)]
    simp [invoker, result_type_info.result_t]
  refine ⟨⟨_, hm⟩, ?_, ?_⟩
  · intro hall
    rw [hm, (first_hit_eq_none x (a ++ b)).2 hall]
    rfl
  · intro pre post T c f p hdec hpre hc
    rw [hm, ← first_hit_skip_default x a b l, hdec,
      first_hit_decomp x pre post T c f p hpre hc]
    rfl

/-- Witness for C39: `matcher([](derived1&) {}, [&]{ rec("fail"); })` returns `true` on a
`derived1` object, where the case runs, and on a `derived3` object, where only the default
runs. -/
theorem matcher_void_default_true_witness :
    matcher 3 true () [derived1_void_case, fail_default] sample_object.derived1 []
      = .ok (.boolean true, ["derived1"]) ∧
    matcher 3 true () [derived1_void_case, fail_default] sample_object.derived3 []
      = .ok (.boolean true, ["fail"]) :=
  ⟨(matcher_void_default_true 3 [derived1_void_case] [] (fun s => ((), s ++ ["fail"]))
      sample_object.derived1 []
      (by simp [derived1_void_case, Handler.number_of_arguments]) (by simp)
      (by decide)).2.2 [] [fail_default] Unit
        (fun o => if o = .derived1 then some () else none)
        (fun _ s => ((), s ++ ["derived1"])) () rfl (by simp) rfl,
   (matcher_void_default_true 3 [derived1_void_case] [] (fun s => ((), s ++ ["fail"]))
      sample_object.derived3 []
      (by simp [derived1_void_case, Handler.number_of_arguments]) (by simp)
      (by decide)).2.1 (by simp [derived1_void_case, Handler.casts])⟩

end detail

/-- What `wrap_free_function` does: an object with a call operator is returned as it is;
a function pointer becomes a call operator with the parameter of the function and the
decayed result type, which returns what the function returns when the result type of the
function is not a reference. -/
theorem wrap_free_function_spec {V σ : Type} (read : σ → V → V) (f : Callable V σ) :
    detail.wrap_free_function read (.object f) = f ∧
    (detail.wrap_free_function read (.function_pointer f)).parameter = f.parameter ∧
    (detail.wrap_free_function read (.function_pointer f)).result_type
      = detail.decay_t f.result_type ∧
    (f.result_type.ref = .none →
      (detail.wrap_free_function read (.function_pointer f)).body = f.body) ∧
    (f.result_type.ref ≠ .none → ∀ v s,
      (detail.wrap_free_function read (.function_pointer f)).body v s
        = (read (f.body v s).2 (f.body v s).1, (f.body v s).2)) := by
  refine ⟨rfl, rfl, rfl, ?_, ?_⟩
  · intro href
    funext v s
    simp [detail.wrap_free_function, detail.free_function_wrapper, href]
  · intro href v s
    simp [detail.wrap_free_function, detail.free_function_wrapper, href]

/-- The test `overload_free_functions`: the overload of the function pointers `fi` and
`fb` returns 1 for an `int` and 2 for a `bool`. -/
theorem overload_free_functions :
    call (overload read_int [.function_pointer fi, .function_pointer fb]) int_rvalue 0 sevens
      = .returned 0 1 detail.int_t sevens ∧
    call (overload read_int [.function_pointer fi, .function_pointer fb]) bool_rvalue 0 sevens
      = .returned 1 2 detail.int_t sevens :=
  ⟨rfl, rfl⟩

/-- C32 (failing input): for the function `int& same(int& x) { return x; }` and an `int i`
with value 7 at place 0, `same(i)` is the object `i` itself and has type `int&`; the call
`ni::overload(&same)(i)` has type `int` and yields a copy of the value 7.  A function
object with the same signature and body keeps both. -/
theorem wrapped_function_pointer_returns_copy :
    same.result_type = detail.int_ref ∧ same.body 0 sevens = (0, sevens) ∧
    call (overload read_int [.function_pointer same]) int_lvalue 0 sevens
      = .returned 0 7 detail.int_t sevens ∧
    call (overload read_int [.object same]) int_lvalue 0 sevens
      = .returned 0 0 detail.int_ref sevens :=
  ⟨rfl, rfl, rfl, rfl⟩

end ni
